import Mathlib

/-!
# Verification of the rust-sos memory-management core

Shallow embedding of the memory-management core of the `rust-sos` kernel:

* `BumpAllocator` — `src/sos/src/memory/allocator/bump_allocator.rs`
* `PageAllocator.init` (the `pmem` population loop) —
  `src/sos/src/memory/allocator/page_allocator.rs`
* `translate_virtual_address` — `src/sos/src/memory/mod.rs` together with
  `PageTableEntry` from `src/sos/src/memory/page_table.rs`
* `ResourceAllocator` — `src/sos/src/memory/allocator/resource_allocator.rs`
* `DoublyLinkedList` — `src/sos/src/collections/linked.rs`

Modelling conventions:

* `usize`/`u64` values are modelled as `Nat`.  Arithmetic that the Rust debug
  build would reject with an overflow/underflow panic is modelled explicitly:
  a subtraction that can underflow is guarded and the operation returns `none`
  (or `ARes.panic`) in that case.  The remaining arithmetic in the modelled
  code paths stays within machine range for all inputs the kernel can produce,
  so plain `Nat` arithmetic is faithful there.
* Fallible Rust operations (`Result`, index-out-of-bounds panics, `unwrap`)
  are modelled with `Option`/`ARes`: `none`/`ARes.panic` is a panic,
  `ARes.err` is the `Err(())`/`Exhausted` value.
* Bit operations on 64-bit integers are translated with `Nat` bitwise
  operators; `!x` (bitwise not on `usize`) becomes `2 ^ 64 - 1 - x` for
  `x < 2 ^ 64`, so `!(align - 1) = 2 ^ 64 - align` for `1 ≤ align ≤ 2 ^ 64`.
-/

namespace Sos

/-! ## Bump allocator (`src/sos/src/memory/allocator/bump_allocator.rs`) -/

/-- `align_up(address, align) = (address + align - 1) & !(align - 1)`.
The source assumes `align` is a power of two; `!(align - 1)` on 64-bit
is `2 ^ 64 - align`. -/
def align_up (address align : Nat) : Nat :=
  (address + align - 1) &&& (2 ^ 64 - align)

/-- A `core::alloc::Layout`: a size and an alignment (a power of two). -/
structure Layout where
  size : Nat
  align : Nat
deriving Repr, DecidableEq

/-- State of `BumpAllocator`. -/
structure BumpAllocator where
  heap_start : Nat
  heap_size : Nat
  next : Nat
  allocations : Nat
deriving Repr, DecidableEq

namespace BumpAllocator

/-- `BumpAllocator::new(start, size)`. -/
def new (start size : Nat) : BumpAllocator :=
  { heap_start := start, heap_size := size, next := start, allocations := 0 }

/-- `BumpAllocator::upper_bound`. -/
def upper_bound (s : BumpAllocator) : Nat := s.heap_start + s.heap_size

/-- `BumpAllocator::alloc` (the `sos` crate variant, which returns a null
slice pointer on failure; modelled as `none`).  On success it returns the
address of the allocation and the updated allocator. -/
def alloc (s : BumpAllocator) (layout : Layout) : Option Nat × BumpAllocator :=
  let requested := align_up s.next layout.align
  let next := requested + layout.size
  if s.upper_bound ≤ next then
    (none, s)
  else
    (some requested, { s with next := next, allocations := s.allocations + 1 })

/-- `BumpAllocator::dealloc`.  The pointer and layout arguments are unused by
the source.  Decrementing `allocations` at zero would underflow (a panic in
debug builds), modelled as `none`. -/
def dealloc (s : BumpAllocator) : Option BumpAllocator :=
  if s.allocations = 0 then none
  else
    let s := { s with allocations := s.allocations - 1 }
    if s.allocations = 0 then some { s with next := s.heap_start }
    else some s

/-- Run a sequence of `alloc` calls, requiring every one of them to succeed. -/
def allocMany (s : BumpAllocator) : List Layout → Option BumpAllocator
  | [] => some s
  | l :: ls =>
    match alloc s l with
    | (some _, s') => allocMany s' ls
    | (none, _) => none

/-- Run `k` `dealloc` calls. -/
def deallocMany (s : BumpAllocator) : Nat → Option BumpAllocator
  | 0 => some s
  | k + 1 =>
    match dealloc s with
    | none => none
    | some s' => deallocMany s' k

end BumpAllocator

/-! ## Page allocator initialisation
(`src/sos/src/memory/allocator/page_allocator.rs`) -/

def PAGE_SIZE : Nat := 4096

/-- One record of the bootloader `MemoryMap`. -/
structure MemoryRegion where
  start_frame_number : Nat
  end_frame_number : Nat
  usable : Bool
deriving Repr, DecidableEq

/-- The byte ranges passed to `self.pmem.add(..)` by `PageAllocator::init`,
in call order.  Translated from the loop body of `init`: for each `Usable`
region the source computes `start = region.range.start_frame_number` and
`end = region.range.start_frame_number` (sic — the second read also uses
`start_frame_number`), then either adds
`(start + to_drop) * PAGE_SIZE..end * PAGE_SIZE` or drains `to_drop`. -/
def initPmemRanges (memory_map : List MemoryRegion) (used_frames : Nat) :
    List (Nat × Nat) :=
  go memory_map used_frames
where
  go : List MemoryRegion → Nat → List (Nat × Nat)
    | [], _ => []
    | r :: rest, to_drop =>
      if r.usable then
        let start := r.start_frame_number
        let stop := r.start_frame_number
        if to_drop < stop - start then
          ((start + to_drop) * PAGE_SIZE, stop * PAGE_SIZE) :: go rest 0
        else
          go rest (to_drop - (stop - start))
      else
        go rest to_drop

/-- The ranges `init` is specified to add to `pmem`: each `Usable` region as
a byte range, with the first `used_frames` frames drained from the front.
Modelled from the spec sentence "Populate `pmem` with each `Usable` region of
the memory map, skipping the first `used_frames` frames in aggregate"; used
only to exhibit the divergence of `initPmemRanges` from the specification. -/
def initPmemRangesSpec (memory_map : List MemoryRegion) (used_frames : Nat) :
    List (Nat × Nat) :=
  go memory_map used_frames
where
  go : List MemoryRegion → Nat → List (Nat × Nat)
    | [], _ => []
    | r :: rest, to_drop =>
      if r.usable then
        let start := r.start_frame_number
        let stop := r.end_frame_number
        if to_drop < stop - start then
          ((start + to_drop) * PAGE_SIZE, stop * PAGE_SIZE) :: go rest 0
        else
          go rest (to_drop - (stop - start))
      else
        go rest to_drop

/-! ## Page-table walker (`src/sos/src/memory/mod.rs`,
`src/sos/src/memory/page_table.rs`) -/

/-- `page_table::Err`. -/
inductive PTErr where
  | PageNotPresent
deriving Repr, DecidableEq

/-- The machine state `translate_virtual_address` reads: the entries of the
page tables that live in physical memory, and `cr3`.  `entry b i` is the
64-bit entry at index `i` of the page table whose physical base is `b`. -/
structure PagingState where
  entry : Nat → Nat → Nat
  cr3 : Nat

namespace PagingState

/-- `PageTableEntry::pointer`: `self.0 & 0x000F_FFFF_FFFF_FF000`. -/
def pointer (e : Nat) : Nat := e &&& 0x000FFFFFFFFFFF000

/-- `PageTableEntry::present`: `self.0 & 0x1 != 0`. -/
def present (e : Nat) : Bool := e &&& 0x1 ≠ 0

/-- `PageTableEntry::deref`: `Err(PageNotPresent)` for a non-present entry,
otherwise the physical base the entry points at. -/
def derefEntry (e : Nat) : Except PTErr Nat :=
  if ¬present e then .error .PageNotPresent else .ok (pointer e)

/-- `l4::PageTable::get`: the live L4 base from `cr3 & !0xFFF`. -/
def l4_base (m : PagingState) : Nat := m.cr3 &&& (2 ^ 64 - 0x1000)

/-- `translate_virtual_address`.  The shift amounts `(9 * k) + 12` follow
Rust's precedence for `address >> (9 * k) + 12`. -/
def translate_virtual_address (m : PagingState) (address : Nat) :
    Except PTErr Nat :=
  let l4_index := (address >>> (9 * 3 + 12)) &&& 0x1FF
  let l3_index := (address >>> (9 * 2 + 12)) &&& 0x1FF
  let l2_index := (address >>> (9 * 1 + 12)) &&& 0x1FF
  let l1_index := (address >>> (9 * 0 + 12)) &&& 0x1FF
  match derefEntry (m.entry m.l4_base l4_index) with
  | .error e => .error e
  | .ok l3_table =>
    match derefEntry (m.entry l3_table l3_index) with
    | .error e => .error e
    | .ok l2_table =>
      match derefEntry (m.entry l2_table l2_index) with
      | .error e => .error e
      | .ok l1_table =>
        let l1_entry := m.entry l1_table l1_index
        match derefEntry l1_entry with
        | .error e => .error e
        | .ok _memory_block => .ok (pointer l1_entry + (address &&& 0xFFF))

/-- The L4 entry on the walk path of `address`. -/
def walk_e4 (m : PagingState) (address : Nat) : Nat :=
  m.entry m.l4_base ((address >>> (9 * 3 + 12)) &&& 0x1FF)

/-- The L3 entry on the walk path of `address`. -/
def walk_e3 (m : PagingState) (address : Nat) : Nat :=
  m.entry (pointer (walk_e4 m address)) ((address >>> (9 * 2 + 12)) &&& 0x1FF)

/-- The L2 entry on the walk path of `address`. -/
def walk_e2 (m : PagingState) (address : Nat) : Nat :=
  m.entry (pointer (walk_e3 m address)) ((address >>> (9 * 1 + 12)) &&& 0x1FF)

/-- The L1 entry on the walk path of `address`. -/
def walk_e1 (m : PagingState) (address : Nat) : Nat :=
  m.entry (pointer (walk_e2 m address)) ((address >>> (9 * 0 + 12)) &&& 0x1FF)

end PagingState

/-! ## Kernel-computable integer helpers for the resource allocator
(`src/sos/src/memory/allocator/resource_allocator.rs`) -/

/-- Floor base-2 logarithm by structural recursion on a fuel argument, so
that concrete values reduce inside the kernel. -/
def log2_fuel : Nat → Nat → Nat
  | 0, _ => 0
  | fuel + 1, n => if 2 ≤ n then log2_fuel fuel (n / 2) + 1 else 0

/-- `usize::log2()` (floor log2; the source asserts its argument is
nonzero). Agrees with `Nat.log2` (see `usize_log2_eq`). -/
def usize_log2 (n : Nat) : Nat := log2_fuel n n

/-- `usize::BITS`. -/
def usize_bits : Nat := 64

/-- Number of significant bits of a 64-bit value. -/
def bit_length (n : Nat) : Nat := if n = 0 then 0 else usize_log2 n + 1

/-- `usize::leading_zeros()` (faithful for `n < 2 ^ 64`). -/
def leading_zeros (n : Nat) : Nat := usize_bits - bit_length n

/-- `ceil_log2(u) = usize::BITS - (u - 1).leading_zeros()` from the source. -/
def ceil_log2 (u : Nat) : Nat := usize_bits - leading_zeros (u - 1)

/-- `usize::div_ceil` (for a nonzero divisor). -/
def div_ceil (a b : Nat) : Nat := (a + b - 1) / b

/-! ## Resource allocator
(`src/sos/src/memory/allocator/resource_allocator.rs`)

The state is modelled with explicit node identities: `segments` is the
doubly-linked segment list in list order, each node carrying a numeric
identity; `freelists` holds, per size class, the identities of the free
segments in freelist order (front first); `allocated_segments` is the
`start → segment` hash map as an association list.  A segment's
`freelist_ptr.is_some()` is modelled by its `free` flag. -/

/-- A `Segment`: a half-open range plus the "is in a freelist" marking
(`free = freelist_ptr.is_some()`). -/
structure Segment where
  start : Nat
  stop : Nat
  free : Bool
deriving Repr, DecidableEq

namespace Segment

/-- `Segment::size`. -/
def size (s : Segment) : Nat := s.stop - s.start

/-- `Segment::is_allocated`. -/
def is_allocated (s : Segment) : Bool := !s.free

/-- `Segment::can_join`. -/
def can_join (s other : Segment) : Bool :=
  s.stop == other.start || s.start == other.stop

end Segment

/-- State of `ResourceAllocator<Q, A, M>` (the parameters `Q` and `M` are
passed to each operation). -/
structure ResourceAllocator where
  segments : List (Nat × Segment)
  freelists : List (List Nat)
  allocated_segments : List (Nat × Nat)
  fresh : Nat
deriving Repr, DecidableEq

/-- Result of a fallible allocator operation: a Rust panic, the `Err(())`
("exhausted") value, or success. -/
inductive ARes (α : Type) where
  | panic
  | exhausted
  | ok (a : α)
deriving Repr, DecidableEq

namespace ResourceAllocator

/-- Dereference a `SegmentPtr`. -/
def getSeg (ra : ResourceAllocator) (id : Nat) : Option Segment :=
  (ra.segments.find? (fun p => p.1 == id)).map (·.2)

/-- Mutate the segment a `SegmentPtr` points at. -/
def setSeg (segs : List (Nat × Segment)) (id : Nat) (f : Segment → Segment) :
    List (Nat × Segment) :=
  segs.map (fun p => if p.1 = id then (p.1, f p.2) else p)

/-- `getSeg`, as a function of the raw segment list. -/
def lookupSeg (segs : List (Nat × Segment)) (id : Nat) : Option Segment :=
  (segs.find? (fun p => p.1 == id)).map (·.2)

/-- The segment identities in list order. -/
def keysS (segs : List (Nat × Segment)) : List Nat := segs.map Prod.fst

/-- `DoublyLinkedList::remove` on the segment list. -/
def removeSegList (segs : List (Nat × Segment)) (id : Nat) :
    List (Nat × Segment) :=
  segs.filter (fun p => p.1 != id)

/-- `DoublyLinkedList::insert_after` on the segment list. -/
def insertAfterList (segs : List (Nat × Segment)) (id : Nat)
    (x : Nat × Segment) : List (Nat × Segment) :=
  match segs with
  | [] => []
  | p :: rest =>
    if p.1 = id then p :: x :: rest else p :: insertAfterList rest id x

/-- The `prev` pointer of a segment-list node. -/
def prevOf : List (Nat × Segment) → Nat → Option (Nat × Segment)
  | [], _ => none
  | p :: rest, id =>
    if p.1 = id then none
    else
      match rest with
      | [] => none
      | q :: _ => if q.1 = id then some p else prevOf rest id

/-- The `next` pointer of a segment-list node. -/
def nextOf : List (Nat × Segment) → Nat → Option (Nat × Segment)
  | [], _ => none
  | p :: rest, id => if p.1 = id then rest.head? else nextOf rest id

/-- `HashMap::get` on the allocated-segments table. -/
def lookupAssoc (m : List (Nat × Nat)) (k : Nat) : Option Nat :=
  (m.find? (fun p => p.1 == k)).map (·.2)

/-- `HashMap::remove` (dropping the returned value). -/
def removeAssoc (m : List (Nat × Nat)) (k : Nat) : List (Nat × Nat) :=
  m.filter (fun p => p.1 != k)

/-- `HashMap::insert` (replacing any previous binding). -/
def insertAssoc (m : List (Nat × Nat)) (k v : Nat) : List (Nat × Nat) :=
  (k, v) :: removeAssoc m k

/-- `ResourceAllocator::segment_freelist_idx`.  `none` models the
`debug_assert!(qsize > 0)` failure. -/
def segment_freelist_idx (Q M : Nat) (seg : Segment) : Option Nat :=
  let qsize := seg.size / Q
  if qsize = 0 then none else some (min (usize_log2 qsize) M)

/-- `ResourceAllocator::freelist_insert`.  `none` models the
out-of-bounds `self.freelists[idx]` panic when the computed index is `M`. -/
def freelist_insert (Q M : Nat) (ra : ResourceAllocator) (id : Nat) :
    Option ResourceAllocator :=
  match getSeg ra id with
  | none => none
  | some seg =>
    match segment_freelist_idx Q M seg with
    | none => none
    | some idx =>
      if idx < M then
        some { ra with
                freelists := ra.freelists.set idx (id :: ra.freelists.getD idx [])
                segments := setSeg ra.segments id (fun s => { s with free := true }) }
      else none

/-- `ResourceAllocator::freelist_remove`.  The source indexes
`self.freelists[idx]` before testing `freelist_ptr`, so an index of `M`
panics (`none`) even for an allocated segment. -/
def freelist_remove (Q M : Nat) (ra : ResourceAllocator) (id : Nat) :
    Option ResourceAllocator :=
  match getSeg ra id with
  | none => none
  | some seg =>
    match segment_freelist_idx Q M seg with
    | none => none
    | some idx =>
      if idx < M then
        if seg.free then
          some { ra with
                  freelists := ra.freelists.set idx
                    ((ra.freelists.getD idx []).filter (fun j => j != id))
                  segments := setSeg ra.segments id
                    (fun s => { s with free := false }) }
        else
          some ra
      else none

/-- The prev-coalescing half of `coalesce_and_freelist_insert`: returns the
updated state and the (possibly replaced) working segment pointer. -/
def coalesce_prev (Q M : Nat) (ra0 : ResourceAllocator) (id0 : Nat)
    (seg0 : Segment) : Option (ResourceAllocator × Nat) :=
  match prevOf ra0.segments id0 with
  | some (pid, pseg) =>
    if seg0.can_join pseg && !pseg.is_allocated then
      match freelist_remove Q M ra0 pid with
      | none => none
      | some ra =>
        let ra := { ra with segments := removeSegList ra.segments id0 }
        some ({ ra with
                segments := setSeg ra.segments pid
                  (fun s => { s with stop := seg0.stop }) }, pid)
    else some (ra0, id0)
  | none => some (ra0, id0)

/-- The next-coalescing half of `coalesce_and_freelist_insert`. -/
def coalesce_next (Q M : Nat) (ra1 : ResourceAllocator) (id : Nat)
    (seg : Segment) : Option ResourceAllocator :=
  match nextOf ra1.segments id with
  | some (nid, nseg) =>
    if seg.can_join nseg && !nseg.is_allocated then
      let ra := { ra1 with
        segments := setSeg ra1.segments id
          (fun s => { s with stop := nseg.stop }) }
      match freelist_remove Q M ra nid with
      | none => none
      | some ra => some { ra with segments := removeSegList ra.segments nid }
    else some ra1
  | none => some ra1

/-- `ResourceAllocator::coalesce_and_freelist_insert`. -/
def coalesce_and_freelist_insert (Q M : Nat) (ra0 : ResourceAllocator)
    (id0 : Nat) : Option ResourceAllocator :=
  match getSeg ra0 id0 with
  | none => none
  | some seg0 =>
    match coalesce_prev Q M ra0 id0 seg0 with
    | none => none
    | some (ra1, id) =>
      match getSeg ra1 id with
      | none => none
      | some seg =>
        match coalesce_next Q M ra1 id seg with
        | none => none
        | some ra2 => freelist_insert Q M ra2 id

/-- `ResourceAllocator::new` / `new_in`. -/
def new (M : Nat) : ResourceAllocator :=
  { segments := []
    freelists := List.replicate M []
    allocated_segments := []
    fresh := 0 }

/-- `ResourceAllocator::add`. -/
def add (Q M : Nat) (ra : ResourceAllocator) (start stop : Nat) :
    Option ResourceAllocator :=
  let seg : Segment := { start := start, stop := stop, free := false }
  if Q ≤ seg.size then
    let id := ra.fresh
    coalesce_and_freelist_insert Q M
      { ra with segments := ra.segments ++ [(id, seg)], fresh := id + 1 } id
  else
    pure ra

/-- The `for freelist_idx in ceil_log2(qsize)..M` loop of
`fast_find_segment`: pop the front of the first nonempty freelist among the
given indices. -/
def fast_find_loop (fls : List (List Nat)) :
    List Nat → Option (Nat × List (List Nat))
  | [] => none
  | k :: ks =>
    match fls.getD k [] with
    | [] => fast_find_loop fls ks
    | id :: rest => some (id, fls.set k rest)

/-- `ResourceAllocator::fast_find_segment`. -/
def fast_find_segment (Q M : Nat) (ra : ResourceAllocator) (size : Nat) :
    ARes (Nat × ResourceAllocator) :=
  let qsize := max (div_ceil size Q) 1
  match fast_find_loop ra.freelists
      (List.range' (ceil_log2 qsize) (M - ceil_log2 qsize)) with
  | some (id, fls) => .ok (id, { ra with freelists := fls })
  | none =>
    let freelist_idx := usize_log2 qsize
    if freelist_idx < ceil_log2 qsize then
      if freelist_idx < M then
        match (ra.freelists.getD freelist_idx []).find? (fun id =>
            match getSeg ra id with
            | some s => decide (size ≤ s.size)
            | none => false) with
        | some id =>
          .ok (id, { ra with
                      freelists := ra.freelists.set freelist_idx
                        ((ra.freelists.getD freelist_idx []).filter
                          (fun j => j != id)) })
        | none => .exhausted
      else .panic
    else .exhausted

/-- `ResourceAllocator::try_split_segment`.  `none` models the debug-build
underflow panic of `segment.size() - alloc_size`. -/
def try_split_segment (Q M : Nat) (ra : ResourceAllocator) (id : Nat)
    (alloc_size : Nat) : Option ResourceAllocator :=
  match getSeg ra id with
  | none => none
  | some seg =>
    if seg.size < alloc_size then none
    else
      let leftover_size := seg.size - alloc_size
      if Q ≤ leftover_size then
        let split_point := seg.start + alloc_size
        let new_seg : Segment :=
          { start := split_point, stop := seg.stop, free := false }
        let new_id := ra.fresh
        let ra := { ra with
                     segments := insertAfterList
                       (setSeg ra.segments id
                         (fun s => { s with stop := split_point }))
                       id (new_id, new_seg)
                     fresh := new_id + 1 }
        freelist_insert Q M ra new_id
      else
        some ra

/-- `ResourceAllocator::fast_allocate`. -/
def fast_allocate (Q M : Nat) (ra : ResourceAllocator) (size : Nat) :
    ARes ((Nat × Nat) × ResourceAllocator) :=
  match fast_find_segment Q M ra size with
  | .panic => .panic
  | .exhausted => .exhausted
  | .ok (id, ra) =>
    let ra := { ra with
      segments := setSeg ra.segments id (fun s => { s with free := false }) }
    let qsize := max (div_ceil size Q) 1
    let alloc_size := qsize * Q
    match try_split_segment Q M ra id alloc_size with
    | none => .panic
    | some ra =>
      match getSeg ra id with
      | none => .panic
      | some seg =>
        .ok ((seg.start, seg.stop),
             { ra with allocated_segments :=
                 insertAssoc ra.allocated_segments seg.start id })

/-- `ResourceAllocator::release`.  `none` models the
`.unwrap()` panic on a range that is not in the allocated table. -/
def release (Q M : Nat) (ra : ResourceAllocator) (range : Nat × Nat) :
    Option ResourceAllocator :=
  match lookupAssoc ra.allocated_segments range.1 with
  | none => none
  | some id =>
    coalesce_and_freelist_insert Q M
      { ra with
          allocated_segments := removeAssoc ra.allocated_segments range.1 }
      id

/-- The observable shape of the allocator used by the spec's
"release is the inverse of allocate" property: the segment list's sizes and
free/allocated markings, in order. -/
def profile (ra : ResourceAllocator) : List (Nat × Bool) :=
  ra.segments.map (fun p => (p.2.size, p.2.free))

/-- Well-formedness of the freelist array over a segment list: there are
`M` freelists, each duplicate-free, and every member is a free segment of
at least one quantum filed under its size class, which is below `M`. -/
def FLOK (Q M : Nat) (segs : List (Nat × Segment)) (fls : List (List Nat)) :
    Prop :=
  fls.length = M ∧ (∀ idx, (fls.getD idx []).Nodup) ∧
  ∀ idx, ∀ id ∈ fls.getD idx [],
    ∃ seg, lookupSeg segs id = some seg ∧ seg.free = true ∧
      Q ≤ Segment.size seg ∧ usize_log2 (Segment.size seg / Q) < M ∧
      min (usize_log2 (Segment.size seg / Q)) M = idx

/-- Structural invariant of a resource allocator state: the segment list is
keyed without duplicates below the freshness counter, holds only segments of
at least one quantum, in address order, with no two adjacent abutting free
segments; the freelist array is well-formed over it; and the
allocated-segments table binds each base address to a distinct currently
allocated segment. -/
structure INV (Q M : Nat) (ra : ResourceAllocator) : Prop where
  nodup : (keysS ra.segments).Nodup
  fresh_bound : ∀ p ∈ ra.segments, p.1 < ra.fresh
  sizes : ∀ p ∈ ra.segments, Q ≤ Segment.size p.2
  ordered : ra.segments.Chain' (fun p q => p.2.stop ≤ q.2.start)
  no_adj_free : ra.segments.Chain'
    (fun p q => p.2.free = true → q.2.free = true → p.2.stop ≠ q.2.start)
  flok : FLOK Q M ra.segments ra.freelists
  alloc_table : ∀ p ∈ ra.allocated_segments,
    ∃ seg, getSeg ra p.2 = some seg ∧ seg.free = false
  table_vals_nodup : (ra.allocated_segments.map Prod.snd).Nodup

end ResourceAllocator

/-- The range a `fast_allocate` call returned, if it succeeded. -/
def allocResultRange (r : ARes ((Nat × Nat) × ResourceAllocator)) :
    Option (Nat × Nat) :=
  match r with
  | .ok (rg, _) => some rg
  | _ => none

/-- States reachable by sequences of `add` / `fast_allocate` / `release`.
`add` steps carry the source's documented precondition (ranges are
non-adjacent, non-overlapping and start past every previously added range);
each step requires the operation to complete without panicking. -/
inductive Reach (Q M : Nat) : ResourceAllocator → Prop where
  | new : Reach Q M (ResourceAllocator.new M)
  | add {s s' : ResourceAllocator} {a b : Nat} : Reach Q M s → a ≤ b →
      (∀ p ∈ s.segments, p.2.stop < a) →
      ResourceAllocator.add Q M s a b = some s' → Reach Q M s'
  | alloc {s s' : ResourceAllocator} {n : Nat} {rg : Nat × Nat} :
      Reach Q M s →
      ResourceAllocator.fast_allocate Q M s n = .ok (rg, s') → Reach Q M s'
  | release {s s' : ResourceAllocator} {rg : Nat × Nat} : Reach Q M s →
      ResourceAllocator.release Q M s rg = some s' → Reach Q M s'

/-! ## Doubly linked list (`src/sos/src/collections/linked.rs`)

Nodes are modelled in an arena keyed by numeric identity (the stable
`NodePtr`); `next`/`prev`/`head`/`tail` hold identities. -/

/-- A `DoublyLinkedListNode`. -/
structure LNode (T : Type) where
  next : Option Nat
  prev : Option Nat
  value : T
deriving Repr, DecidableEq

/-- A `DoublyLinkedList`. -/
structure DoublyLinkedList (T : Type) where
  nodes : List (Nat × LNode T)
  head : Option Nat
  tail : Option Nat
  fresh : Nat
deriving Repr, DecidableEq

namespace DoublyLinkedList

/-- Arena lookup by node identity. -/
def lookupN (nodes : List (Nat × LNode T)) (id : Nat) : Option (LNode T) :=
  (nodes.find? (fun p => p.1 == id)).map (·.2)

/-- Arena update by node identity. -/
def setNodes (nodes : List (Nat × LNode T)) (id : Nat)
    (f : LNode T → LNode T) : List (Nat × LNode T) :=
  nodes.map (fun p => if p.1 = id then (p.1, f p.2) else p)

/-- Dereference a `NodePtr`. -/
def getNode (d : DoublyLinkedList T) (id : Nat) : Option (LNode T) :=
  lookupN d.nodes id

/-- Mutate the node a `NodePtr` points at. -/
def setNode (d : DoublyLinkedList T) (id : Nat) (f : LNode T → LNode T) :
    DoublyLinkedList T :=
  { d with nodes := setNodes d.nodes id f }

/-- `DoublyLinkedList::new`. -/
def new : DoublyLinkedList T :=
  { nodes := [], head := none, tail := none, fresh := 0 }

/-- `DoublyLinkedList::append`. -/
def append (d : DoublyLinkedList T) (v : T) : DoublyLinkedList T × Nat :=
  let id := d.fresh
  match d.tail with
  | some t =>
    let node : LNode T := { next := none, prev := some t, value := v }
    let d := { d with nodes := (id, node) :: d.nodes, fresh := id + 1 }
    let d := setNode d t (fun n => { n with next := some id })
    ({ d with tail := some id }, id)
  | none =>
    let node : LNode T := { next := none, prev := none, value := v }
    ({ d with
        nodes := (id, node) :: d.nodes
        fresh := id + 1
        head := some id
        tail := some id }, id)

/-- `DoublyLinkedList::insert_front`. -/
def insert_front (d : DoublyLinkedList T) (v : T) : DoublyLinkedList T × Nat :=
  let id := d.fresh
  match d.head with
  | some h =>
    let node : LNode T := { next := some h, prev := none, value := v }
    let d := { d with nodes := (id, node) :: d.nodes, fresh := id + 1 }
    let d := setNode d h (fun n => { n with prev := some id })
    ({ d with head := some id }, id)
  | none =>
    let node : LNode T := { next := none, prev := none, value := v }
    ({ d with
        nodes := (id, node) :: d.nodes
        fresh := id + 1
        head := some id
        tail := some id }, id)

/-- `DoublyLinkedList::insert_after`.  `none` models a violation of the
safety contract (the target node is not owned by this list). -/
def insert_after (d : DoublyLinkedList T) (nid : Nat) (v : T) :
    Option (DoublyLinkedList T × Nat) :=
  match getNode d nid with
  | none => none
  | some n =>
    let id := d.fresh
    let node : LNode T := { next := n.next, prev := some nid, value := v }
    let d := { d with nodes := (id, node) :: d.nodes, fresh := id + 1 }
    let d :=
      match n.next with
      | some nxt => setNode d nxt (fun nd => { nd with prev := some id })
      | none => { d with tail := some id }
    let d := setNode d nid (fun nd => { nd with next := some id })
    some (d, id)

/-- `DoublyLinkedList::remove`.  `none` models either a safety-contract
violation or the `owner.take().unwrap()` panic. -/
def remove (d : DoublyLinkedList T) (nid : Nat) :
    Option (T × DoublyLinkedList T) :=
  match getNode d nid with
  | none => none
  | some n =>
    -- `owner.take().unwrap()`: the owning slot (prev's `next`, or `head`)
    -- must be occupied
    let owner : Option Nat :=
      match n.prev with
      | some p =>
        match getNode d p with
        | none => none
        | some pn => pn.next
      | none => d.head
    match owner with
    | none => none
    | some _ =>
      let d :=
        match n.next with
        | some nxt => setNode d nxt (fun nd => { nd with prev := n.prev })
        | none => { d with tail := n.prev }
      let d :=
        match n.prev with
        | some p => setNode d p (fun nd => { nd with next := n.next })
        | none => { d with head := n.next }
      some (n.value, { d with nodes := d.nodes.filter (fun p => p.1 != nid) })

/-- `DoublyLinkedList::pop_front` (`Err(())` on an empty list is `none`;
the state is unchanged in that case). -/
def pop_front (d : DoublyLinkedList T) : Option (T × DoublyLinkedList T) :=
  match d.head with
  | none => none
  | some h => remove d h

/-- The value sequence traced by following `next` pointers. -/
def traceNext (d : DoublyLinkedList T) : Nat → Option Nat → List T
  | 0, _ => []
  | _ + 1, none => []
  | fuel + 1, some id =>
    match getNode d id with
    | none => []
    | some n => n.value :: traceNext d fuel n.next

/-- The value sequence traced by following `prev` pointers. -/
def tracePrev (d : DoublyLinkedList T) : Nat → Option Nat → List T
  | 0, _ => []
  | _ + 1, none => []
  | fuel + 1, some id =>
    match getNode d id with
    | none => []
    | some n => n.value :: tracePrev d fuel n.prev

/-- The values stored at the given node identities, in order. -/
def chainVals (d : DoublyLinkedList T) (ids : List Nat) : List T :=
  ids.filterMap (fun i => (getNode d i).map LNode.value)

/-- The node identities allocated in the arena. -/
def keys (d : DoublyLinkedList T) : List Nat := d.nodes.map Prod.fst

/-- The pointer to the first node of a segment, falling back to the given
pointer when the segment is empty. -/
def bnd (xs : List Nat) (dflt : Option Nat) : Option Nat :=
  match xs with
  | [] => dflt
  | x :: _ => some x

/-- The pointer to the last node of a segment, falling back to the given
pointer when the segment is empty. -/
def lastBnd (xs : List Nat) (dflt : Option Nat) : Option Nat :=
  match xs.getLast? with
  | some x => some x
  | none => dflt

/-- `linkedSeg f p ids q`: the nodes `ids` form a consecutive doubly linked
segment in the arena `f`, with the first node's `prev` pointing at `p` and
the last node's `next` pointing at `q`. -/
def linkedSeg (f : Nat → Option (LNode T)) :
    Option Nat → List Nat → Option Nat → Prop
  | _, [], _ => True
  | p, id :: rest, q =>
    ∃ nd : LNode T, f id = some nd ∧ nd.prev = p ∧ nd.next = bnd rest q ∧
      linkedSeg f (some id) rest q

/-- Well-formedness of a doubly linked list: some duplicate-free sequence of
node identities is exactly the arena's key multiset, is doubly linked from
`head` to `tail` with `none` at both outer ends, and stays below the
freshness counter. -/
def WF (d : DoublyLinkedList T) : Prop :=
  ∃ ids : List Nat, ids.Nodup ∧ (keys d).Perm ids ∧
    d.head = ids.head? ∧ d.tail = ids.getLast? ∧
    linkedSeg (getNode d) none ids none ∧
    ∀ x ∈ ids, x < d.fresh

end DoublyLinkedList

/-- Lists reachable by sequences of `append`, `insert_front`,
`insert_after`, `pop_front` and `remove` (the latter three only with their
safety contract met, i.e. the step does not fail). -/
inductive ReachL {T : Type} : DoublyLinkedList T → Prop where
  | new : ReachL DoublyLinkedList.new
  | append {d : DoublyLinkedList T} {v : T} : ReachL d →
      ReachL (DoublyLinkedList.append d v).1
  | insert_front {d : DoublyLinkedList T} {v : T} : ReachL d →
      ReachL (DoublyLinkedList.insert_front d v).1
  | insert_after {d d' : DoublyLinkedList T} {nid i : Nat} {v : T} :
      ReachL d → DoublyLinkedList.insert_after d nid v = some (d', i) →
      ReachL d'
  | pop_front {d d' : DoublyLinkedList T} {x : T} : ReachL d →
      DoublyLinkedList.pop_front d = some (x, d') → ReachL d'
  | remove {d d' : DoublyLinkedList T} {nid : Nat} {x : T} : ReachL d →
      DoublyLinkedList.remove d nid = some (x, d') → ReachL d'

/-! ## Theorems -/

/-- C1 (code bug): the `pmem` population loop of `PageAllocator::init` adds
no range at all, for every memory map and every `used_frames` count — the
source reads `start_frame_number` for both region bounds, so every region
appears empty.  The claim instead requires, e.g., the single usable region
of frames `[0, 10)` with `used_frames = 0` to be added as the byte range
`[0, 40960)` (second conjunct, computed by the spec-faithful variant). -/
theorem c1_init_pmem_code_bug :
    (∀ (mm : List MemoryRegion) (uf : Nat), initPmemRanges mm uf = []) ∧
    initPmemRangesSpec
      [{ start_frame_number := 0, end_frame_number := 10, usable := true }] 0 =
      [(0, 40960)] := by
  constructor
  · have go_nil : ∀ (mm : List MemoryRegion) (uf : Nat),
        initPmemRanges.go mm uf = [] := by
      intro mm
      induction mm with
      | nil => intro uf; rfl
      | cons r rest ih =>
        intro uf
        unfold initPmemRanges.go
        by_cases hu : r.usable = true <;> simp [hu, ih]
    intro mm uf
    exact go_nil mm uf
  · decide

/-- C6 (amended): for every bump-allocator state and layout, `alloc` fails
(returning a null pointer and leaving the state unchanged) if and only if
`align_up(next, align) + size ≥ heap_start + heap_size` — the source tests
`next >= self.upper_bound()`, not the claim's strict `>` — and otherwise
returns `align_up(next, align)`, sets `next` to `align_up(next, align) +
size` and increments `allocations`. -/
theorem c6_bump_alloc_characterization (s : BumpAllocator) (l : Layout) :
    BumpAllocator.alloc s l =
      if s.heap_start + s.heap_size ≤ align_up s.next l.align + l.size then
        (none, s)
      else
        (some (align_up s.next l.align),
         { s with
            next := align_up s.next l.align + l.size
            allocations := s.allocations + 1 }) := rfl

/-- C6 counterexample: on the heap `[0, 16)` with a fresh allocator, an
allocation of size 16 and alignment 1 fits exactly —
`align_up(next, align) + size = heap_start + heap_size`, so the claimed
failure condition (strict `>`) is false — yet `alloc` fails. -/
theorem c6_counterexample :
    (BumpAllocator.alloc (BumpAllocator.new 0 16)
        { size := 16, align := 1 }).1 = none ∧
    ¬ (BumpAllocator.new 0 16).heap_start + (BumpAllocator.new 0 16).heap_size <
        align_up (BumpAllocator.new 0 16).next 1 + 16 := by
  decide

/-- C10: when `BumpAllocator::alloc` fails, it leaves the allocator state
(`next` and `allocations`) exactly as it was. -/
theorem c10_bump_alloc_fail_atomic (s : BumpAllocator) (l : Layout)
    (h : (BumpAllocator.alloc s l).1 = none) :
    (BumpAllocator.alloc s l).2 = s := by
  unfold BumpAllocator.alloc at h ⊢
  by_cases hc : s.upper_bound ≤ align_up s.next l.align + l.size
  · simp [hc]
  · simp [hc] at h

/-- Witness for C10 at a concrete failing allocation. -/
theorem c10_witness :
    (BumpAllocator.alloc (BumpAllocator.new 0 0) { size := 1, align := 1 }).2 =
      BumpAllocator.new 0 0 :=
  c10_bump_alloc_fail_atomic (BumpAllocator.new 0 0) { size := 1, align := 1 }
    (by decide)

/-- `alloc` preserves the heap bounds and increments `allocations` when it
succeeds. -/
theorem alloc_some_fields {s s' : BumpAllocator} {l : Layout} {r : Nat}
    (h : BumpAllocator.alloc s l = (some r, s')) :
    s'.heap_start = s.heap_start ∧ s'.heap_size = s.heap_size ∧
    s'.allocations = s.allocations + 1 := by
  unfold BumpAllocator.alloc at h
  by_cases hc : s.upper_bound ≤ align_up s.next l.align + l.size
  · simp [hc] at h
  · simp [hc] at h
    obtain ⟨-, h2⟩ := h
    subst h2
    exact ⟨rfl, rfl, rfl⟩

/-- A successful `allocMany` preserves the heap bounds and increases
`allocations` by the number of allocations. -/
theorem allocMany_fields :
    ∀ (ls : List Layout) (s s' : BumpAllocator),
      BumpAllocator.allocMany s ls = some s' →
      s'.heap_start = s.heap_start ∧ s'.heap_size = s.heap_size ∧
      s'.allocations = s.allocations + ls.length := by
  intro ls
  induction ls with
  | nil =>
    intro s s' h
    simp [BumpAllocator.allocMany] at h
    subst h
    simp
  | cons l ls ih =>
    intro s s' h
    unfold BumpAllocator.allocMany at h
    rcases ha : BumpAllocator.alloc s l with ⟨o, s2⟩
    rw [ha] at h
    match o, h with
    | some r, h =>
      obtain ⟨h1, h2, h3⟩ := ih s2 s' h
      obtain ⟨g1, g2, g3⟩ := alloc_some_fields ha
      refine ⟨h1.trans g1, h2.trans g2, ?_⟩
      rw [h3, g3]
      simp
      omega

/-- Running `dealloc` as many times as there are live allocations resets the
allocator to its initial state. -/
theorem deallocMany_reset :
    ∀ (k : Nat) (s : BumpAllocator), s.allocations = k → 0 < k →
      BumpAllocator.deallocMany s k =
        some (BumpAllocator.new s.heap_start s.heap_size) := by
  intro k
  induction k with
  | zero => intro s _ h; omega
  | succ k ih =>
    intro s hs _
    unfold BumpAllocator.deallocMany BumpAllocator.dealloc
    rcases Nat.eq_zero_or_pos k with hk | hk
    · subst hk
      simp [hs, BumpAllocator.new, BumpAllocator.deallocMany]
    · have hk1 : ¬ (s.allocations = 0) := by omega
      have hk2 : s.allocations - 1 = k := by omega
      have hk0 : ¬ (k = 0) := by omega
      simp only [hk1, if_false, hk2, hk0]
      exact ih { s with allocations := k } rfl hk

/-- C9: starting from a fresh bump allocator, after any sequence of
successful allocations followed by an equal number of deallocations, the
allocator is back in its initial state (`allocations = 0` and `next`
reset to `heap_start`), and a subsequent allocation that fits returns
`align_up(heap_start, align)`. -/
theorem c9_bump_reset (start size : Nat) (ls : List Layout)
    (s1 : BumpAllocator)
    (h : BumpAllocator.allocMany (BumpAllocator.new start size) ls = some s1) :
    BumpAllocator.deallocMany s1 ls.length =
      some (BumpAllocator.new start size) ∧
    ∀ l : Layout, align_up start l.align + l.size < start + size →
      (BumpAllocator.alloc (BumpAllocator.new start size) l).1 =
        some (align_up start l.align) := by
  constructor
  · obtain ⟨h1, h2, h3⟩ := allocMany_fields ls _ s1 h
    cases ls with
    | nil =>
      simp [BumpAllocator.allocMany] at h
      subst h
      rfl
    | cons l ls' =>
      have h0 : s1.allocations = ls'.length + 1 := by
        rw [h3]; simp [BumpAllocator.new]
      have := deallocMany_reset (ls'.length + 1) s1 h0 (Nat.succ_pos _)
      rw [List.length_cons, this, h1, h2]
      rfl
  · intro l hl
    have hcond : ¬ ((⟨start, size, start, 0⟩ : BumpAllocator).upper_bound ≤
          align_up start l.align + l.size) := by
      simp [BumpAllocator.upper_bound]
      omega
    unfold BumpAllocator.alloc BumpAllocator.new
    simp [hcond]

/-- Witness for C9: two successful allocations and two deallocations on a
fresh allocator over `[0, 100)`. -/
theorem c9_witness :
    BumpAllocator.deallocMany
        { heap_start := 0, heap_size := 100, next := 12, allocations := 2 } 2 =
      some (BumpAllocator.new 0 100) :=
  (c9_bump_reset 0 100 [{ size := 8, align := 1 }, { size := 4, align := 4 }]
    { heap_start := 0, heap_size := 100, next := 12, allocations := 2 }
    (by decide)).1

/-- C7: `translate_virtual_address` returns `PageNotPresent` exactly when
some entry on the L4→L3→L2→L1 walk path of the address is not-present, and
otherwise returns the L1 entry's frame base plus the low 12 bits of the
address; it never panics on a not-present path (its only error value is
`PageNotPresent`). -/
theorem c7_translate_walk (m : PagingState) (address : Nat) :
    (m.translate_virtual_address address = .error .PageNotPresent ↔
      (PagingState.present (PagingState.walk_e4 m address) = false ∨
       PagingState.present (PagingState.walk_e3 m address) = false ∨
       PagingState.present (PagingState.walk_e2 m address) = false ∨
       PagingState.present (PagingState.walk_e1 m address) = false)) ∧
    (m.translate_virtual_address address ≠ .error .PageNotPresent →
      m.translate_virtual_address address =
        .ok (PagingState.pointer (PagingState.walk_e1 m address) +
          (address &&& 0xFFF))) := by
  by_cases h4 : PagingState.present (PagingState.walk_e4 m address) <;>
    by_cases h3 : PagingState.present (PagingState.walk_e3 m address) <;>
      by_cases h2 : PagingState.present (PagingState.walk_e2 m address) <;>
        by_cases h1 : PagingState.present (PagingState.walk_e1 m address) <;>
          simp_all [PagingState.translate_virtual_address,
            PagingState.derefEntry, PagingState.walk_e4, PagingState.walk_e3,
            PagingState.walk_e2, PagingState.walk_e1]

/-- C3 counterexample: with `Q = 2`, after `add(0..10 ∖ …) = add(0..5)` the
allocator holds one free segment of size 5; `allocate(4)` (so
`qsize·Q = 4`) succeeds but returns the whole range `[0, 5)` of length 5 —
the leftover 1 is smaller than the quantum, the segment is not split, and
the returned range is larger than `qsize·Q`. -/
theorem c3_counterexample :
    (ResourceAllocator.add 2 64 (ResourceAllocator.new 64) 0 5).bind
      (fun s => allocResultRange (ResourceAllocator.fast_allocate 2 64 s 4)) =
      some (0, 5) ∧
    (5 : Nat) - 0 ≠ max (div_ceil 4 2) 1 * 2 := by
  decide

namespace ResourceAllocator

/-- `setSeg` commutes with key lookup: the found pair is the original one,
updated when its key is the modified one. -/
theorem find?_setSeg (segs : List (Nat × Segment)) (j id : Nat)
    (f : Segment → Segment) :
    (setSeg segs j f).find? (fun p => p.1 == id) =
      (segs.find? (fun p => p.1 == id)).map
        (fun p => if p.1 = j then (p.1, f p.2) else p) := by
  induction segs with
  | nil => rfl
  | cons p rest ih =>
    simp only [setSeg, List.map_cons, List.find?_cons]
    have hk : ((if p.1 = j then (p.1, f p.2) else p) : Nat × Segment).1 = p.1 := by
      by_cases hj : p.1 = j <;> simp [hj]
    rw [hk]
    by_cases hp : p.1 = id
    · have hb : (p.1 == id) = true := by simpa using hp
      simp [hb]
    · have hb : (p.1 == id) = false := by simpa using hp
      simp only [hb]
      simp only [setSeg] at ih
      rw [ih]

/-- `insertAfterList` inserts after the first occurrence of the key, so
key lookup is unchanged. -/
theorem find?_insertAfterList (segs : List (Nat × Segment)) (id : Nat)
    (x : Nat × Segment) :
    (insertAfterList segs id x).find? (fun p => p.1 == id) =
      segs.find? (fun p => p.1 == id) := by
  induction segs with
  | nil => rfl
  | cons p rest ih =>
    by_cases hp : p.1 = id
    · simp [insertAfterList, hp, List.find?_cons]
    · simp [insertAfterList, hp, List.find?_cons, ih]

/-- Unfolding of a successful `freelist_insert`: only the target segment's
`free` flag (and the freelists) change. -/
theorem freelist_insert_eq {Q M : Nat} {ra ra' : ResourceAllocator} {j : Nat}
    (h : freelist_insert Q M ra j = some ra') :
    ra'.segments = setSeg ra.segments j (fun s => { s with free := true }) ∧
    ra'.allocated_segments = ra.allocated_segments ∧
    ra'.fresh = ra.fresh := by
  unfold freelist_insert at h
  cases hseg : getSeg ra j with
  | none => simp [hseg] at h
  | some seg =>
    simp only [hseg] at h
    cases hidx : segment_freelist_idx Q M seg with
    | none => simp [hidx] at h
    | some idx =>
      simp only [hidx] at h
      by_cases hm : idx < M
      · simp only [hm, if_true] at h
        cases h
        exact ⟨rfl, rfl, rfl⟩
      · simp [hm] at h

/-- The range of the segment a successful `try_split_segment` leaves behind
under the target id: the original start, and either the split point or the
original stop. -/
theorem try_split_range {Q M : Nat} {ra ra' : ResourceAllocator}
    {id alloc_size : Nat}
    (h : try_split_segment Q M ra id alloc_size = some ra') :
    ∃ seg : Segment, getSeg ra id = some seg ∧ alloc_size ≤ seg.size ∧
      ∃ seg' : Segment, getSeg ra' id = some seg' ∧
        seg'.start = seg.start ∧
        ((Q ≤ seg.size - alloc_size ∧ seg'.stop = seg.start + alloc_size) ∨
         (seg.size - alloc_size < Q ∧ seg'.stop = seg.stop)) := by
  unfold try_split_segment at h
  cases hseg : getSeg ra id with
  | none => simp [hseg] at h
  | some seg =>
    simp only [hseg] at h
    by_cases hlt : seg.size < alloc_size
    · simp [hlt] at h
    · simp only [hlt, if_false] at h
      refine ⟨seg, rfl, by omega, ?_⟩
      by_cases hq : Q ≤ seg.size - alloc_size
      · simp only [hq, if_true] at h
        obtain ⟨hsegs, -, -⟩ := freelist_insert_eq h
        unfold getSeg at hseg
        cases hfind : ra.segments.find? (fun p => p.1 == id) with
        | none => rw [hfind] at hseg; simp at hseg
        | some p =>
          obtain ⟨pk, pseg⟩ := p
          rw [hfind] at hseg
          simp only [Option.map_some', Option.some.injEq] at hseg
          have hkey : pk = id := by simpa using List.find?_some hfind
          rw [hkey] at hfind
          subst hseg
          refine ⟨(if id = ra.fresh
              then { pseg with stop := pseg.start + alloc_size, free := true }
              else { pseg with stop := pseg.start + alloc_size } : Segment),
            ?_, ?_, ?_⟩
          · unfold getSeg
            rw [hsegs, find?_setSeg, find?_insertAfterList, find?_setSeg,
              hfind]
            by_cases hnew : id = ra.fresh <;> simp [hnew]
          · by_cases hnew : id = ra.fresh <;> simp [hnew]
          · left
            refine ⟨hq, ?_⟩
            by_cases hnew : id = ra.fresh <;> simp [hnew]
      · simp only [hq, if_false] at h
        cases h
        exact ⟨seg, hseg, rfl, Or.inr (by omega)⟩

end ResourceAllocator

/-- C3 (amended): a successful `allocate(size)` returns a range whose
length is at least `qsize·Q` but smaller than `qsize·Q + Q`; it is exactly
`qsize·Q` when the chosen segment's leftover is at least `Q` (split case),
and otherwise the whole chosen segment. -/
theorem c3_allocate_range (Q M : Nat) (s s' : ResourceAllocator)
    (rg : Nat × Nat) (size : Nat) (hQ : 1 ≤ Q)
    (h : ResourceAllocator.fast_allocate Q M s size = .ok (rg, s')) :
    max (div_ceil size Q) 1 * Q ≤ rg.2 - rg.1 ∧
    rg.2 - rg.1 < max (div_ceil size Q) 1 * Q + Q := by
  unfold ResourceAllocator.fast_allocate at h
  cases hf : ResourceAllocator.fast_find_segment Q M s size with
  | panic => simp [hf] at h
  | exhausted => simp [hf] at h
  | ok pr =>
    obtain ⟨id, ra1⟩ := pr
    simp only [hf] at h
    cases hsp : ResourceAllocator.try_split_segment Q M
        { ra1 with
            segments := ResourceAllocator.setSeg ra1.segments id
              (fun s => { s with free := false }) } id
        (max (div_ceil size Q) 1 * Q) with
    | none => simp [hsp] at h
    | some ra3 =>
      simp only [hsp] at h
      cases hget : ResourceAllocator.getSeg ra3 id with
      | none => simp [hget] at h
      | some seg =>
        simp only [hget, ARes.ok.injEq] at h
        obtain ⟨rfl, -⟩ := h
        obtain ⟨seg0, hgs, hle, seg', hgs', hstart, hcase⟩ :=
          ResourceAllocator.try_split_range hsp
        have hss : seg' = seg := Option.some.inj (hgs'.symm.trans hget)
        subst hss
        unfold Segment.size at *
        dsimp only
        rcases hcase with ⟨hq, hstop⟩ | ⟨hlow, hstop⟩ <;> omega

/-- Witness for C3 at `Q = 2`, `M = 64`: allocating 4 bytes out of the free
segment `[0, 5)` returns the whole segment. -/
theorem c3_witness :
    max (div_ceil 4 2) 1 * 2 ≤ (5 : Nat) - 0 ∧
    (5 : Nat) - 0 < max (div_ceil 4 2) 1 * 2 + 2 :=
  c3_allocate_range 2 64
    { segments := [(0, { start := 0, stop := 5, free := true })]
      freelists := (List.replicate 64 []).set 1 [0]
      allocated_segments := []
      fresh := 1 }
    { segments := [(0, { start := 0, stop := 5, free := false })]
      freelists := List.replicate 64 []
      allocated_segments := [(0, 0)]
      fresh := 1 }
    (0, 5) 4 (by decide) (by decide)

/-- C4 (code bug): with `Q = 2`, after `add(0..5)` the lone free segment
(size 5, class `⌊log2 2⌋ = 1`) satisfies the source's slow-path scan
predicate `segment.size() >= size` for `allocate(5)` (`5 ≤ 5`) although it
is smaller than `qsize·Q = 6`; the claim (and spec) say the scan requires
`size ≥ qsize·Q` and thus that this allocation fails with `Exhausted`,
but the code selects the segment and the subsequent
`segment.size() - alloc_size` underflows (a panic in debug builds). -/
theorem c4_slow_path_code_bug :
    (ResourceAllocator.add 2 64 (ResourceAllocator.new 64) 0 5).map
      (fun s => ResourceAllocator.fast_allocate 2 64 s 5) =
      some ARes.panic ∧
    ((5 : Nat) ≤ 5 ∧ (5 : Nat) < max (div_ceil 5 2) 1 * 2) := by
  decide

/-- C5 (code bug): with `M = 2`, `Q = 1`, `add(0..8)` should place the free
segment (qsize 8) in freelist `min(M-1, ⌊log2 8⌋) = 1` per the claim (the
top class absorbs everything larger); the source computes
`min(M, ⌊log2 8⌋) = 2` and panics indexing `self.freelists[2]` in an array
of length 2, so `add` panics instead of storing the segment. -/
theorem c5_freelist_idx_code_bug :
    ResourceAllocator.add 1 2 (ResourceAllocator.new 2) 0 8 = none ∧
    ResourceAllocator.segment_freelist_idx 1 2
      { start := 0, stop := 8, free := false } = some 2 ∧
    min (2 - 1) (usize_log2 (8 / 1)) = 1 := by
  decide

namespace DoublyLinkedList

/-- Natural-number `==` is `false` on distinct values. -/
theorem beq_false_of_ne {a b : Nat} (h : ¬ a = b) : (a == b) = false := by
  simpa using h

/-- Lookup after a fresh cons. -/
theorem lookupN_cons {T : Type} (j : Nat) (n : LNode T)
    (nodes : List (Nat × LNode T)) (x : Nat) :
    lookupN ((j, n) :: nodes) x = if x = j then some n else lookupN nodes x := by
  by_cases h : x = j
  · subst h
    simp [lookupN, List.find?_cons]
  · have hb : (j == x) = false := by
      simp [Ne.symm h]
    simp [lookupN, List.find?_cons, hb, h]

/-- Lookup after `setNodes`. -/
theorem lookupN_setNodes {T : Type} (nodes : List (Nat × LNode T))
    (j x : Nat) (f : LNode T → LNode T) :
    lookupN (setNodes nodes j f) x =
      if x = j then (lookupN nodes x).map f else lookupN nodes x := by
  have hfind : (setNodes nodes j f).find? (fun p => p.1 == x) =
      (nodes.find? (fun p => p.1 == x)).map
        (fun p => if p.1 = j then (p.1, f p.2) else p) := by
    induction nodes with
    | nil => rfl
    | cons p rest ih =>
      simp only [setNodes, List.map_cons, List.find?_cons]
      have hk : ((if p.1 = j then (p.1, f p.2) else p) : Nat × LNode T).1 = p.1 := by
        by_cases hj : p.1 = j <;> simp [hj]
      rw [hk]
      by_cases hp : p.1 = x
      · have hb : (p.1 == x) = true := by simpa using hp
        simp [hb]
      · have hb : (p.1 == x) = false := by simpa using hp
        simp only [hb]
        simp only [setNodes] at ih
        rw [ih]
  unfold lookupN
  rw [hfind]
  cases hf : nodes.find? (fun p => p.1 == x) with
  | none => by_cases h : x = j <;> simp
  | some p =>
    have hk : p.1 = x := by simpa using List.find?_some hf
    by_cases h : x = j
    · subst h
      simp [hk]
    · have hpj : ¬ p.1 = j := by rw [hk]; exact h
      simp [hpj, h]

/-- Lookup after removing one identity. -/
theorem lookupN_filter_ne {T : Type} (nodes : List (Nat × LNode T))
    (j x : Nat) :
    lookupN (nodes.filter (fun p => p.1 != j)) x =
      if x = j then none else lookupN nodes x := by
  induction nodes with
  | nil => by_cases h : x = j <;> simp [lookupN, h]
  | cons p rest ih =>
    by_cases hpj : p.1 = j
    · rw [List.filter_cons_of_neg (by simp [hpj])]
      rw [ih]
      by_cases h : x = j
      · simp [h]
      · have hbx : (p.1 == x) = false :=
          beq_false_of_ne (by rw [hpj]; exact fun hh => h hh.symm)
        simp [h, lookupN, List.find?_cons, hbx]
    · rw [List.filter_cons_of_pos (by simpa using hpj)]
      by_cases hx : x = p.1
      · subst hx
        have hbx : (p.1 == p.1) = true := by simp
        simp [lookupN, List.find?_cons, hbx, hpj]
      · have hbx : (p.1 == x) = false :=
          beq_false_of_ne (fun hh => hx hh.symm)
        simp only [lookupN, List.find?_cons, hbx]
        simp only [lookupN] at ih
        rw [ih]

/-- `setNodes` preserves the key sequence. -/
theorem keys_setNodes {T : Type} (nodes : List (Nat × LNode T)) (j : Nat)
    (f : LNode T → LNode T) :
    (setNodes nodes j f).map Prod.fst = nodes.map Prod.fst := by
  induction nodes with
  | nil => rfl
  | cons p rest ih =>
    simp only [setNodes, List.map_cons] at *
    rw [ih]
    by_cases hj : p.1 = j <;> simp [hj]

/-- Removal filters the key sequence. -/
theorem keys_filter_ne {T : Type} (nodes : List (Nat × LNode T)) (j : Nat) :
    (nodes.filter (fun p => p.1 != j)).map Prod.fst =
      (nodes.map Prod.fst).filter (fun x => x != j) := by
  induction nodes with
  | nil => rfl
  | cons p rest ih =>
    by_cases hpj : p.1 = j <;>
      simp [List.filter_cons, hpj, ih]

/-- Filtering one element out of a duplicate-free list. -/
theorem filter_ne_of_nodup (l r : List Nat) (a : Nat)
    (h : (l ++ a :: r).Nodup) :
    (l ++ a :: r).filter (fun x => x != a) = l ++ r := by
  induction l with
  | nil =>
    simp only [List.nil_append, List.nodup_cons] at h ⊢
    rw [List.filter_cons_of_neg (by simp)]
    exact List.filter_eq_self.2 (fun x hx => by
      simp only [ne_eq, bne_iff_ne]
      exact fun hxa => h.1 (hxa ▸ hx))
  | cons b l ih =>
    simp only [List.cons_append, List.nodup_cons] at h
    have hba : b ≠ a := fun hba => h.1 (by simp [hba])
    rw [List.cons_append, List.filter_cons_of_pos (by simpa using hba),
      ih h.2, List.cons_append]

/-- `bnd` looks into the first list of an append. -/
theorem bnd_append (xs ys : List Nat) (q : Option Nat) :
    bnd (xs ++ ys) q = bnd xs (bnd ys q) := by
  cases xs <;> rfl

/-- `lastBnd` of a cons. -/
theorem lastBnd_cons (a : Nat) (l : List Nat) (p : Option Nat) :
    lastBnd (a :: l) p = lastBnd l (some a) := by
  cases l with
  | nil => rfl
  | cons b xs =>
    have hz : ∃ z, (b :: xs).getLast? = some z := by
      induction xs generalizing b with
      | nil => exact ⟨b, rfl⟩
      | cons c cs ihx =>
        obtain ⟨z, hz⟩ := ihx c
        exact ⟨z, by rw [List.getLast?_cons_cons]; exact hz⟩
    obtain ⟨z, hz⟩ := hz
    simp [lastBnd, List.getLast?_cons_cons, hz]

/-- Chain congruence: only the nodes on the chain matter. -/
theorem linkedSeg_congr {T : Type} {f g : Nat → Option (LNode T)} :
    ∀ (ids : List Nat) (p q : Option Nat), (∀ x ∈ ids, g x = f x) →
      linkedSeg f p ids q → linkedSeg g p ids q := by
  intro ids
  induction ids with
  | nil => intro p q _ _; trivial
  | cons a rest ih =>
    intro p q hc h
    obtain ⟨nd, h1, h2, h3, h4⟩ := h
    exact ⟨nd, (hc a (by simp)).trans h1, h2, h3,
      ih _ _ (fun x hx => hc x (by simp [hx])) h4⟩

/-- Splitting a chain at an append. -/
theorem linkedSeg_append {T : Type} {f : Nat → Option (LNode T)} :
    ∀ (l r : List Nat) (p q : Option Nat),
      linkedSeg f p (l ++ r) q ↔
        (linkedSeg f p l (bnd r q) ∧ linkedSeg f (lastBnd l p) r q) := by
  intro l
  induction l with
  | nil =>
    intro r p q
    simp [linkedSeg, lastBnd]
  | cons a l ih =>
    intro r p q
    simp only [List.cons_append, linkedSeg, lastBnd_cons]
    constructor
    · rintro ⟨nd, h1, h2, h3, h4⟩
      have h5 := (ih r (some a) q).1 h4
      exact ⟨⟨nd, h1, h2, by rw [h3]; exact bnd_append l r q, h5.1⟩, h5.2⟩
    · rintro ⟨⟨nd, h1, h2, h3, hl⟩, hr⟩
      exact ⟨nd, h1, h2, by rw [h3]; exact (bnd_append l r q).symm,
        (ih r (some a) q).2 ⟨hl, hr⟩⟩

/-- Retargeting the closing `next` pointer of a segment: if only the last
node changes, and only in its `next` field, the segment stays linked with
the new closing pointer. -/
theorem linkedSeg_set_last_next {T : Type} {f g : Nat → Option (LNode T)} :
    ∀ (l : List Nat) (p q q2 : Option Nat),
      linkedSeg f p l q →
      (∀ x ∈ l.dropLast, g x = f x) →
      (∀ a, l.getLast? = some a →
        ∃ nd : LNode T, f a = some nd ∧ g a = some { nd with next := q2 }) →
      linkedSeg g p l q2 := by
  intro l
  induction l with
  | nil => intro p q q2 _ _ _; trivial
  | cons a rest ih =>
    intro p q q2 h hc hl
    obtain ⟨nd, h1, h2, h3, h4⟩ := h
    cases rest with
    | nil =>
      obtain ⟨nd', hnd', hg⟩ := hl a rfl
      rw [h1] at hnd'
      cases hnd'
      exact ⟨{ nd with next := q2 }, hg, h2, rfl, trivial⟩
    | cons b rest' =>
      refine ⟨nd, ?_, h2, h3, ?_⟩
      · rw [hc a (by simp)]
        exact h1
      · exact ih _ _ _ h4 (fun x hx => hc x (by simp [hx]))
          (fun a' ha' => hl a' (by rw [List.getLast?_cons_cons]; exact ha'))

/-- A nonempty list has a last element. -/
theorem getLast?_cons_isSome (a : Nat) (xs : List Nat) :
    ∃ z, (a :: xs).getLast? = some z := by
  induction xs generalizing a with
  | nil => exact ⟨a, rfl⟩
  | cons c cs ihx =>
    obtain ⟨z, hz⟩ := ihx c
    exact ⟨z, by rw [List.getLast?_cons_cons]; exact hz⟩

/-- A list with `getLast? = none` is empty. -/
theorem eq_nil_of_getLast?_eq_none {l : List Nat} (h : l.getLast? = none) :
    l = [] := by
  cases l with
  | nil => rfl
  | cons a xs =>
    obtain ⟨z, hz⟩ := getLast?_cons_isSome a xs
    rw [hz] at h
    cases h

/-- Decompose a list at its last element. -/
theorem exists_concat_of_getLast? {ids : List Nat} {t : Nat}
    (h : ids.getLast? = some t) : ∃ l, ids = l ++ [t] := by
  induction ids with
  | nil => cases h
  | cons a rest ih =>
    cases rest with
    | nil =>
      cases h
      exact ⟨[], rfl⟩
    | cons b xs =>
      rw [List.getLast?_cons_cons] at h
      obtain ⟨l, hl⟩ := ih h
      exact ⟨a :: l, by rw [List.cons_append, ← hl]⟩

/-- `head?` of an append with a nonempty left part. -/
theorem head?_append_left (xs ys : List Nat) (h : xs ≠ []) :
    (xs ++ ys).head? = xs.head? := by
  cases xs with
  | nil => exact absurd rfl h
  | cons a l => rfl

/-- `lastBnd` of a concat. -/
theorem lastBnd_concat (l : List Nat) (t : Nat) (p : Option Nat) :
    lastBnd (l ++ [t]) p = some t := by
  simp [lastBnd, List.getLast?_concat]

/-- Every chain member has a node in the arena. -/
theorem linkedSeg_mem_exists {T : Type} {f : Nat → Option (LNode T)}
    {ids : List Nat} {p q : Option Nat} {x : Nat}
    (h : linkedSeg f p ids q) (hx : x ∈ ids) :
    ∃ nd : LNode T, f x = some nd := by
  obtain ⟨s, t, rfl⟩ := List.append_of_mem hx
  have h2 := ((linkedSeg_append s (x :: t) p q).1 h).2
  obtain ⟨nd, hnd, -⟩ := h2
  exact ⟨nd, hnd⟩

/-- A successful lookup means the identity is among the keys. -/
theorem mem_keys_of_lookupN {T : Type} {nodes : List (Nat × LNode T)}
    {x : Nat} {n : LNode T} (h : lookupN nodes x = some n) :
    x ∈ nodes.map Prod.fst := by
  unfold lookupN at h
  cases hf : nodes.find? (fun p => p.1 == x) with
  | none => rw [hf] at h; cases h
  | some p =>
    have hk : p.1 = x := by simpa using List.find?_some hf
    have hm : p ∈ nodes := List.mem_of_find?_eq_some hf
    rw [← hk]
    exact List.mem_map_of_mem Prod.fst hm

/-- An empty list is well-formed. -/
theorem WF_new {T : Type} : WF (new : DoublyLinkedList T) :=
  ⟨[], List.nodup_nil, by simp [keys, new], rfl, rfl, trivial, by simp⟩

/-- `append` preserves well-formedness. -/
theorem WF_append {T : Type} {d : DoublyLinkedList T} (v : T) (h : WF d) :
    WF (append d v).1 := by
  obtain ⟨ids, hnodup, hperm, hhead, htail, hchain, hfresh⟩ := h
  unfold append
  cases htl : d.tail with
  | none =>
    have hids : ids = [] := by
      rw [htail] at htl
      exact eq_nil_of_getLast?_eq_none htl
    subst hids
    refine ⟨[d.fresh], by simp, ?_, ?_, rfl, ?_, ?_⟩
    · show (d.fresh :: keys d).Perm [d.fresh]
      have : keys d = [] := hperm.eq_nil
      rw [this]
    · simp [hhead]
    · exact ⟨{ next := none, prev := none, value := v },
        by simp [getNode, lookupN_cons], rfl, rfl, trivial⟩
    · intro x hx
      simp only [List.mem_singleton] at hx
      subst hx
      simp
  | some t =>
    dsimp only [setNode]
    rw [htail] at htl
    obtain ⟨l, rfl⟩ := exists_concat_of_getLast? htl
    have htmem : t ∈ l ++ [t] := by simp
    have htfresh : t < d.fresh := hfresh t htmem
    have hlfresh : ∀ x ∈ l, x < d.fresh := fun x hx =>
      hfresh x (by simp [hx])
    have hlt : ∀ x ∈ l, x ≠ t := by
      rw [List.nodup_append] at hnodup
      intro x hx hxt
      exact hnodup.2.2 hx (by simp [hxt])
    -- the updated arena lookup
    have harena : ∀ x : Nat,
        lookupN (setNodes ((d.fresh,
            ({ next := none, prev := some t, value := v } : LNode T)) ::
            d.nodes) t (fun n => { n with next := some d.fresh })) x =
          if x = t then
            (getNode d x).map (fun n => { n with next := some d.fresh })
          else if x = d.fresh then
            some { next := none, prev := some t, value := v }
          else getNode d x := by
      intro x
      rw [lookupN_setNodes, lookupN_cons]
      have ht1 : ¬ t = d.fresh := by omega
      have ht2 : ¬ d.fresh = t := by omega
      by_cases hx : x = t
      · have hxf : ¬ x = d.fresh := by rw [hx]; omega
        simp [hx, hxf, ht1, ht2, getNode]
      · by_cases hxf : x = d.fresh <;> simp [hx, hxf, ht1, ht2, getNode]
    refine ⟨(l ++ [t]) ++ [d.fresh], ?_, ?_, ?_, ?_, ?_, ?_⟩
    · rw [List.nodup_append]
      refine ⟨hnodup, by simp, ?_⟩
      intro x hx hx2
      simp only [List.mem_singleton] at hx2
      rw [hx2] at hx
      exact absurd (hfresh d.fresh hx) (lt_irrefl _)
    · show ((setNodes ((d.fresh,
          ({ next := none, prev := some t, value := v } : LNode T)) ::
          d.nodes) t (fun n => { n with next := some d.fresh })).map
            Prod.fst).Perm ((l ++ [t]) ++ [d.fresh])
      rw [keys_setNodes]
      refine List.Perm.trans ?_ (List.perm_append_singleton _ _).symm
      exact hperm.cons d.fresh
    · show d.head = _
      rw [hhead]
      exact (head?_append_left _ _ (by simp)).symm
    · exact (List.getLast?_concat _).symm
    · refine (linkedSeg_append _ _ _ _).2 ⟨?_, ?_⟩
      · refine linkedSeg_set_last_next (f := getNode d) (l ++ [t]) none none
          (some d.fresh) hchain ?_ ?_
        · intro x hx
          rw [List.dropLast_concat] at hx
          show lookupN _ _ = _
          rw [harena x]
          have hx1 : ¬ x = t := hlt x hx
          have hx2 : ¬ x = d.fresh := by
            have := hlfresh x hx
            omega
          simp [hx1, hx2]
        · intro a ha
          rw [List.getLast?_concat] at ha
          cases ha
          obtain ⟨nd, hnd⟩ := linkedSeg_mem_exists hchain htmem
          refine ⟨nd, hnd, ?_⟩
          show lookupN _ _ = _
          rw [harena t]
          simp [hnd]
      · rw [lastBnd_concat]
        refine ⟨{ next := none, prev := some t, value := v }, ?_, rfl, rfl,
          trivial⟩
        show lookupN _ _ = _
        rw [harena d.fresh]
        have h1 : ¬ d.fresh = t := by omega
        simp [h1]
    · intro x hx
      simp only [List.mem_append, List.mem_singleton] at hx
      show x < d.fresh + 1
      rcases hx with hx | hx
      · have : x < d.fresh := hfresh x (by simpa using hx)
        omega
      · omega

/-- `getLast?` ignores a prefix before a cons. -/
theorem getLast?_append_cons (l : List Nat) (a : Nat) (r : List Nat) :
    (l ++ a :: r).getLast? = (a :: r).getLast? := by
  induction l with
  | nil => rfl
  | cons b l ih =>
    cases hc : l ++ a :: r with
    | nil => simp at hc
    | cons c cs =>
      rw [List.cons_append, hc, List.getLast?_cons_cons, ← hc, ih]

/-- `head?` ignores the tail after the leading element of the suffix. -/
theorem head?_append_cons (l : List Nat) (a : Nat) (r r' : List Nat) :
    (l ++ a :: r).head? = (l ++ a :: r').head? := by
  cases l <;> rfl

/-- `insert_front` preserves well-formedness. -/
theorem WF_insert_front {T : Type} {d : DoublyLinkedList T} (v : T)
    (h : WF d) : WF (insert_front d v).1 := by
  obtain ⟨ids, hnodup, hperm, hhead, htail, hchain, hfresh⟩ := h
  unfold insert_front
  cases hhd : d.head with
  | none =>
    have hids : ids = [] := by
      rw [hhead] at hhd
      cases ids with
      | nil => rfl
      | cons a r => cases hhd
    subst hids
    refine ⟨[d.fresh], by simp, ?_, rfl, ?_, ?_, ?_⟩
    · show (d.fresh :: keys d).Perm [d.fresh]
      have : keys d = [] := hperm.eq_nil
      rw [this]
    · simp [htail]
    · exact ⟨{ next := none, prev := none, value := v },
        by simp [getNode, lookupN_cons], rfl, rfl, trivial⟩
    · intro x hx
      simp only [List.mem_singleton] at hx
      rw [hx]
      simp
  | some hd0 =>
    dsimp only [setNode]
    rw [hhead] at hhd
    obtain ⟨rest, rfl⟩ : ∃ rest, ids = hd0 :: rest := by
      cases ids with
      | nil => cases hhd
      | cons a r =>
        cases hhd
        exact ⟨r, rfl⟩
    have hhfresh : hd0 < d.fresh := hfresh hd0 (by simp)
    have hrfresh : ∀ x ∈ rest, x < d.fresh := fun x hx =>
      hfresh x (by simp [hx])
    have hhr : hd0 ∉ rest := (List.nodup_cons.1 hnodup).1
    have harena : ∀ x : Nat,
        lookupN (setNodes ((d.fresh,
            ({ next := some hd0, prev := none, value := v } : LNode T)) ::
            d.nodes) hd0 (fun n => { n with prev := some d.fresh })) x =
          if x = hd0 then
            (getNode d x).map (fun n => { n with prev := some d.fresh })
          else if x = d.fresh then
            some { next := some hd0, prev := none, value := v }
          else getNode d x := by
      intro x
      rw [lookupN_setNodes, lookupN_cons]
      have ht1 : ¬ hd0 = d.fresh := by omega
      have ht2 : ¬ d.fresh = hd0 := by omega
      by_cases hx : x = hd0
      · have hxf : ¬ x = d.fresh := by rw [hx]; omega
        simp [hx, hxf, ht1, ht2, getNode]
      · by_cases hxf : x = d.fresh <;> simp [hx, hxf, ht1, ht2, getNode]
    refine ⟨d.fresh :: hd0 :: rest, ?_, ?_, rfl, ?_, ?_, ?_⟩
    · rw [List.nodup_cons]
      refine ⟨?_, hnodup⟩
      intro hx
      exact absurd (hfresh d.fresh hx) (lt_irrefl _)
    · show ((setNodes ((d.fresh,
          ({ next := some hd0, prev := none, value := v } : LNode T)) ::
          d.nodes) hd0 (fun n => { n with prev := some d.fresh })).map
            Prod.fst).Perm (d.fresh :: hd0 :: rest)
      rw [keys_setNodes]
      exact hperm.cons d.fresh
    · show d.tail = _
      rw [htail]
      exact (List.getLast?_cons_cons).symm
    · obtain ⟨nd, h1, h2, h3, h4⟩ := hchain
      refine ⟨{ next := some hd0, prev := none, value := v }, ?_, rfl, rfl,
        ?_⟩
      · show lookupN _ _ = _
        rw [harena d.fresh]
        have hf1 : ¬ d.fresh = hd0 := by omega
        simp [hf1]
      · refine ⟨{ nd with prev := some d.fresh }, ?_, rfl, ?_, ?_⟩
        · show lookupN _ _ = _
          rw [harena hd0]
          simp [h1]
        · simpa using h3
        · refine linkedSeg_congr rest (some hd0) none ?_ h4
          intro x hx
          show lookupN _ _ = _
          rw [harena x]
          have hx1 : ¬ x = hd0 := fun hh => hhr (hh ▸ hx)
          have hx2 : ¬ x = d.fresh := by
            have := hrfresh x hx
            omega
          simp [hx1, hx2]
    · intro x hx
      show x < d.fresh + 1
      simp only [List.mem_cons] at hx
      rcases hx with rfl | hx
      · omega
      · have : x < d.fresh := hfresh x (by simp [hx])
        omega

/-- `insert_after` preserves well-formedness. -/
theorem WF_insert_after {T : Type} {d d' : DoublyLinkedList T} {nid i : Nat}
    {v : T} (h : WF d) (hop : insert_after d nid v = some (d', i)) :
    WF d' := by
  obtain ⟨ids, hnodup, hperm, hhead, htail, hchain, hfresh⟩ := h
  unfold insert_after at hop
  cases hget : getNode d nid with
  | none => simp [hget] at hop
  | some n =>
    simp only [hget] at hop
    have hmem : nid ∈ ids := hperm.mem_iff.1 (mem_keys_of_lookupN hget)
    obtain ⟨l, r, rfl⟩ := List.append_of_mem hmem
    have hsplit := (linkedSeg_append l (nid :: r) none none).1 hchain
    obtain ⟨hl, nd, hnd, hprev, hnext, hr⟩ := hsplit
    have hn : nd = n := Option.some.inj (hnd.symm.trans hget)
    subst hn
    have hnidfresh : nid < d.fresh := hfresh nid (by simp)
    have hlfresh : ∀ x ∈ l, x < d.fresh := fun x hx =>
      hfresh x (by simp [hx])
    have hrfresh : ∀ x ∈ r, x < d.fresh := fun x hx =>
      hfresh x (by simp [hx])
    rw [List.nodup_append] at hnodup
    obtain ⟨hndl, hndr, hdisj⟩ := hnodup
    have hnidl : nid ∉ l := fun hx => hdisj hx (by simp)
    cases r with
    | nil =>
      have hnn : nd.next = none := by rw [hnext]; rfl
      rw [hnn] at hop
      dsimp only [setNode] at hop
      cases hop
      have harena : ∀ x : Nat,
          lookupN (setNodes ((d.fresh,
              ({ next := none, prev := some nid, value := v } : LNode T)) ::
              d.nodes) nid (fun m => { m with next := some d.fresh })) x =
            if x = nid then
              (getNode d x).map (fun m => { m with next := some d.fresh })
            else if x = d.fresh then
              some { next := none, prev := some nid, value := v }
            else getNode d x := by
        intro x
        rw [lookupN_setNodes, lookupN_cons]
        have ht1 : ¬ nid = d.fresh := by omega
        have ht2 : ¬ d.fresh = nid := by omega
        by_cases hx : x = nid
        · have hxf : ¬ x = d.fresh := by rw [hx]; omega
          simp [hx, hxf, ht1, ht2, getNode]
        · by_cases hxf : x = d.fresh <;> simp [hx, hxf, ht1, ht2, getNode]
      refine ⟨(l ++ [nid]) ++ [d.fresh], ?_, ?_, ?_, ?_, ?_, ?_⟩
      · rw [List.nodup_append]
        refine ⟨by rw [List.nodup_append]; exact ⟨hndl, hndr, hdisj⟩,
          by simp, ?_⟩
        intro x hx hx2
        simp only [List.mem_singleton] at hx2
        rw [hx2] at hx
        exact absurd (hfresh d.fresh hx) (lt_irrefl _)
      · show ((setNodes ((d.fresh,
            ({ next := none, prev := some nid, value := v } : LNode T)) ::
            d.nodes) nid (fun m => { m with next := some d.fresh })).map
              Prod.fst).Perm ((l ++ [nid]) ++ [d.fresh])
        rw [keys_setNodes]
        refine List.Perm.trans ?_ (List.perm_append_singleton _ _).symm
        exact hperm.cons d.fresh
      · show d.head = _
        rw [hhead]
        exact (head?_append_left _ _ (by simp)).symm
      · exact (List.getLast?_concat _).symm
      · refine (linkedSeg_append _ _ _ _).2 ⟨?_, ?_⟩
        · refine linkedSeg_set_last_next (f := getNode d) (l ++ [nid]) none
            none (some d.fresh) hchain ?_ ?_
          · intro x hx
            rw [List.dropLast_concat] at hx
            show lookupN _ _ = _
            rw [harena x]
            have hx1 : ¬ x = nid := fun hh => hnidl (hh ▸ hx)
            have hx2 : ¬ x = d.fresh := by
              have := hlfresh x hx
              omega
            simp [hx1, hx2]
          · intro a ha
            rw [List.getLast?_concat] at ha
            cases ha
            refine ⟨nd, hget, ?_⟩
            show lookupN _ _ = _
            rw [harena nid]
            simp [hget]
        · rw [lastBnd_concat]
          refine ⟨{ next := none, prev := some nid, value := v }, ?_, rfl,
            rfl, trivial⟩
          show lookupN _ _ = _
          rw [harena d.fresh]
          have h1 : ¬ d.fresh = nid := by omega
          simp [h1]
      · intro x hx
        simp only [List.mem_append, List.mem_singleton] at hx
        show x < d.fresh + 1
        rcases hx with hx | hx
        · have : x < d.fresh := hfresh x (by simpa using hx)
          omega
        · omega
    | cons nxt r' =>
      have hnn : nd.next = some nxt := by rw [hnext]; rfl
      rw [hnn] at hop
      dsimp only [setNode] at hop
      cases hop
      obtain ⟨ndx, hndx, hndxprev, hndxnext, hr'⟩ := hr
      have hnxtfresh : nxt < d.fresh := hrfresh nxt (by simp)
      have hnidnxt : nid ≠ nxt := by
        have h1 := (List.nodup_cons.1 hndr).1
        intro hh
        exact h1 (by simp [hh])
      have hnxtr' : nxt ∉ r' := by
        have := List.nodup_cons.1 hndr
        exact (List.nodup_cons.1 this.2).1
      have hnidr' : nid ∉ r' := by
        have := (List.nodup_cons.1 hndr).1
        intro hx
        exact this (by simp [hx])
      have harena : ∀ x : Nat,
          lookupN (setNodes (setNodes ((d.fresh,
              ({ next := some nxt, prev := some nid, value := v } : LNode T)) ::
              d.nodes) nxt (fun m => { m with prev := some d.fresh }))
              nid (fun m => { m with next := some d.fresh })) x =
            if x = nid then
              (getNode d x).map (fun m => { m with next := some d.fresh })
            else if x = nxt then
              (getNode d x).map (fun m => { m with prev := some d.fresh })
            else if x = d.fresh then
              some { next := some nxt, prev := some nid, value := v }
            else getNode d x := by
        intro x
        rw [lookupN_setNodes, lookupN_setNodes, lookupN_cons]
        have ht1 : ¬ nid = d.fresh := by omega
        have ht2 : ¬ nxt = d.fresh := by omega
        have hd1 : ¬ d.fresh = nid := by omega
        have hd2 : ¬ d.fresh = nxt := by omega
        by_cases hx : x = nid
        · have hx2 : ¬ x = nxt := by rw [hx]; exact hnidnxt
          have hx3 : ¬ x = d.fresh := by rw [hx]; omega
          simp [hx, hx2, hx3, ht1, ht2, hnidnxt, getNode]
        · by_cases hx2 : x = nxt
          · have hx3 : ¬ x = d.fresh := by rw [hx2]; omega
            have : ¬ nxt = nid := fun hh => hnidnxt hh.symm
            simp [hx, hx2, hx3, ht1, ht2, this, getNode]
          · by_cases hx3 : x = d.fresh <;>
              simp [hx, hx2, hx3, ht1, ht2, hd1, hd2, getNode]
      refine ⟨l ++ nid :: d.fresh :: nxt :: r', ?_, ?_, ?_, ?_, ?_, ?_⟩
      · rw [List.nodup_append]
        refine ⟨hndl, ?_, ?_⟩
        · rw [List.nodup_cons, List.nodup_cons]
          refine ⟨?_, ?_, (List.nodup_cons.1 hndr).2⟩
          · intro hx
            simp only [List.mem_cons] at hx
            rcases hx with hh | hh | hh
            · omega
            · exact hnidnxt hh
            · exact hnidr' hh
          · intro hx
            simp only [List.mem_cons] at hx
            rcases hx with hh | hh
            · omega
            · exact absurd (hrfresh d.fresh (by simp [hh])) (lt_irrefl _)
        · intro x hx hx2
          simp only [List.mem_cons] at hx2
          rcases hx2 with rfl | rfl | rfl | hh
          · exact hnidl hx
          · exact absurd (hlfresh d.fresh hx) (lt_irrefl _)
          · exact hdisj hx (by simp)
          · exact hdisj hx (by simp [hh])
      · show ((setNodes (setNodes ((d.fresh,
            ({ next := some nxt, prev := some nid, value := v } : LNode T)) ::
            d.nodes) nxt (fun m => { m with prev := some d.fresh }))
            nid (fun m => { m with next := some d.fresh })).map
              Prod.fst).Perm (l ++ nid :: d.fresh :: nxt :: r')
        rw [keys_setNodes, keys_setNodes]
        have hmid : (l ++ nid :: d.fresh :: nxt :: r').Perm
            (d.fresh :: (l ++ nid :: nxt :: r')) := by
          have h1 : l ++ nid :: d.fresh :: nxt :: r' =
              (l ++ [nid]) ++ d.fresh :: (nxt :: r') := by
            simp
          have h2 : (l ++ [nid]) ++ (nxt :: r') = l ++ nid :: nxt :: r' := by
            simp
          rw [h1]
          refine List.Perm.trans List.perm_middle ?_
          rw [h2]
        exact List.Perm.trans (hperm.cons d.fresh) hmid.symm
      · show d.head = _
        rw [hhead]
        exact head?_append_cons l nid _ _
      · show d.tail = _
        rw [htail, getLast?_append_cons, getLast?_append_cons,
          List.getLast?_cons_cons, List.getLast?_cons_cons,
          List.getLast?_cons_cons]
      · refine (linkedSeg_append _ _ _ _).2 ⟨?_, ?_⟩
        · refine linkedSeg_congr l none _ ?_ hl
          intro x hx
          show lookupN _ _ = _
          rw [harena x]
          have hx1 : ¬ x = nid := fun hh => hnidl (hh ▸ hx)
          have hx2 : ¬ x = nxt := fun hh => hdisj hx (by simp [hh])
          have hx3 : ¬ x = d.fresh := by
            have := hlfresh x hx
            omega
          simp [hx1, hx2, hx3]
        · refine ⟨{ nd with next := some d.fresh }, ?_, hprev, rfl, ?_⟩
          · show lookupN _ _ = _
            rw [harena nid]
            simp [hget]
          · refine ⟨{ next := some nxt, prev := some nid, value := v }, ?_,
              rfl, rfl, ?_⟩
            · show lookupN _ _ = _
              rw [harena d.fresh]
              have h1 : ¬ d.fresh = nid := by omega
              have h2 : ¬ d.fresh = nxt := by omega
              simp [h1, h2]
            · refine ⟨{ ndx with prev := some d.fresh }, ?_, rfl, ?_, ?_⟩
              · show lookupN _ _ = _
                rw [harena nxt]
                have h1 : ¬ nxt = nid := fun hh => hnidnxt hh.symm
                simp [h1, hndx]
              · simpa using hndxnext
              · refine linkedSeg_congr r' (some nxt) none ?_ hr'
                intro x hx
                show lookupN _ _ = _
                rw [harena x]
                have hx1 : ¬ x = nid := fun hh => hnidr' (hh ▸ hx)
                have hx2 : ¬ x = nxt := fun hh => hnxtr' (hh ▸ hx)
                have hx3 : ¬ x = d.fresh := by
                  have := hrfresh x (by simp [hx])
                  omega
                simp [hx1, hx2, hx3]
      · intro x hx
        show x < d.fresh + 1
        simp only [List.mem_append, List.mem_cons] at hx
        rcases hx with hx | rfl | rfl | hx
        · have : x < d.fresh := hlfresh x hx
          omega
        · omega
        · omega
        · have : x < d.fresh := hrfresh x (by simp [hx])
          omega

/-- `remove` preserves well-formedness. -/
theorem WF_remove {T : Type} {d d' : DoublyLinkedList T} {nid : Nat} {x : T}
    (h : WF d) (hop : remove d nid = some (x, d')) : WF d' := by
  obtain ⟨ids, hnodup, hperm, hhead, htail, hchain, hfresh⟩ := h
  unfold remove at hop
  cases hget : getNode d nid with
  | none => simp [hget] at hop
  | some n =>
    simp only [hget] at hop
    have hmem : nid ∈ ids := hperm.mem_iff.1 (mem_keys_of_lookupN hget)
    obtain ⟨l, r, rfl⟩ := List.append_of_mem hmem
    obtain ⟨hl, nd, hnd, hprev, hnext, hr⟩ :=
      (linkedSeg_append l (nid :: r) none none).1 hchain
    have hn : nd = n := Option.some.inj (hnd.symm.trans hget)
    subst hn
    have hndl := (List.nodup_append.1 hnodup).1
    have hndr := (List.nodup_append.1 hnodup).2.1
    have hdisj := (List.nodup_append.1 hnodup).2.2
    have hnidl : nid ∉ l := fun hx => hdisj hx (by simp)
    have hlfresh : ∀ y ∈ l, y < d.fresh := fun y hy =>
      hfresh y (by simp [hy])
    have hrfresh : ∀ y ∈ r, y < d.fresh := fun y hy =>
      hfresh y (by simp [hy])
    cases hL : l.getLast? with
    | none =>
      have hlnil : l = [] := eq_nil_of_getLast?_eq_none hL
      subst hlnil
      have hpv : nd.prev = none := by rw [hprev]; rfl
      have hh0 : d.head = some nid := by rw [hhead]; rfl
      cases r with
      | nil =>
        have hnn : nd.next = none := by rw [hnext]; rfl
        simp only [hpv, hnn, hh0] at hop
        cases hop
        refine ⟨[], List.nodup_nil, ?_, rfl, rfl, trivial, by simp⟩
        show ((d.nodes.filter _).map Prod.fst).Perm []
        rw [keys_filter_ne]
        refine (hperm.filter _).trans ?_
        rw [filter_ne_of_nodup [] [] nid hnodup]
        simp
      | cons nxt r' =>
        have hnn : nd.next = some nxt := by rw [hnext]; rfl
        simp only [hpv, hnn, hh0] at hop
        dsimp only [setNode] at hop
        cases hop
        obtain ⟨ndx, hndx, hndxprev, hndxnext, hr'⟩ := hr
        have hnidnxt : nid ≠ nxt := by
          have h1 := (List.nodup_cons.1 hndr).1
          intro hh
          exact h1 (by simp [hh])
        have hnxtr' : nxt ∉ r' :=
          (List.nodup_cons.1 (List.nodup_cons.1 hndr).2).1
        have hnidr' : nid ∉ r' := fun hx =>
          (List.nodup_cons.1 hndr).1 (by simp [hx])
        have harena : ∀ y : Nat,
            lookupN ((setNodes d.nodes nxt
                (fun m => { m with prev := none })).filter
                  (fun p => p.1 != nid)) y =
              if y = nid then none
              else if y = nxt then
                (getNode d y).map (fun m => { m with prev := none })
              else getNode d y := by
          intro y
          rw [lookupN_filter_ne]
          by_cases hy : y = nid
          · simp [hy]
          · rw [if_neg hy, if_neg hy, lookupN_setNodes]
            by_cases hy2 : y = nxt <;> simp [hy2, getNode]
        refine ⟨nxt :: r', (List.nodup_cons.1 hndr).2, ?_, rfl, ?_, ?_, ?_⟩
        · show (((setNodes d.nodes nxt (fun m => { m with prev := none })).filter
              (fun p => p.1 != nid)).map Prod.fst).Perm (nxt :: r')
          rw [keys_filter_ne, keys_setNodes]
          refine (hperm.filter _).trans ?_
          rw [filter_ne_of_nodup [] (nxt :: r') nid hnodup]
          exact List.Perm.refl _
        · show d.tail = _
          rw [htail]
          exact List.getLast?_cons_cons
        · refine ⟨{ ndx with prev := none }, ?_, rfl, ?_, ?_⟩
          · show lookupN _ _ = _
            rw [harena nxt]
            have h1 : ¬ nxt = nid := fun hh => hnidnxt hh.symm
            simp [h1, hndx]
          · simpa using hndxnext
          · refine linkedSeg_congr r' (some nxt) none ?_ hr'
            intro y hy
            show lookupN _ _ = _
            rw [harena y]
            have hy1 : ¬ y = nid := fun hh => hnidr' (hh ▸ hy)
            have hy2 : ¬ y = nxt := fun hh => hnxtr' (hh ▸ hy)
            simp [hy1, hy2]
        · intro y hy
          exact hrfresh y hy
    | some p0 =>
      obtain ⟨l', rfl⟩ := exists_concat_of_getLast? hL
      have hpv : nd.prev = some p0 := by rw [hprev, lastBnd_concat]
      obtain ⟨hl', ndp, hndp, hndpprev, hndpnext, -⟩ :=
        (linkedSeg_append l' [p0] none (some nid)).1 hl
      have hpn : ndp.next = some nid := by rw [hndpnext]; rfl
      have hp0l : p0 ∈ l' ++ [p0] := by simp
      have hp0nid : p0 ≠ nid := fun hh => hnidl (hh ▸ hp0l)
      have hp0l' : p0 ∉ l' := by
        rw [List.nodup_append] at hndl
        intro hx
        exact hndl.2.2 hx (by simp)
      have hl'nid : ∀ y ∈ l', y ≠ nid := fun y hy hh =>
        hnidl (hh ▸ (by simp [hy] : y ∈ l' ++ [p0]))
      cases r with
      | nil =>
        have hnn : nd.next = none := by rw [hnext]; rfl
        simp only [hpv, hnn, hndp, hpn] at hop
        dsimp only [setNode] at hop
        cases hop
        have harena : ∀ y : Nat,
            lookupN ((setNodes d.nodes p0
                (fun m => { m with next := none })).filter
                  (fun p => p.1 != nid)) y =
              if y = nid then none
              else if y = p0 then
                (getNode d y).map (fun m => { m with next := none })
              else getNode d y := by
          intro y
          rw [lookupN_filter_ne]
          by_cases hy : y = nid
          · simp [hy]
          · rw [if_neg hy, if_neg hy, lookupN_setNodes]
            by_cases hy2 : y = p0 <;> simp [hy2, getNode]
        refine ⟨l' ++ [p0], hndl, ?_, ?_, ?_, ?_, ?_⟩
        · show (((setNodes d.nodes p0 (fun m => { m with next := none })).filter
              (fun p => p.1 != nid)).map Prod.fst).Perm (l' ++ [p0])
          rw [keys_filter_ne, keys_setNodes]
          refine (hperm.filter _).trans ?_
          rw [filter_ne_of_nodup (l' ++ [p0]) [] nid hnodup]
          simp
        · show d.head = _
          rw [hhead]
          exact head?_append_left _ _ (by simp)
        · exact (List.getLast?_concat _).symm
        · refine linkedSeg_set_last_next (f := getNode d) (l' ++ [p0]) none
            (some nid) none hl ?_ ?_
          · intro y hy
            rw [List.dropLast_concat] at hy
            show lookupN _ _ = _
            rw [harena y]
            have hy1 : ¬ y = nid := hl'nid y hy
            have hy2 : ¬ y = p0 := fun hh => hp0l' (hh ▸ hy)
            simp [hy1, hy2]
          · intro a ha
            rw [List.getLast?_concat] at ha
            cases ha
            refine ⟨ndp, hndp, ?_⟩
            show lookupN _ _ = _
            rw [harena p0]
            simp [hp0nid, hndp]
        · intro y hy
          exact hlfresh y hy
      | cons nxt r' =>
        have hnn : nd.next = some nxt := by rw [hnext]; rfl
        simp only [hpv, hnn, hndp, hpn] at hop
        dsimp only [setNode] at hop
        cases hop
        obtain ⟨ndx, hndx, hndxprev, hndxnext, hr'⟩ := hr
        have hnidnxt : nid ≠ nxt := by
          have h1 := (List.nodup_cons.1 hndr).1
          intro hh
          exact h1 (by simp [hh])
        have hnxtr' : nxt ∉ r' :=
          (List.nodup_cons.1 (List.nodup_cons.1 hndr).2).1
        have hnidr' : nid ∉ r' := fun hx =>
          (List.nodup_cons.1 hndr).1 (by simp [hx])
        have hp0nxt : p0 ≠ nxt := fun hh => hdisj hp0l (by simp [hh])
        have hp0r' : p0 ∉ r' := fun hx => hdisj hp0l (by simp [hx])
        have harena : ∀ y : Nat,
            lookupN ((setNodes (setNodes d.nodes nxt
                (fun m => { m with prev := some p0})) p0
                (fun m => { m with next := some nxt })).filter
                  (fun p => p.1 != nid)) y =
              if y = nid then none
              else if y = p0 then
                (getNode d y).map (fun m => { m with next := some nxt })
              else if y = nxt then
                (getNode d y).map (fun m => { m with prev := some p0 })
              else getNode d y := by
          intro y
          rw [lookupN_filter_ne]
          by_cases hy : y = nid
          · simp [hy]
          · rw [if_neg hy, if_neg hy, lookupN_setNodes, lookupN_setNodes]
            by_cases hy2 : y = p0
            · have h4 : ¬ p0 = nxt := hp0nxt
              simp [hy2, h4, getNode]
            · by_cases hy3 : y = nxt
              · have h5 : ¬ nxt = p0 := fun hh => hp0nxt hh.symm
                simp [hy2, hy3, h5, getNode]
              · simp [hy2, hy3, getNode]
        refine ⟨(l' ++ [p0]) ++ nxt :: r', ?_, ?_, ?_, ?_, ?_, ?_⟩
        · refine List.Nodup.sublist ?_ hnodup
          exact List.Sublist.append_left (List.sublist_cons_self _ _) _
        · show (((setNodes (setNodes d.nodes nxt
              (fun m => { m with prev := some p0 })) p0
              (fun m => { m with next := some nxt })).filter
              (fun p => p.1 != nid)).map Prod.fst).Perm
              ((l' ++ [p0]) ++ nxt :: r')
          rw [keys_filter_ne, keys_setNodes, keys_setNodes]
          refine (hperm.filter _).trans ?_
          rw [filter_ne_of_nodup (l' ++ [p0]) (nxt :: r') nid hnodup]
        · show d.head = _
          rw [hhead]
          exact (head?_append_left (l' ++ [p0]) _ (by simp)).trans
            (head?_append_left (l' ++ [p0]) _ (by simp)).symm
        · show d.tail = _
          rw [htail, getLast?_append_cons, getLast?_append_cons,
            List.getLast?_cons_cons]
        · refine (linkedSeg_append _ _ _ _).2 ⟨?_, ?_⟩
          · refine linkedSeg_set_last_next (f := getNode d) (l' ++ [p0]) none
              (some nid) (some nxt) hl ?_ ?_
            · intro y hy
              rw [List.dropLast_concat] at hy
              show lookupN _ _ = _
              rw [harena y]
              have hy1 : ¬ y = nid := hl'nid y hy
              have hy2 : ¬ y = p0 := fun hh => hp0l' (hh ▸ hy)
              have hy3 : ¬ y = nxt := fun hh =>
                hdisj (by simp [hy] : y ∈ l' ++ [p0]) (by simp [hh])
              simp [hy1, hy2, hy3]
            · intro a ha
              rw [List.getLast?_concat] at ha
              cases ha
              refine ⟨ndp, hndp, ?_⟩
              show lookupN _ _ = _
              rw [harena p0]
              simp [hp0nid, hndp]
          · rw [lastBnd_concat]
            refine ⟨{ ndx with prev := some p0 }, ?_, rfl, ?_, ?_⟩
            · show lookupN _ _ = _
              rw [harena nxt]
              have h1 : ¬ nxt = nid := fun hh => hnidnxt hh.symm
              have h2 : ¬ nxt = p0 := fun hh => hp0nxt hh.symm
              simp [h1, h2, hndx]
            · simpa using hndxnext
            · refine linkedSeg_congr r' (some nxt) none ?_ hr'
              intro y hy
              show lookupN _ _ = _
              rw [harena y]
              have hy1 : ¬ y = nid := fun hh => hnidr' (hh ▸ hy)
              have hy2 : ¬ y = nxt := fun hh => hnxtr' (hh ▸ hy)
              have hy3 : ¬ y = p0 := fun hh => hp0r' (hh ▸ hy)
              simp [hy1, hy2, hy3]
        · intro y hy
          simp only [List.mem_append, List.mem_cons] at hy
          rcases hy with hy | rfl | hy
          · exact hlfresh y (by simpa using hy)
          · exact hrfresh y (by simp)
          · exact hrfresh y (by simp [hy])

/-- `pop_front` preserves well-formedness. -/
theorem WF_pop_front {T : Type} {d d' : DoublyLinkedList T} {x : T}
    (h : WF d) (hop : pop_front d = some (x, d')) : WF d' := by
  unfold pop_front at hop
  cases hh : d.head with
  | none => rw [hh] at hop; exact absurd hop (by simp)
  | some hd =>
    rw [hh] at hop
    exact WF_remove h hop

/-- Every reachable list is well-formed. -/
theorem WF_of_ReachL {T : Type} {d : DoublyLinkedList T} (h : ReachL d) :
    WF d := by
  induction h with
  | new => exact WF_new
  | append hr ih => exact WF_append _ ih
  | insert_front hr ih => exact WF_insert_front _ ih
  | insert_after hr hop ih => exact WF_insert_after ih hop
  | pop_front hr hop ih => exact WF_pop_front ih hop
  | remove hr hop ih => exact WF_remove ih hop

/-- Following `next` pointers along a chain closed by `none` lists exactly
the chain's values. -/
theorem traceNext_chain {T : Type} {d : DoublyLinkedList T} :
    ∀ (ids : List Nat) (p : Option Nat) (fuel : Nat),
      linkedSeg (getNode d) p ids none → ids.length ≤ fuel →
      traceNext d fuel (bnd ids none) = chainVals d ids := by
  intro ids
  induction ids with
  | nil =>
    intro p fuel _ _
    cases fuel <;> rfl
  | cons a rest ih =>
    intro p fuel hchain hfuel
    obtain ⟨nd, ha, hprev, hnext, hrest⟩ := hchain
    have hf1 : rest.length + 1 ≤ fuel := by simpa using hfuel
    obtain ⟨k, rfl⟩ : ∃ k, fuel = k + 1 := ⟨fuel - 1, by omega⟩
    show traceNext d (k + 1) (some a) = _
    simp only [traceNext, ha]
    rw [hnext, ih (some a) k hrest (by omega)]
    simp [chainVals, ha]

/-- Following `prev` pointers from the last element of a chain opened by
`none` lists the chain's values in reverse. -/
theorem tracePrev_chain {T : Type} {d : DoublyLinkedList T} (ids : List Nat) :
    ∀ (q : Option Nat) (fuel : Nat),
      linkedSeg (getNode d) none ids q → ids.length ≤ fuel →
      tracePrev d fuel (lastBnd ids none) = (chainVals d ids).reverse := by
  induction ids using List.reverseRecOn with
  | nil =>
    intro q fuel _ _
    cases fuel <;> rfl
  | append_singleton l t ih =>
    intro q fuel hchain hfuel
    obtain ⟨hl, nd, ht, hprev, hnext, -⟩ :=
      (linkedSeg_append l [t] none q).1 hchain
    have hf1 : l.length + 1 ≤ fuel := by simpa using hfuel
    obtain ⟨k, rfl⟩ : ∃ k, fuel = k + 1 := ⟨fuel - 1, by omega⟩
    rw [lastBnd_concat]
    show tracePrev d (k + 1) (some t) = _
    simp only [tracePrev, ht]
    rw [hprev, ih (some t) k hl (by omega)]
    simp [chainVals, ht]

end DoublyLinkedList

namespace ResourceAllocator

/-- `getSeg` only reads the segment list. -/
theorem getSeg_eq (ra : ResourceAllocator) (id : Nat) :
    getSeg ra id = lookupSeg ra.segments id := rfl

/-- `keysS` of an append. -/
theorem keysS_append (l r : List (Nat × Segment)) :
    keysS (l ++ r) = keysS l ++ keysS r := List.map_append _ _ _

/-- `keysS` of a cons. -/
theorem keysS_cons (p : Nat × Segment) (r : List (Nat × Segment)) :
    keysS (p :: r) = p.1 :: keysS r := rfl

/-- `lookupSeg` at a matching head. -/
theorem lookupSeg_cons_self (id : Nat) (seg : Segment)
    (r : List (Nat × Segment)) :
    lookupSeg ((id, seg) :: r) id = some seg := by
  simp [lookupSeg, List.find?_cons_of_pos]

/-- `lookupSeg` skips a non-matching head. -/
theorem lookupSeg_cons_ne (p : Nat × Segment) (r : List (Nat × Segment))
    (id : Nat) (h : ¬ p.1 = id) :
    lookupSeg (p :: r) id = lookupSeg r id := by
  simp [lookupSeg, List.find?_cons_of_neg, h]

/-- `lookupSeg` skips a block that does not hold the key. -/
theorem lookupSeg_append_not_mem (l r : List (Nat × Segment)) (id : Nat)
    (h : id ∉ keysS l) :
    lookupSeg (l ++ r) id = lookupSeg r id := by
  induction l with
  | nil => rfl
  | cons p l ih =>
    rw [keysS_cons, List.mem_cons] at h
    rw [List.cons_append, lookupSeg_cons_ne p _ id (fun hh => h (Or.inl hh.symm))]
    exact ih (fun hh => h (Or.inr hh))

/-- `lookupSeg` of a standard decomposition. -/
theorem lookupSeg_decomp_eq (l r : List (Nat × Segment)) (id : Nat)
    (seg : Segment) (h : id ∉ keysS l) :
    lookupSeg (l ++ (id, seg) :: r) id = some seg := by
  rw [lookupSeg_append_not_mem l _ id h, lookupSeg_cons_self]

/-- Dropping a middle entry with a different key leaves `lookupSeg` alone. -/
theorem lookupSeg_middle_ne (l r : List (Nat × Segment)) (id x : Nat)
    (seg : Segment) (h : ¬ x = id) :
    lookupSeg (l ++ (id, seg) :: r) x = lookupSeg (l ++ r) x := by
  simp only [lookupSeg, List.find?_append]
  rw [List.find?_cons_of_neg _ (by simpa using fun hh => h hh.symm)]

/-- A successful `lookupSeg` locates the key's (first) entry. -/
theorem lookupSeg_decomp {segs : List (Nat × Segment)} {id : Nat}
    {seg : Segment} (h : lookupSeg segs id = some seg) :
    ∃ l r, segs = l ++ (id, seg) :: r ∧ id ∉ keysS l := by
  induction segs with
  | nil => cases h
  | cons p rest ih =>
    by_cases hp : p.1 = id
    · have hv : p.2 = seg := by
        obtain ⟨a, b⟩ := p
        rw [show a = id from hp] at h ⊢
        rw [lookupSeg_cons_self] at h
        exact Option.some.inj h
      refine ⟨[], rest, ?_, by simp [keysS]⟩
      obtain ⟨a, b⟩ := p
      simp only [List.nil_append]
      rw [show a = id from hp, show b = seg from hv]
    · rw [lookupSeg_cons_ne p rest id hp] at h
      obtain ⟨l, r, hsegs, hkl⟩ := ih h
      refine ⟨p :: l, r, by rw [hsegs, List.cons_append], ?_⟩
      rw [keysS_cons, List.mem_cons]
      rintro (hh | hh)
      · exact hp hh.symm
      · exact hkl hh

/-- A key that is not allocated has no segment. -/
theorem lookupSeg_not_mem {segs : List (Nat × Segment)} {id : Nat}
    (h : id ∉ keysS segs) : lookupSeg segs id = none := by
  induction segs with
  | nil => rfl
  | cons p rest ih =>
    rw [keysS_cons, List.mem_cons] at h
    rw [lookupSeg_cons_ne p rest id (fun hh => h (Or.inl hh.symm))]
    exact ih (fun hh => h (Or.inr hh))

/-- A successful `lookupSeg` witnesses key membership. -/
theorem mem_keysS_of_lookupSeg {segs : List (Nat × Segment)} {id : Nat}
    {seg : Segment} (h : lookupSeg segs id = some seg) : id ∈ keysS segs := by
  by_contra hc
  rw [lookupSeg_not_mem hc] at h
  cases h

/-- `setSeg` distributes over append. -/
theorem setSeg_append (l r : List (Nat × Segment)) (id : Nat)
    (f : Segment → Segment) :
    setSeg (l ++ r) id f = setSeg l id f ++ setSeg r id f :=
  List.map_append _ _ _

/-- `setSeg` without the key is the identity. -/
theorem setSeg_not_mem {l : List (Nat × Segment)} {id : Nat}
    (f : Segment → Segment) (h : id ∉ keysS l) : setSeg l id f = l := by
  induction l with
  | nil => rfl
  | cons p rest ih =>
    rw [keysS_cons, List.mem_cons] at h
    show (if p.1 = id then (p.1, f p.2) else p) :: setSeg rest id f = _
    rw [if_neg (fun hh => h (Or.inl hh.symm)), ih (fun hh => h (Or.inr hh))]

/-- `setSeg` on a standard decomposition. -/
theorem setSeg_decomp (l r : List (Nat × Segment)) (id : Nat) (seg : Segment)
    (f : Segment → Segment) (hl : id ∉ keysS l) (hr : id ∉ keysS r) :
    setSeg (l ++ (id, seg) :: r) id f = l ++ (id, f seg) :: r := by
  rw [setSeg_append, setSeg_not_mem f hl]
  show l ++ (if id = id then (id, f seg) else (id, seg)) :: setSeg r id f = _
  rw [if_pos rfl, setSeg_not_mem f hr]

/-- `removeSegList` distributes over append. -/
theorem removeSegList_append (l r : List (Nat × Segment)) (id : Nat) :
    removeSegList (l ++ r) id = removeSegList l id ++ removeSegList r id :=
  List.filter_append _ _

/-- `removeSegList` without the key is the identity. -/
theorem removeSegList_not_mem {l : List (Nat × Segment)} {id : Nat}
    (h : id ∉ keysS l) : removeSegList l id = l := by
  induction l with
  | nil => rfl
  | cons p rest ih =>
    rw [keysS_cons, List.mem_cons] at h
    show List.filter _ (p :: rest) = _
    rw [List.filter_cons_of_pos (by
      simpa using fun hh => h (Or.inl hh.symm))]
    exact congrArg (p :: ·) (ih (fun hh => h (Or.inr hh)))

/-- `removeSegList` on a standard decomposition. -/
theorem removeSegList_decomp (l r : List (Nat × Segment)) (id : Nat)
    (seg : Segment) (hl : id ∉ keysS l) (hr : id ∉ keysS r) :
    removeSegList (l ++ (id, seg) :: r) id = l ++ r := by
  rw [removeSegList_append, removeSegList_not_mem hl]
  show l ++ List.filter _ ((id, seg) :: r) = _
  rw [List.filter_cons_of_neg (by simp)]
  exact congrArg (l ++ .) (removeSegList_not_mem hr)

/-- `insertAfterList` on a standard decomposition. -/
theorem insertAfterList_decomp (l r : List (Nat × Segment)) (id : Nat)
    (seg : Segment) (x : Nat × Segment) (hl : id ∉ keysS l) :
    insertAfterList (l ++ (id, seg) :: r) id x =
      l ++ (id, seg) :: x :: r := by
  induction l with
  | nil =>
    show insertAfterList ((id, seg) :: r) id x = _
    unfold insertAfterList
    rw [if_pos rfl]
    rfl
  | cons p rest ih =>
    rw [keysS_cons, List.mem_cons] at hl
    show insertAfterList (p :: (rest ++ (id, seg) :: r)) id x = _
    unfold insertAfterList
    rw [if_neg (fun hh => hl (Or.inl hh.symm))]
    exact congrArg (p :: ·) (ih (fun hh => hl (Or.inr hh)))

/-- `nextOf` on a standard decomposition. -/
theorem nextOf_decomp (l r : List (Nat × Segment)) (id : Nat) (seg : Segment)
    (hl : id ∉ keysS l) :
    nextOf (l ++ (id, seg) :: r) id = r.head? := by
  induction l with
  | nil =>
    show nextOf ((id, seg) :: r) id = _
    unfold nextOf
    rw [if_pos rfl]
  | cons p rest ih =>
    rw [keysS_cons, List.mem_cons] at hl
    show nextOf (p :: (rest ++ (id, seg) :: r)) id = _
    unfold nextOf
    rw [if_neg (fun hh => hl (Or.inl hh.symm))]
    exact ih (fun hh => hl (Or.inr hh))

/-- `prevOf` on a standard decomposition. -/
theorem prevOf_decomp (l r : List (Nat × Segment)) (id : Nat) (seg : Segment)
    (hl : id ∉ keysS l) :
    prevOf (l ++ (id, seg) :: r) id = l.getLast? := by
  induction l with
  | nil =>
    show prevOf ((id, seg) :: r) id = _
    unfold prevOf
    rw [if_pos rfl]
    rfl
  | cons p rest ih =>
    rw [keysS_cons, List.mem_cons] at hl
    have hp : ¬ p.1 = id := fun hh => hl (Or.inl hh.symm)
    have hrest := ih (fun hh => hl (Or.inr hh))
    cases rest with
    | nil =>
      show prevOf (p :: (id, seg) :: r) id = _
      unfold prevOf
      rw [if_neg hp]
      simp
    | cons q rest2 =>
      have hq : ¬ q.1 = id := fun hh => hl (Or.inr (by simp [keysS, hh]))
      show prevOf (p :: (q :: rest2 ++ (id, seg) :: r)) id = _
      unfold prevOf
      rw [if_neg hp]
      show (if q.1 = id then some p
        else prevOf (q :: rest2 ++ (id, seg) :: r) id) = _
      rw [if_neg hq, hrest, List.getLast?_cons_cons]

/-- `keysS` ignores `setSeg`. -/
theorem keysS_setSeg (segs : List (Nat × Segment)) (id : Nat)
    (f : Segment → Segment) : keysS (setSeg segs id f) = keysS segs := by
  induction segs with
  | nil => rfl
  | cons p rest ih =>
    show (if p.1 = id then (p.1, f p.2) else p).1 :: _ = _
    by_cases hp : p.1 = id
    · rw [if_pos hp, keysS_cons]
      exact congrArg (p.1 :: ·) ih
    · rw [if_neg hp, keysS_cons]
      exact congrArg (p.1 :: ·) ih

/-- `List.getD` after a `List.set`. -/
theorem getD_set_eval (fls : List (List Nat)) :
    ∀ (k : Nat) (v : List Nat) (idx : Nat),
    (fls.set k v).getD idx [] =
      if idx = k ∧ k < fls.length then v else fls.getD idx [] := by
  induction fls with
  | nil => intro k v idx; simp
  | cons a fls ih =>
    intro k v idx
    cases k with
    | zero =>
      cases idx with
      | zero => simp [List.set]
      | succ idx => simp [List.set]
    | succ k =>
      cases idx with
      | zero => simp [List.set]
      | succ idx =>
        show (fls.set k v).getD idx [] = _
        rw [ih k v idx]
        by_cases h1 : idx = k ∧ k < fls.length
        · rw [if_pos h1, if_pos (by
            exact ⟨congrArg Nat.succ h1.1, by
              have := h1.2; simpa [Nat.succ_lt_succ_iff] using this⟩)]
        · rw [if_neg h1, if_neg (by
            intro hc
            exact h1 ⟨Nat.succ.inj hc.1, by
              have := hc.2; simpa [Nat.succ_lt_succ_iff] using this⟩)]
          rfl

/-- Decompose a list at its last element. -/
theorem exists_concat_of_getLast {α : Type} {l : List α} {a : α}
    (h : l.getLast? = some a) : ∃ l2, l = l2 ++ [a] := by
  induction l with
  | nil => cases h
  | cons p rest ih =>
    cases rest with
    | nil =>
      cases h
      exact ⟨[], rfl⟩
    | cons q rest2 =>
      rw [List.getLast?_cons_cons] at h
      obtain ⟨l2, hl2⟩ := ih h
      exact ⟨p :: l2, by rw [List.cons_append, ← hl2]⟩

/-- Looking the inserted key up in the allocated table. -/
theorem lookupAssoc_insertAssoc (m : List (Nat × Nat)) (k v : Nat) :
    lookupAssoc (insertAssoc m k v) k = some v := by
  simp [lookupAssoc, insertAssoc, List.find?_cons_of_pos]

/-- Entries surviving `removeAssoc`. -/
theorem mem_removeAssoc {m : List (Nat × Nat)} {k : Nat} {p : Nat × Nat}
    (h : p ∈ removeAssoc m k) : p ∈ m ∧ p.1 ≠ k := by
  have h1 := List.mem_of_mem_filter h
  have h2 := List.of_mem_filter h
  exact ⟨h1, by simpa using h2⟩

/-- `removeAssoc` keeps a sublist of the table. -/
theorem removeAssoc_sublist (m : List (Nat × Nat)) (k : Nat) :
    (removeAssoc m k).Sublist m := List.filter_sublist _

/-- A successful `lookupAssoc` witnesses an entry of the table. -/
theorem lookupAssoc_mem {m : List (Nat × Nat)} {k v : Nat}
    (h : lookupAssoc m k = some v) : (k, v) ∈ m := by
  unfold lookupAssoc at h
  cases hf : m.find? (fun p => p.1 == k) with
  | none => rw [hf] at h; cases h
  | some p =>
    rw [hf] at h
    have h1 : p.2 = v := by simpa using h
    have h2 : p.1 = k := by simpa using List.find?_some hf
    have h3 := List.mem_of_find?_eq_some hf
    rw [← h1, ← h2]
    exact h3

/-- Characterize a successful `fast_find_loop`. -/
theorem fast_find_loop_char {fls : List (List Nat)} :
    ∀ {ks : List Nat} {id : Nat} {fls' : List (List Nat)},
      fast_find_loop fls ks = some (id, fls') →
      ∃ k ∈ ks, ∃ rest, fls.getD k [] = id :: rest ∧ fls' = fls.set k rest := by
  intro ks
  induction ks with
  | nil => intro id fls' h; cases h
  | cons k ks ih =>
    intro id fls' h
    unfold fast_find_loop at h
    cases hk : fls.getD k [] with
    | nil =>
      rw [hk] at h
      obtain ⟨k2, hk2, rest, hr, hf⟩ := ih h
      exact ⟨k2, by simp [hk2], rest, hr, hf⟩
    | cons x rest =>
      rw [hk] at h
      obtain ⟨rfl, rfl⟩ : x = id ∧ fls.set k rest = fls' := by
        constructor <;> [exact congrArg Prod.fst (Option.some.inj h);
          exact congrArg Prod.snd (Option.some.inj h)]
      exact ⟨k, by simp, rest, hk, rfl⟩

/-- Transport `FLOK` along a freelist shrink and a lookup-preserving
segment-list change. -/
theorem FLOK_congr {Q M : Nat} {segs segs2 : List (Nat × Segment)}
    {fls fls2 : List (List Nat)} (h : FLOK Q M segs fls)
    (hlen : fls2.length = M)
    (hnd : ∀ idx, (fls2.getD idx []).Nodup)
    (hsub : ∀ idx, ∀ x ∈ fls2.getD idx [], x ∈ fls.getD idx [])
    (hlook : ∀ idx, ∀ x ∈ fls2.getD idx [],
      lookupSeg segs2 x = lookupSeg segs x) :
    FLOK Q M segs2 fls2 := by
  obtain ⟨-, -, hmem⟩ := h
  refine ⟨hlen, hnd, ?_⟩
  intro idx id hid
  obtain ⟨seg, hseg, hrest⟩ := hmem idx id (hsub idx id hid)
  exact ⟨seg, (hlook idx id hid).trans hseg, hrest⟩

/-- Push a fresh free segment onto its class freelist. -/
theorem FLOK_push {Q M : Nat} {segs : List (Nat × Segment)}
    {fls : List (List Nat)} {idm : Nat} {segm : Segment}
    (h : FLOK Q M segs fls)
    (hseg : lookupSeg segs idm = some segm) (hfree : segm.free = true)
    (hsz : Q ≤ Segment.size segm)
    (hlog : usize_log2 (Segment.size segm / Q) < M)
    (hnot : ∀ idx, idm ∉ fls.getD idx []) :
    FLOK Q M segs
      (fls.set (min (usize_log2 (Segment.size segm / Q)) M)
        (idm :: fls.getD (min (usize_log2 (Segment.size segm / Q)) M) [])) := by
  obtain ⟨hlen, hnd, hmem⟩ := h
  refine ⟨(List.length_set _ _ _).trans hlen, ?_, ?_⟩
  · intro idx
    rw [getD_set_eval]
    by_cases hc : idx = min (usize_log2 (Segment.size segm / Q)) M ∧
        min (usize_log2 (Segment.size segm / Q)) M < fls.length
    · rw [if_pos hc]
      exact List.nodup_cons.2 ⟨hc.1 ▸ hnot idx, hnd _⟩
    · rw [if_neg hc]
      exact hnd idx
  · intro idx id hid
    rw [getD_set_eval] at hid
    by_cases hc : idx = min (usize_log2 (Segment.size segm / Q)) M ∧
        min (usize_log2 (Segment.size segm / Q)) M < fls.length
    · rw [if_pos hc] at hid
      rcases List.mem_cons.1 hid with rfl | hid2
      · exact ⟨segm, hseg, hfree, hsz, hlog, hc.1.symm⟩
      · exact hmem idx id (hc.1 ▸ hid2)
    · rw [if_neg hc] at hid
      exact hmem idx id hid

/-- `segment_freelist_idx` on a segment of at least one quantum. -/
theorem segment_freelist_idx_eval {Q M : Nat} (seg : Segment) (hQ : 1 ≤ Q)
    (hsz : Q ≤ Segment.size seg) :
    segment_freelist_idx Q M seg =
      some (min (usize_log2 (Segment.size seg / Q)) M) := by
  unfold segment_freelist_idx
  rw [if_neg (by
    have := Nat.div_pos hsz (by omega)
    omega)]

/-- Evaluate a `freelist_insert` whose class is in range. -/
theorem freelist_insert_eval {Q M : Nat} (ra : ResourceAllocator)
    {id : Nat} {seg : Segment} (hQ : 1 ≤ Q) (hid : getSeg ra id = some seg)
    (hsz : Q ≤ Segment.size seg)
    (hlog : usize_log2 (Segment.size seg / Q) < M) :
    freelist_insert Q M ra id = some { ra with
      freelists := ra.freelists.set (usize_log2 (Segment.size seg / Q))
        (id :: ra.freelists.getD (usize_log2 (Segment.size seg / Q)) [])
      segments := setSeg ra.segments id (fun s => { s with free := true }) } := by
  have hmin : min (usize_log2 (Segment.size seg / Q)) M =
      usize_log2 (Segment.size seg / Q) := by omega
  unfold freelist_insert
  simp only [hid, segment_freelist_idx_eval seg hQ hsz, hmin]
  rw [if_pos hlog]

/-- Evaluate a `freelist_remove` of a free segment whose class is in
range. -/
theorem freelist_remove_eval_free {Q M : Nat} (ra : ResourceAllocator)
    {id : Nat} {seg : Segment} (hQ : 1 ≤ Q) (hid : getSeg ra id = some seg)
    (hfree : seg.free = true) (hsz : Q ≤ Segment.size seg)
    (hlog : usize_log2 (Segment.size seg / Q) < M) :
    freelist_remove Q M ra id = some { ra with
      freelists := ra.freelists.set (usize_log2 (Segment.size seg / Q))
        ((ra.freelists.getD (usize_log2 (Segment.size seg / Q)) []).filter
          (fun j => j != id))
      segments := setSeg ra.segments id (fun s => { s with free := false }) } := by
  have hmin : min (usize_log2 (Segment.size seg / Q)) M =
      usize_log2 (Segment.size seg / Q) := by omega
  unfold freelist_remove
  simp only [hid, segment_freelist_idx_eval seg hQ hsz, hmin]
  rw [if_pos hlog, if_pos hfree]

/-- Characterize a successful `freelist_insert`. -/
theorem freelist_insert_char {Q M : Nat} {ra ra' : ResourceAllocator}
    {id : Nat} (h : freelist_insert Q M ra id = some ra') :
    ∃ seg, getSeg ra id = some seg ∧ Segment.size seg / Q ≠ 0 ∧
      usize_log2 (Segment.size seg / Q) < M ∧
      ra' = { ra with
        freelists := ra.freelists.set (usize_log2 (Segment.size seg / Q))
          (id :: ra.freelists.getD (usize_log2 (Segment.size seg / Q)) [])
        segments := setSeg ra.segments id (fun s => { s with free := true }) } := by
  unfold freelist_insert at h
  cases hid : getSeg ra id with
  | none => rw [hid] at h; cases h
  | some seg =>
    simp only [hid] at h
    cases hidx : segment_freelist_idx Q M seg with
    | none => simp only [hidx] at h; cases h
    | some idx =>
      simp only [hidx] at h
      have hidx2 := hidx
      unfold segment_freelist_idx at hidx2
      by_cases hq : Segment.size seg / Q = 0
      · rw [if_pos hq] at hidx2; cases hidx2
      · rw [if_neg hq] at hidx2
        have hidxeq : idx = min (usize_log2 (Segment.size seg / Q)) M :=
          (Option.some.inj hidx2).symm
        by_cases hlt : idx < M
        · rw [if_pos hlt] at h
          have hmin : min (usize_log2 (Segment.size seg / Q)) M =
              usize_log2 (Segment.size seg / Q) := by omega
          refine ⟨seg, rfl, hq, by omega, ?_⟩
          rw [← Option.some.inj h, hidxeq, hmin]
        · rw [if_neg hlt] at h; cases h

/-- Characterize a successful `freelist_remove`. -/
theorem freelist_remove_char {Q M : Nat} {ra ra' : ResourceAllocator}
    {id : Nat} (h : freelist_remove Q M ra id = some ra') :
    ∃ seg, getSeg ra id = some seg ∧ Segment.size seg / Q ≠ 0 ∧
      usize_log2 (Segment.size seg / Q) < M ∧
      ((seg.free = true ∧
        ra' = { ra with
          freelists := ra.freelists.set (usize_log2 (Segment.size seg / Q))
            ((ra.freelists.getD (usize_log2 (Segment.size seg / Q)) []).filter
              (fun j => j != id))
          segments := setSeg ra.segments id
            (fun s => { s with free := false }) }) ∨
       (seg.free = false ∧ ra' = ra)) := by
  unfold freelist_remove at h
  cases hid : getSeg ra id with
  | none => rw [hid] at h; cases h
  | some seg =>
    simp only [hid] at h
    cases hidx : segment_freelist_idx Q M seg with
    | none => simp only [hidx] at h; cases h
    | some idx =>
      simp only [hidx] at h
      have hidx2 := hidx
      unfold segment_freelist_idx at hidx2
      by_cases hq : Segment.size seg / Q = 0
      · rw [if_pos hq] at hidx2; cases hidx2
      · rw [if_neg hq] at hidx2
        have hidxeq : idx = min (usize_log2 (Segment.size seg / Q)) M :=
          (Option.some.inj hidx2).symm
        by_cases hlt : idx < M
        · rw [if_pos hlt] at h
          have hmin : min (usize_log2 (Segment.size seg / Q)) M =
              usize_log2 (Segment.size seg / Q) := by omega
          refine ⟨seg, rfl, hq, by omega, ?_⟩
          cases hfree : seg.free with
          | true =>
            rw [if_pos hfree] at h
            refine Or.inl ⟨rfl, ?_⟩
            rw [← Option.some.inj h, hidxeq, hmin]
          | false =>
            rw [if_neg (by rw [hfree]; exact Bool.false_ne_true)] at h
            exact Or.inr ⟨rfl, (Option.some.inj h).symm⟩
        · rw [if_neg hlt] at h; cases h

/-- Characterize a successful `coalesce_prev` on a decomposed segment
list. -/
theorem coalesce_prev_char {Q M : Nat} {ra : ResourceAllocator} {id0 : Nat}
    {seg0 : Segment} {l r : List (Nat × Segment)}
    (hdecomp : ra.segments = l ++ (id0, seg0) :: r)
    (hndk : (keysS ra.segments).Nodup)
    (hpos0 : seg0.start < seg0.stop)
    (hprevb : ∀ pp : Nat × Segment, l.getLast? = some pp →
      pp.2.stop ≤ seg0.start ∧ pp.2.start < pp.2.stop)
    {out : ResourceAllocator × Nat}
    (h : coalesce_prev Q M ra id0 seg0 = some out) :
    (out = (ra, id0) ∧
      ∀ pp : Nat × Segment, l.getLast? = some pp → pp.2.free = true →
        pp.2.stop ≠ seg0.start) ∨
    (∃ l2 pid pseg, l = l2 ++ [(pid, pseg)] ∧ pseg.free = true ∧
      pseg.stop = seg0.start ∧
      usize_log2 (Segment.size pseg / Q) < M ∧ Q ≤ Segment.size pseg ∧
      out.2 = pid ∧
      out.1.segments = l2 ++ (pid,
        { start := pseg.start, stop := seg0.stop, free := false }) :: r ∧
      out.1.freelists = ra.freelists.set (usize_log2 (Segment.size pseg / Q))
        ((ra.freelists.getD (usize_log2 (Segment.size pseg / Q)) []).filter
          (fun j => j != pid)) ∧
      out.1.allocated_segments = ra.allocated_segments ∧
      out.1.fresh = ra.fresh) := by
  have hid0l : id0 ∉ keysS l := by
    rw [hdecomp, keysS_append, keysS_cons] at hndk
    intro hmem
    exact (List.disjoint_of_nodup_append hndk) hmem (by simp)
  unfold coalesce_prev at h
  rw [hdecomp, prevOf_decomp l r id0 seg0 hid0l] at h
  cases hlast : l.getLast? with
  | none =>
    simp only [hlast] at h
    exact Or.inl ⟨(Option.some.inj h).symm, fun pp hpp => by cases hpp⟩
  | some pp =>
    obtain ⟨pid, pseg⟩ := pp
    simp only [hlast] at h
    by_cases hcond : (seg0.can_join pseg && !pseg.is_allocated) = true
    · -- the previous segment is merged
      simp only [hcond, if_true] at h
      have hfree : pseg.free = true := by
        have h2 := (Bool.and_eq_true_iff.mp hcond).2
        simpa [Segment.is_allocated] using h2
      have hjoin : pseg.stop = seg0.start := by
        have h1 := (Bool.and_eq_true_iff.mp hcond).1
        have hb : pseg.stop ≤ seg0.start ∧ pseg.start < pseg.stop :=
          hprevb (pid, pseg) hlast
        simp only [Segment.can_join, Bool.or_eq_true, beq_iff_eq] at h1
        rcases h1 with h1 | h1
        · exact absurd h1 (by omega)
        · omega
      obtain ⟨l2, hl2⟩ := exists_concat_of_getLast hlast
      -- key disjointness facts
      have hkeys : keysS ra.segments =
          (keysS l2 ++ [pid]) ++ id0 :: keysS r := by
        rw [hdecomp, keysS_append, keysS_cons, hl2, keysS_append]
        rfl
      have hnd2 := hkeys ▸ hndk
      have hpidl2 : pid ∉ keysS l2 := by
        have := (List.nodup_append.1 (List.nodup_append.1 hnd2).1).2.2
        intro hc
        exact this hc (by simp)
      have hpidid0 : ¬ pid = id0 := by
        intro hc
        have hm1 : pid ∈ keysS l2 ++ [pid] := by simp
        have hm2 : pid ∈ id0 :: keysS r := by simp [hc]
        exact (List.disjoint_of_nodup_append hnd2) hm1 hm2
      have hpidr : pid ∉ keysS r := by
        intro hc
        have hm1 : pid ∈ keysS l2 ++ [pid] := by simp
        have hm2 : pid ∈ id0 :: keysS r := by simp [hc]
        exact (List.disjoint_of_nodup_append hnd2) hm1 hm2
      have hid0r : id0 ∉ keysS r := by
        have := (List.nodup_cons.1 (List.nodup_append.1 hnd2).2.1).1
        simpa using this
      have hid0l2 : id0 ∉ keysS l2 := by
        rw [hl2, keysS_append] at hid0l
        intro hc
        exact hid0l (List.mem_append.2 (Or.inl hc))
      -- evaluate the freelist_remove on pid
      have hlookpid : getSeg ra pid = some pseg := by
        rw [getSeg_eq, hdecomp, hl2, List.append_assoc]
        exact lookupSeg_decomp_eq l2 _ pid pseg hpidl2
      cases hfr : freelist_remove Q M ra pid with
      | none => rw [hfr] at h; cases h
      | some raf =>
        rw [hfr] at h
        obtain ⟨segf, hsegf, hq, hlog, hca⟩ := freelist_remove_char hfr
        rw [hlookpid] at hsegf
        obtain rfl : pseg = segf := Option.some.inj hsegf
        rcases hca with ⟨-, hraf⟩ | ⟨hff, -⟩
        · -- the free branch applies
          have hQle : Q ≤ Segment.size pseg := by
            by_contra hc
            exact hq (Nat.div_eq_of_lt (by omega))
          refine Or.inr ⟨l2, pid, pseg, hl2, hfree, hjoin, hlog, hQle, ?_, ?_,
            ?_, ?_, ?_⟩
          · exact congrArg Prod.snd (Option.some.inj h).symm
          · rw [← congrArg Prod.fst (Option.some.inj h)]
            show setSeg (removeSegList raf.segments id0) pid
              (fun s => { start := s.start, stop := seg0.stop, free := s.free }) = _
            rw [hraf]
            show setSeg (removeSegList
              (setSeg ra.segments pid
                (fun s => { start := s.start, stop := s.stop, free := false }))
              id0) pid
              (fun s => { start := s.start, stop := seg0.stop, free := s.free }) = _
            have hnm1 : pid ∉ keysS ((id0, seg0) :: r) := by
              rw [keysS_cons]
              intro hc
              rcases List.mem_cons.1 hc with hc | hc
              · exact hpidid0 hc
              · exact hpidr hc
            have hnm2 : id0 ∉ keysS (l2 ++
                [(pid, ({ start := pseg.start, stop := pseg.stop, free := false } : Segment))]) := by
              rw [keysS_append]
              intro hc
              rcases List.mem_append.1 hc with hc | hc
              · exact hid0l2 hc
              · simp only [keysS, List.map_cons, List.map_nil,
                  List.mem_singleton] at hc
                exact hpidid0 hc.symm
            rw [hdecomp, hl2, List.append_assoc, List.singleton_append]
            rw [setSeg_decomp l2 ((id0, seg0) :: r) pid pseg
              (fun s => { start := s.start, stop := s.stop, free := false })
              hpidl2 hnm1]
            rw [show l2 ++ (pid, ({ start := pseg.start, stop := pseg.stop, free := false } : Segment)) :: (id0, seg0) :: r =
              (l2 ++ [(pid, ({ start := pseg.start, stop := pseg.stop, free := false } : Segment))]) ++ (id0, seg0) :: r from by simp]
            rw [removeSegList_decomp _ r id0 seg0 hnm2 hid0r]
            rw [show (l2 ++ [(pid, ({ start := pseg.start, stop := pseg.stop, free := false } : Segment))]) ++ r =
              l2 ++ (pid, ({ start := pseg.start, stop := pseg.stop, free := false } : Segment)) :: r from by simp]
            rw [setSeg_decomp l2 r pid _
              (fun s => { start := s.start, stop := seg0.stop, free := s.free })
              hpidl2 hpidr]
          · rw [← congrArg Prod.fst (Option.some.inj h)]
            show raf.freelists = _
            rw [hraf]
          · rw [← congrArg Prod.fst (Option.some.inj h)]
            show raf.allocated_segments = _
            rw [hraf]
          · rw [← congrArg Prod.fst (Option.some.inj h)]
            show raf.fresh = _
            rw [hraf]
        · rw [hff] at hfree; cases hfree
    · -- no merge with the previous segment
      simp only [hcond, if_false] at h
      refine Or.inl ⟨(Option.some.inj h).symm, ?_⟩
      intro pp2 hpp2 hfree2 hstop2
      obtain rfl : pp2 = (pid, pseg) := (Option.some.inj hpp2).symm
      apply hcond
      simp only [Segment.can_join, Segment.is_allocated, Bool.and_eq_true,
        Bool.or_eq_true, beq_iff_eq, Bool.not_not]
      exact ⟨Or.inr hstop2.symm, hfree2⟩


/-- Characterize a successful `coalesce_next` on a decomposed segment
list. -/
theorem coalesce_next_char {Q M : Nat} {ra1 : ResourceAllocator} {idm : Nat}
    {segm : Segment} {L R : List (Nat × Segment)}
    (hdecomp : ra1.segments = L ++ (idm, segm) :: R)
    (hndk : (keysS ra1.segments).Nodup)
    (hpos : segm.start < segm.stop)
    (hnextb : ∀ np : Nat × Segment, R.head? = some np →
      segm.stop ≤ np.2.start ∧ np.2.start < np.2.stop)
    {ra2 : ResourceAllocator}
    (h : coalesce_next Q M ra1 idm segm = some ra2) :
    (ra2 = ra1 ∧
      ∀ np : Nat × Segment, R.head? = some np → np.2.free = true →
        segm.stop ≠ np.2.start) ∨
    (∃ nid nseg R2, R = (nid, nseg) :: R2 ∧ nseg.free = true ∧
      segm.stop = nseg.start ∧
      usize_log2 (Segment.size nseg / Q) < M ∧ Q ≤ Segment.size nseg ∧
      ra2.segments = L ++ (idm, { start := segm.start, stop := nseg.stop, free := segm.free }) :: R2 ∧
      ra2.freelists = ra1.freelists.set (usize_log2 (Segment.size nseg / Q))
        ((ra1.freelists.getD (usize_log2 (Segment.size nseg / Q)) []).filter (fun j => j != nid)) ∧
      ra2.allocated_segments = ra1.allocated_segments ∧
      ra2.fresh = ra1.fresh) := by
  have hkeys : keysS ra1.segments = keysS L ++ idm :: keysS R := by
    rw [hdecomp, keysS_append, keysS_cons]
  have hnd2 := hkeys ▸ hndk
  have hidmL : idm ∉ keysS L := by
    intro hmem
    exact (List.disjoint_of_nodup_append hnd2) hmem (by simp)
  unfold coalesce_next at h
  rw [hdecomp, nextOf_decomp L R idm segm hidmL] at h
  cases R with
  | nil =>
    simp only [List.head?_nil] at h
    exact Or.inl ⟨(Option.some.inj h).symm, fun np hnp => by cases hnp⟩
  | cons np R2 =>
    obtain ⟨nid, nseg⟩ := np
    simp only [List.head?_cons] at h
    by_cases hcond : (segm.can_join nseg && !nseg.is_allocated) = true
    · -- the next segment is merged
      simp only [hcond, if_true] at h
      have hfree : nseg.free = true := by
        have h2 := (Bool.and_eq_true_iff.mp hcond).2
        simpa [Segment.is_allocated] using h2
      have hb : segm.stop ≤ nseg.start ∧ nseg.start < nseg.stop := by
        have := hnextb (nid, nseg) rfl
        exact this
      have hjoin : segm.stop = nseg.start := by
        have h1 := (Bool.and_eq_true_iff.mp hcond).1
        simp only [Segment.can_join, Bool.or_eq_true, beq_iff_eq] at h1
        rcases h1 with h1 | h1
        · exact h1
        · exact absurd h1 (by omega)
      -- key disjointness facts
      have hnidL : nid ∉ keysS L := by
        intro hmem
        have hm2 : nid ∈ idm :: keysS ((nid, nseg) :: R2) := by
          simp [keysS_cons]
        exact (List.disjoint_of_nodup_append hnd2) hmem hm2
      have hnididm : ¬ nid = idm := by
        intro hc
        have h3 := (List.nodup_cons.1 (List.nodup_append.1 hnd2).2.1).1
        exact h3 (by simp [keysS_cons, hc])
      have hnidR2 : nid ∉ keysS R2 := by
        have h3 := (List.nodup_cons.1 (List.nodup_append.1 hnd2).2.1).2
        exact (List.nodup_cons.1 (by simpa [keysS_cons] using h3)).1
      have hidmR : idm ∉ keysS ((nid, nseg) :: R2) := by
        intro hmem
        have h3 := (List.nodup_cons.1 (List.nodup_append.1 hnd2).2.1).1
        exact h3 hmem
      -- the extended working segment
      have hseg1 : setSeg (L ++ (idm, segm) :: (nid, nseg) :: R2) idm
          (fun s => { start := s.start, stop := nseg.stop, free := s.free }) =
          L ++ (idm, ({ start := segm.start, stop := nseg.stop, free := segm.free } : Segment)) :: (nid, nseg) :: R2 := by
        rw [setSeg_decomp L ((nid, nseg) :: R2) idm segm _ hidmL hidmR]
      rw [hseg1] at h
      -- evaluate the freelist_remove on nid
      cases hfr : freelist_remove Q M { ra1 with segments := L ++ (idm, ({ start := segm.start, stop := nseg.stop, free := segm.free } : Segment)) :: (nid, nseg) :: R2 } nid with
      | none => rw [hfr] at h; cases h
      | some raf =>
        rw [hfr] at h
        obtain ⟨segf, hsegf, hq, hlog, hca⟩ := freelist_remove_char hfr
        have hlooknid : lookupSeg (L ++ (idm, ({ start := segm.start, stop := nseg.stop, free := segm.free } : Segment)) :: (nid, nseg) :: R2) nid = some nseg := by
          rw [lookupSeg_middle_ne L ((nid, nseg) :: R2) idm nid _ hnididm]
          exact lookupSeg_decomp_eq L R2 nid nseg hnidL
        rw [show getSeg { ra1 with segments := L ++ (idm, ({ start := segm.start, stop := nseg.stop, free := segm.free } : Segment)) :: (nid, nseg) :: R2 } nid = lookupSeg (L ++ (idm, ({ start := segm.start, stop := nseg.stop, free := segm.free } : Segment)) :: (nid, nseg) :: R2) nid from rfl, hlooknid] at hsegf
        obtain rfl : nseg = segf := Option.some.inj hsegf
        rcases hca with ⟨-, hraf⟩ | ⟨hff, -⟩
        · have hQle : Q ≤ Segment.size nseg := by
            by_contra hc
            exact hq (Nat.div_eq_of_lt (by omega))
          refine Or.inr ⟨nid, nseg, R2, rfl, hfree, hjoin, hlog, hQle, ?_, ?_, ?_, ?_⟩
          · rw [← Option.some.inj h]
            show removeSegList raf.segments nid = _
            rw [hraf]
            show removeSegList (setSeg (L ++ (idm, ({ start := segm.start, stop := nseg.stop, free := segm.free } : Segment)) :: (nid, nseg) :: R2) nid (fun s => { start := s.start, stop := s.stop, free := false })) nid = _
            have hnidL2 : nid ∉ keysS (L ++ [(idm, ({ start := segm.start, stop := nseg.stop, free := segm.free } : Segment))]) := by
              rw [keysS_append]
              intro hc
              rcases List.mem_append.1 hc with hc | hc
              · exact hnidL hc
              · simp only [keysS, List.map_cons, List.map_nil, List.mem_singleton] at hc
                exact hnididm hc
            rw [show L ++ (idm, ({ start := segm.start, stop := nseg.stop, free := segm.free } : Segment)) :: (nid, nseg) :: R2 = (L ++ [(idm, ({ start := segm.start, stop := nseg.stop, free := segm.free } : Segment))]) ++ (nid, nseg) :: R2 from by simp]
            rw [setSeg_decomp _ R2 nid nseg (fun s => { start := s.start, stop := s.stop, free := false }) hnidL2 hnidR2]
            rw [removeSegList_decomp _ R2 nid _ hnidL2 hnidR2]
            simp
          · rw [← Option.some.inj h]
            show raf.freelists = _
            rw [hraf]
          · rw [← Option.some.inj h]
            show raf.allocated_segments = _
            rw [hraf]
          · rw [← Option.some.inj h]
            show raf.fresh = _
            rw [hraf]
        · rw [hff] at hfree; cases hfree
    · -- no merge with the next segment
      simp only [hcond, if_false] at h
      refine Or.inl ⟨(Option.some.inj h).symm, ?_⟩
      intro np2 hnp2 hfree2 hstop2
      obtain rfl : np2 = (nid, nseg) := by
        simpa using hnp2.symm
      apply hcond
      simp only [Segment.can_join, Segment.is_allocated, Bool.and_eq_true,
        Bool.or_eq_true, beq_iff_eq, Bool.not_not]
      exact ⟨Or.inl hstop2, hfree2⟩

/-- Split a `Chain'` around a distinguished middle element. -/
theorem chain'_decomp_mid {α : Type} {RL : α → α → Prop} {L R : List α}
    {m : α} (h : List.Chain' RL (L ++ m :: R)) :
    List.Chain' RL L ∧ List.Chain' RL R ∧
    (∀ x, L.getLast? = some x → RL x m) ∧
    (∀ y, R.head? = some y → RL m y) := by
  rw [List.chain'_append, List.chain'_cons'] at h
  obtain ⟨h1, ⟨h2, h3⟩, h4⟩ := h
  refine ⟨h1, h3, ?_, ?_⟩
  · intro x hx
    exact h4 x hx m rfl
  · intro y hy
    exact h2 y hy

/-- Build a `Chain'` around a distinguished middle element. -/
theorem chain'_build_mid {α : Type} {RL : α → α → Prop} {L R : List α}
    {m : α} (hL : List.Chain' RL L) (hR : List.Chain' RL R)
    (hLm : ∀ x, L.getLast? = some x → RL x m)
    (hmR : ∀ y, R.head? = some y → RL m y) :
    List.Chain' RL (L ++ m :: R) := by
  rw [List.chain'_append, List.chain'_cons']
  exact ⟨hL, ⟨fun y hy => hmR y hy, hR⟩,
    fun x hx y hy => (Option.some.inj hy) ▸ hLm x hx⟩

/-- The closing `freelist_insert` of a coalescing run restores the full
invariant. -/
theorem INV_finish {Q M : Nat} {ra2 ra' : ResourceAllocator} {idm : Nat}
    {segm2 : Segment} {LF RF : List (Nat × Segment)}
    (hQ : 1 ≤ Q)
    (hseg : ra2.segments = LF ++ (idm, segm2) :: RF)
    (hidmLF : idm ∉ keysS LF) (hidmRF : idm ∉ keysS RF)
    (hins : freelist_insert Q M ra2 idm = some ra')
    (hndF : (keysS (LF ++ (idm, segm2) :: RF)).Nodup)
    (hfreshF : ∀ p ∈ LF ++ (idm, segm2) :: RF, p.1 < ra2.fresh)
    (hsizesF : ∀ p ∈ LF ++ (idm, segm2) :: RF, Q ≤ Segment.size p.2)
    (hordF : (LF ++ (idm, segm2) :: RF).Chain'
      (fun p q => p.2.stop ≤ q.2.start))
    (hnofF : (LF ++ (idm, ({ start := segm2.start, stop := segm2.stop, free := true } : Segment)) :: RF).Chain'
      (fun p q => p.2.free = true → q.2.free = true → p.2.stop ≠ q.2.start))
    (hflok2 : FLOK Q M (LF ++ (idm, ({ start := segm2.start, stop := segm2.stop, free := true } : Segment)) :: RF)
      ra2.freelists)
    (hnotin : ∀ idx, idm ∉ ra2.freelists.getD idx [])
    (htabF : ∀ p ∈ ra2.allocated_segments, ∃ seg,
      lookupSeg (LF ++ (idm, ({ start := segm2.start, stop := segm2.stop, free := true } : Segment)) :: RF) p.2 = some seg ∧
        seg.free = false)
    (hvndF : (ra2.allocated_segments.map Prod.snd).Nodup) :
    INV Q M ra' ∧ ra'.allocated_segments = ra2.allocated_segments ∧
      ra'.fresh = ra2.fresh := by
  obtain ⟨segI, hsegI, hqI, hlogI, hra'⟩ := freelist_insert_char hins
  have hlook2 : getSeg ra2 idm = some segm2 := by
    rw [getSeg_eq, hseg]
    exact lookupSeg_decomp_eq LF RF idm segm2 hidmLF
  rw [hlook2] at hsegI
  obtain rfl : segm2 = segI := Option.some.inj hsegI
  have hsegs' : ra'.segments =
      LF ++ (idm, ({ start := segm2.start, stop := segm2.stop, free := true } : Segment)) :: RF := by
    rw [hra']
    show setSeg ra2.segments idm
      (fun s => { start := s.start, stop := s.stop, free := true }) = _
    rw [hseg, setSeg_decomp LF RF idm segm2 _ hidmLF hidmRF]
  have hkeyseq : keysS (LF ++ (idm, ({ start := segm2.start, stop := segm2.stop, free := true } : Segment)) :: RF) =
      keysS (LF ++ (idm, segm2) :: RF) := by
    rw [keysS_append, keysS_cons, keysS_append, keysS_cons]
  have hsz2 : Q ≤ Segment.size segm2 :=
    hsizesF (idm, segm2) (by simp)
  refine ⟨?_, ?_, ?_⟩
  · refine ⟨?_, ?_, ?_, ?_, ?_, ?_, ?_, ?_⟩
    · rw [hsegs', hkeyseq]
      exact hndF
    · intro p hp
      rw [hsegs'] at hp
      show p.1 < ra'.fresh
      have hfr : ra'.fresh = ra2.fresh := by rw [hra']
      rw [hfr]
      rcases List.mem_append.1 hp with hp | hp
      · exact hfreshF p (List.mem_append.2 (Or.inl hp))
      · rcases List.mem_cons.1 hp with rfl | hp
        · exact hfreshF (idm, segm2) (by simp)
        · exact hfreshF p (by simp [hp])
    · intro p hp
      rw [hsegs'] at hp
      rcases List.mem_append.1 hp with hp | hp
      · exact hsizesF p (List.mem_append.2 (Or.inl hp))
      · rcases List.mem_cons.1 hp with rfl | hp
        · exact hsz2
        · exact hsizesF p (by simp [hp])
    · rw [hsegs']
      obtain ⟨h1, h2, h3, h4⟩ := chain'_decomp_mid hordF
      exact chain'_build_mid h1 h2 (fun x hx => h3 x hx) (fun y hy => h4 y hy)
    · rw [hsegs']
      exact hnofF
    · have hfl' : ra'.freelists = ra2.freelists.set
          (usize_log2 (Segment.size segm2 / Q))
          (idm :: ra2.freelists.getD (usize_log2 (Segment.size segm2 / Q)) []) := by
        rw [hra']
      have hpush := FLOK_push hflok2
        (lookupSeg_decomp_eq LF RF idm _ hidmLF) rfl hsz2 hlogI hnotin
      have hszeq : Segment.size ({ start := segm2.start, stop := segm2.stop, free := true } : Segment) = Segment.size segm2 := rfl
      rw [hszeq] at hpush
      have hmin : min (usize_log2 (Segment.size segm2 / Q)) M =
          usize_log2 (Segment.size segm2 / Q) := by omega
      rw [hmin] at hpush
      rw [hsegs', hfl']
      exact hpush
    · intro p hp
      have ht : ra'.allocated_segments = ra2.allocated_segments := by rw [hra']
      rw [ht] at hp
      obtain ⟨seg, hs1, hs2⟩ := htabF p hp
      exact ⟨seg, by rw [getSeg_eq, hsegs']; exact hs1, hs2⟩
    · have ht : ra'.allocated_segments = ra2.allocated_segments := by rw [hra']
      rw [ht]
      exact hvndF
  · rw [hra']
  · rw [hra']
/-- Keys bound below the freshness counter, by membership. -/
theorem fresh_of_mem {segs : List (Nat × Segment)} {f : Nat}
    (hb : ∀ p ∈ segs, p.1 < f) {x : Nat} (hx : x ∈ keysS segs) : x < f := by
  obtain ⟨p, hp, rfl⟩ := List.mem_map.1 hx
  exact hb p hp

/-- `coalesce_and_freelist_insert` on a non-free segment that no table
entry binds preserves the invariant, the allocated table and the freshness
counter. -/
theorem INV_coalesce {Q M : Nat} {ra ra' : ResourceAllocator} {id0 : Nat}
    {seg0 : Segment} (hQ : 1 ≤ Q) (hinv : INV Q M ra)
    (hid0 : getSeg ra id0 = some seg0) (hfree0 : seg0.free = false)
    (hnb : ∀ p ∈ ra.allocated_segments, p.2 ≠ id0)
    (h : coalesce_and_freelist_insert Q M ra id0 = some ra') :
    INV Q M ra' ∧ ra'.allocated_segments = ra.allocated_segments ∧
      ra'.fresh = ra.fresh := by
  obtain ⟨l, r, hdec, hl⟩ :=
    lookupSeg_decomp (show lookupSeg ra.segments id0 = some seg0 from hid0)
  have hndk := hinv.nodup
  have hkeys0 : keysS ra.segments = keysS l ++ id0 :: keysS r := by
    rw [hdec, keysS_append, keysS_cons]
  have hnd0 : (keysS l ++ id0 :: keysS r).Nodup := hkeys0 ▸ hndk
  have hid0r : id0 ∉ keysS r :=
    (List.nodup_cons.1 (List.nodup_append.1 hnd0).2.1).1
  have hmem0 : (id0, seg0) ∈ ra.segments := by rw [hdec]; simp
  have hsz0 : Q ≤ Segment.size seg0 := hinv.sizes _ hmem0
  have hpos0 : seg0.start < seg0.stop := by
    have hs : Segment.size seg0 = seg0.stop - seg0.start := rfl
    omega
  obtain ⟨hordL, hordR, hordLm, hordmR⟩ := chain'_decomp_mid (hdec ▸ hinv.ordered)
  obtain ⟨hnofL, hnofR, hnofLm, hnofmR⟩ :=
    chain'_decomp_mid (hdec ▸ hinv.no_adj_free)
  obtain ⟨hflen, hflnd, hflmem⟩ := hinv.flok
  have hflnid0 : ∀ idx x, x ∈ ra.freelists.getD idx [] → x ≠ id0 := by
    intro idx x hx heq
    obtain ⟨s, hs1, hs2, -⟩ := hflmem idx x hx
    rw [heq, show lookupSeg ra.segments id0 = some seg0 from hid0] at hs1
    rw [← Option.some.inj hs1] at hs2
    rw [hfree0] at hs2
    cases hs2
  have hrsub : ∀ p ∈ r, p ∈ ra.segments := by
    intro p hp
    rw [hdec]
    simp [hp]
  have hlsub : ∀ p ∈ l, p ∈ ra.segments := by
    intro p hp
    rw [hdec]
    simp [hp]
  have hnextb0 : ∀ np : Nat × Segment, r.head? = some np →
      seg0.stop ≤ np.2.start ∧ np.2.start < np.2.stop := by
    intro np hnp
    have h1 := hordmR np hnp
    have hsz := hinv.sizes np (hrsub np (List.mem_of_mem_head? hnp))
    have hs : Segment.size np.2 = np.2.stop - np.2.start := rfl
    exact ⟨h1, by omega⟩
  have hprevb0 : ∀ pp : Nat × Segment, l.getLast? = some pp →
      pp.2.stop ≤ seg0.start ∧ pp.2.start < pp.2.stop := by
    intro pp hpp
    have h1 := hordLm pp hpp
    have hsz := hinv.sizes pp (hlsub pp (List.mem_of_mem_getLast? hpp))
    have hs : Segment.size pp.2 = pp.2.stop - pp.2.start := rfl
    exact ⟨h1, by omega⟩
  have htabne : ∀ p ∈ ra.allocated_segments, ∀ x : Nat, ∀ sx : Segment,
      lookupSeg ra.segments x = some sx → sx.free = true → p.2 ≠ x := by
    intro p hp x sx hsx hfx heq
    obtain ⟨s2, hs2, hs3⟩ := hinv.alloc_table p hp
    rw [heq, show getSeg ra x = lookupSeg ra.segments x from rfl, hsx] at hs2
    rw [← Option.some.inj hs2, hfx] at hs3
    cases hs3
  unfold coalesce_and_freelist_insert at h
  simp only [hid0] at h
  cases hcp : coalesce_prev Q M ra id0 seg0 with
  | none => rw [hcp] at h; cases h
  | some out =>
  obtain ⟨ra1, idm⟩ := out
  simp only [hcp] at h
  have hchar := coalesce_prev_char hdec hndk hpos0 hprevb0 hcp
  have hmid : ∃ L1 segm : _,
      ra1.segments = L1 ++ (idm, segm) :: r ∧
      segm.free = false ∧
      segm.stop = seg0.stop ∧
      Q ≤ Segment.size segm ∧
      idm ∉ keysS L1 ∧
      (keysS (L1 ++ (idm, segm) :: r)).Nodup ∧
      (∀ x ∈ keysS (L1 ++ (idm, segm) :: r), x ∈ keysS ra.segments) ∧
      (∀ p ∈ L1, p ∈ ra.segments) ∧
      L1.Chain' (fun p q => p.2.stop ≤ q.2.start) ∧
      (∀ x : Nat × Segment, L1.getLast? = some x → x.2.stop ≤ segm.start) ∧
      L1.Chain' (fun p q => p.2.free = true → q.2.free = true →
        p.2.stop ≠ q.2.start) ∧
      (∀ x : Nat × Segment, L1.getLast? = some x → x.2.free = true →
        x.2.stop ≠ segm.start) ∧
      ra1.freelists.length = M ∧
      (∀ idx, (ra1.freelists.getD idx []).Nodup) ∧
      (∀ idx x, x ∈ ra1.freelists.getD idx [] →
        x ∈ ra.freelists.getD idx [] ∧ x ≠ idm) ∧
      (∀ x : Nat, ¬ x = idm → ¬ x = id0 →
        lookupSeg ra1.segments x = lookupSeg ra.segments x) ∧
      (∀ p ∈ ra.allocated_segments, p.2 ≠ idm) ∧
      ra1.allocated_segments = ra.allocated_segments ∧
      ra1.fresh = ra.fresh := by
    rcases hchar with ⟨hout, hadjP⟩ | ⟨l2, pid, pseg, hl2, hpfree, hpjoin,
        hplog, hpsz, hout2, hout1s, hout1f, hout1t, hout1fr⟩
    · -- no previous merge
      obtain ⟨rfl, rfl⟩ : ra1 = ra ∧ idm = id0 := by
        have h1 := congrArg Prod.fst hout
        have h2 := congrArg Prod.snd hout
        exact ⟨h1, h2⟩
      refine ⟨l, seg0, hdec, hfree0, rfl, hsz0, hl, ?_, ?_, hlsub, hordL,
        ?_, hnofL, ?_, hflen, hflnd, ?_, ?_, ?_, rfl, rfl⟩
      · rw [← hdec]
        exact hndk
      · intro x hx
        rw [hdec]
        rw [keysS_append, keysS_cons] at hx ⊢
        exact hx
      · intro x hx
        exact (hprevb0 x hx).1
      · intro x hx hxf
        exact hadjP x hx hxf
      · intro idx x hx
        exact ⟨hx, hflnid0 idx x hx⟩
      · intro x hx1 hx2
        rfl
      · exact hnb
    · -- the previous segment was merged
      have hidm : idm = pid := hout2
      subst hidm
      -- key facts over the refined decomposition
      have hkeys2 : keysS ra.segments =
          keysS l2 ++ idm :: id0 :: keysS r := by
        rw [hkeys0, hl2, keysS_append]
        simp [keysS]
      have hnd3 : (keysS l2 ++ idm :: id0 :: keysS r).Nodup := hkeys2 ▸ hndk
      have hidml2 : idm ∉ keysS l2 := by
        intro hc
        exact (List.disjoint_of_nodup_append hnd3) hc (by simp)
      have hidmid0 : ¬ idm = id0 := by
        have h3 := (List.nodup_cons.1 (List.nodup_append.1 hnd3).2.1).1
        intro hc
        exact h3 (by simp [hc])
      have hidmr : idm ∉ keysS r := by
        have h3 := (List.nodup_cons.1 (List.nodup_append.1 hnd3).2.1).1
        intro hc
        exact h3 (by simp [hc])
      have hid0l2 : id0 ∉ keysS l2 := by
        intro hc
        exact (List.disjoint_of_nodup_append hnd3) hc (by simp)
      have hlookpid : lookupSeg ra.segments idm = some pseg := by
        rw [hdec, hl2, List.append_assoc, List.singleton_append]
        exact lookupSeg_decomp_eq l2 _ idm pseg hidml2
      have hppos : pseg.start < pseg.stop := by
        have hs : Segment.size pseg = pseg.stop - pseg.start := rfl
        omega
      have hcN : usize_log2 (Segment.size pseg / Q) < M := hplog
      -- chain facts inside l
      obtain ⟨hordL2, -, hordL2m, -⟩ := chain'_decomp_mid
        (show List.Chain' _ (l2 ++ (idm, pseg) :: []) from by
          rw [← List.append_nil (l2 ++ [(idm, pseg)]), List.append_assoc] at hl2 ⊢
          exact hl2 ▸ hordL)
      obtain ⟨hnofL2, -, hnofL2m, -⟩ := chain'_decomp_mid
        (show List.Chain' _ (l2 ++ (idm, pseg) :: []) from by
          rw [← List.append_nil (l2 ++ [(idm, pseg)]), List.append_assoc] at hl2 ⊢
          exact hl2 ▸ hnofL)
      refine ⟨l2, { start := pseg.start, stop := seg0.stop, free := false },
        hout1s, rfl, rfl, ?_, hidml2, ?_, ?_, ?_, hordL2, ?_, hnofL2, ?_,
        ?_, ?_, ?_, ?_, ?_, hout1t, hout1fr⟩
      · show Q ≤ seg0.stop - pseg.start
        have hs : Segment.size seg0 = seg0.stop - seg0.start := rfl
        omega
      · -- nodup of the new keys
        have hsub : List.Sublist (keysS l2 ++ idm :: keysS r)
            (keysS l2 ++ idm :: id0 :: keysS r) :=
          List.Sublist.append_left
            (List.Sublist.cons₂ idm (List.sublist_cons_self id0 _)) _
        have := hnd3.sublist hsub
        rw [keysS_append, keysS_cons]
        exact this
      · -- keys membership
        intro x hx
        rw [keysS_append, keysS_cons] at hx
        rw [hkeys2]
        rcases List.mem_append.1 hx with hx | hx
        · exact List.mem_append.2 (Or.inl hx)
        · rcases List.mem_cons.1 hx with rfl | hx
          · simp
          · simp [hx]
      · -- l2 entries are original entries
        intro p hp
        exact hlsub p (by rw [hl2]; exact List.mem_append.2 (Or.inl hp))
      · -- ordering boundary
        intro x hx
        show x.2.stop ≤ pseg.start
        exact hordL2m x hx
      · -- no-adjacent-free boundary
        intro x hx hxf
        show x.2.stop ≠ pseg.start
        exact hnofL2m x hx hxf hpfree
      · -- freelist length
        rw [hout1f]
        exact (List.length_set _ _ _).trans hflen
      · -- freelist nodups
        intro idx
        rw [hout1f, getD_set_eval]
        by_cases hc : idx = usize_log2 (Segment.size pseg / Q) ∧
            usize_log2 (Segment.size pseg / Q) < ra.freelists.length
        · rw [if_pos hc]
          exact (hflnd _).filter _
        · rw [if_neg hc]
          exact hflnd idx
      · -- freelist membership transport
        intro idx x hx
        rw [hout1f, getD_set_eval] at hx
        by_cases hc : idx = usize_log2 (Segment.size pseg / Q) ∧
            usize_log2 (Segment.size pseg / Q) < ra.freelists.length
        · rw [if_pos hc] at hx
          refine ⟨hc.1 ▸ List.mem_of_mem_filter hx, ?_⟩
          have := List.of_mem_filter hx
          simpa using this
        · rw [if_neg hc] at hx
          refine ⟨hx, ?_⟩
          intro heq
          obtain ⟨s, hs1, hs2, hs3, hs4, hs5⟩ := hflmem idx x hx
          rw [heq, hlookpid] at hs1
          rw [← Option.some.inj hs1] at hs5
          rw [show min (usize_log2 (Segment.size pseg / Q)) M =
            usize_log2 (Segment.size pseg / Q) from by omega] at hs5
          rw [hflen] at hc
          exact hc ⟨hs5.symm, hplog⟩
      · -- lookup stability
        intro x hx1 hx2
        rw [hout1s, lookupSeg_middle_ne l2 r idm x _ hx1]
        rw [hdec, hl2, List.append_assoc, List.singleton_append,
          lookupSeg_middle_ne l2 ((id0, seg0) :: r) idm x pseg hx1,
          lookupSeg_middle_ne l2 r id0 x seg0 hx2]
      · -- no table entry binds the merged segment
        intro p hp
        exact htabne p hp idm pseg hlookpid hpfree
  obtain ⟨L1, segm, hm1, hm2, hm3, hm4, hm5, hm6, hm7, hm8, hm9, hm10,
    hm11, hm12, hm13, hm14, hm15, hm16, hm17, hm18, hm19⟩ := hmid
  have hidmr1 : idm ∉ keysS r := by
    have := hm6
    rw [keysS_append, keysS_cons] at this
    exact (List.nodup_cons.1 (List.nodup_append.1 this).2.1).1
  have hget1 : getSeg ra1 idm = some segm := by
    rw [getSeg_eq, hm1]
    exact lookupSeg_decomp_eq L1 r idm segm hm5
  simp only [hget1] at h
  have hndk1 : (keysS ra1.segments).Nodup := by
    rw [hm1]
    exact hm6
  have hpos1 : segm.start < segm.stop := by
    have hs : Segment.size segm = segm.stop - segm.start := rfl
    omega
  have hnextb1 : ∀ np : Nat × Segment, r.head? = some np →
      segm.stop ≤ np.2.start ∧ np.2.start < np.2.stop := by
    intro np hnp
    have := hnextb0 np hnp
    omega
  cases hcn : coalesce_next Q M ra1 idm segm with
  | none => rw [hcn] at h; cases h
  | some ra2 =>
  simp only [hcn] at h
  have hcharN := coalesce_next_char hm1 hndk1 hpos1 hnextb1 hcn
  have hfin : ∃ RF : List (Nat × Segment), ∃ segm2 : Segment,
      ra2.segments = L1 ++ (idm, segm2) :: RF ∧
      segm2.free = false ∧
      idm ∉ keysS RF ∧
      (keysS (L1 ++ (idm, segm2) :: RF)).Nodup ∧
      (∀ p ∈ L1 ++ (idm, segm2) :: RF, p.1 < ra.fresh) ∧
      (∀ p ∈ L1 ++ (idm, segm2) :: RF, Q ≤ Segment.size p.2) ∧
      ((L1 ++ (idm, segm2) :: RF).Chain' (fun p q => p.2.stop ≤ q.2.start)) ∧
      ((L1 ++ (idm, ({ start := segm2.start, stop := segm2.stop, free := true } : Segment)) :: RF).Chain'
        (fun p q => p.2.free = true → q.2.free = true →
          p.2.stop ≠ q.2.start)) ∧
      FLOK Q M (L1 ++ (idm, ({ start := segm2.start, stop := segm2.stop, free := true } : Segment)) :: RF)
        ra2.freelists ∧
      (∀ idx, idm ∉ ra2.freelists.getD idx []) ∧
      (∀ p ∈ ra2.allocated_segments, ∃ seg,
        lookupSeg (L1 ++ (idm, ({ start := segm2.start, stop := segm2.stop, free := true } : Segment)) :: RF) p.2 =
          some seg ∧ seg.free = false) ∧
      ra2.allocated_segments = ra.allocated_segments ∧
      ra2.fresh = ra.fresh := by
    have hfreshL1 : ∀ p ∈ L1, p.1 < ra.fresh := by
      intro p hp
      exact hinv.fresh_bound p (hm8 p hp)
    have hfreshr : ∀ p ∈ r, p.1 < ra.fresh := by
      intro p hp
      exact hinv.fresh_bound p (hrsub p hp)
    have hfreshidm : idm < ra.fresh := by
      refine fresh_of_mem hinv.fresh_bound (hm7 idm ?_)
      rw [keysS_append, keysS_cons]
      simp
    have hstabL : ∀ x : Nat, ¬ x = idm →
        lookupSeg (L1 ++ (idm, ({ start := segm.start, stop := segm.stop, free := true } : Segment)) :: r) x =
          lookupSeg (L1 ++ (idm, segm) :: r) x := by
      intro x hx
      rw [lookupSeg_middle_ne L1 r idm x _ hx,
        lookupSeg_middle_ne L1 r idm x segm hx]
    rcases hcharN with ⟨rfl, hadjN⟩ | ⟨nid, nseg, R2, hr2, hnfree, hnjoin,
        hnlog, hnsz, hn1s, hn1f, hn1t, hn1fr⟩
    · -- no next merge
      refine ⟨r, segm, hm1, hm2, hidmr1, hm6, ?_, ?_, ?_, ?_, ?_, ?_, ?_,
        hm18, hm19⟩
      · intro p hp
        rcases List.mem_append.1 hp with hp | hp
        · exact hfreshL1 p hp
        · rcases List.mem_cons.1 hp with rfl | hp
          · exact hfreshidm
          · exact hfreshr p hp
      · intro p hp
        rcases List.mem_append.1 hp with hp | hp
        · exact hinv.sizes p (hm8 p hp)
        · rcases List.mem_cons.1 hp with rfl | hp
          · exact hm4
          · exact hinv.sizes p (hrsub p hp)
      · exact chain'_build_mid hm9 hordR (fun x hx => hm10 x hx)
          (fun y hy => by
            have := (hnextb0 y hy).1
            show segm.stop ≤ y.2.start
            omega)
      · refine chain'_build_mid hm11 hnofR (fun x hx hf1 hf2 => hm12 x hx hf1)
          (fun y hy hf1 hf2 => ?_)
        show segm.stop ≠ y.2.start
        exact hadjN y hy hf2
      · refine FLOK_congr ⟨hflen, hflnd, hflmem⟩ ?_ ?_ ?_ ?_
        · rw [hm13]
        · exact hm14
        · intro idx x hx
          exact (hm15 idx x hx).1
        · intro idx x hx
          have hxidm : ¬ x = idm := (hm15 idx x hx).2
          have hxid0 : ¬ x = id0 := hflnid0 idx x (hm15 idx x hx).1
          rw [hstabL x hxidm, ← hm1]
          exact hm16 x hxidm hxid0
      · intro idx hc
        exact (hm15 idx idm hc).2 rfl
      · intro p hp
        rw [hm18] at hp
        obtain ⟨s, hs1, hs2⟩ := hinv.alloc_table p hp
        have hne1 : ¬ p.2 = idm := hm17 p hp
        have hne2 : ¬ p.2 = id0 := hnb p hp
        refine ⟨s, ?_, hs2⟩
        rw [hstabL p.2 hne1, ← hm1, hm16 p.2 hne1 hne2]
        exact hs1
    · -- the next segment was merged
      rw [hm2] at hn1s
      have hlooknid : lookupSeg ra1.segments nid = some nseg := by
        rw [hm1, hr2, lookupSeg_middle_ne L1 ((nid, nseg) :: R2) idm nid segm
          (by
            intro hc
            exact hidmr1 (by rw [hr2, ← hc]; simp [keysS_cons])),
          lookupSeg_decomp_eq L1 R2 nid nseg (by
            intro hc
            have hm6b := hm6
            rw [keysS_append, keysS_cons, hr2, keysS_cons] at hm6b
            exact (List.disjoint_of_nodup_append hm6b) hc (by simp))]
      have hnidid0 : ¬ nid = id0 := by
        intro hc
        rw [hc] at hr2
        rw [hr2] at hid0r
        exact hid0r (by simp [keysS_cons])
      have hnididm : ¬ nid = idm := by
        intro hc
        rw [hc] at hr2
        rw [hr2] at hidmr1
        exact hidmr1 (by simp [keysS_cons])
      have hlooknid0 : lookupSeg ra.segments nid = some nseg := by
        rw [← hm16 nid hnididm hnidid0]
        exact hlooknid
      have hr2sub : ∀ p ∈ R2, p ∈ r := by
        intro p hp
        rw [hr2]
        simp [hp]
      have hnd6 := hm6
      rw [hr2] at hnd6
      have hkeysr2 : keysS ((nid, nseg) :: R2) = nid :: keysS R2 := rfl
      have hidmR2 : idm ∉ keysS R2 := by
        intro hc
        rw [hr2, hkeysr2] at hidmr1
        exact hidmr1 (by simp [hc])
      have hnidR2 : nid ∉ keysS R2 := by
        rw [keysS_append, keysS_cons, hkeysr2] at hnd6
        exact (List.nodup_cons.1
          (List.nodup_cons.1 (List.nodup_append.1 hnd6).2.1).2).1
      have hordR2 : List.Chain' (fun p q : Nat × Segment =>
          p.2.stop ≤ q.2.start) R2 := by
        rw [hr2] at hordR
        exact hordR.tail
      have hnofR2 : List.Chain' (fun p q : Nat × Segment =>
          p.2.free = true → q.2.free = true → p.2.stop ≠ q.2.start) R2 := by
        rw [hr2] at hnofR
        exact hnofR.tail
      have hordnR2 : ∀ y : Nat × Segment, R2.head? = some y →
          nseg.stop ≤ y.2.start := by
        intro y hy
        rw [hr2] at hordR
        exact (List.chain'_cons'.1 hordR).1 y hy
      have hnofnR2 : ∀ y : Nat × Segment, R2.head? = some y →
          y.2.free = true → nseg.stop ≠ y.2.start := by
        intro y hy hyf
        rw [hr2] at hnofR
        exact (List.chain'_cons'.1 hnofR).1 y hy hnfree hyf
      have hstabN : ∀ x : Nat, ¬ x = idm → ¬ x = nid → ¬ x = id0 →
          lookupSeg (L1 ++ (idm, ({ start := segm.start, stop := nseg.stop, free := true } : Segment)) :: R2) x =
            lookupSeg ra.segments x := by
        intro x hx1 hx2 hx3
        rw [lookupSeg_middle_ne L1 R2 idm x _ hx1, ← hm16 x hx1 hx3, hm1,
          hr2, lookupSeg_middle_ne L1 ((nid, nseg) :: R2) idm x segm hx1,
          lookupSeg_middle_ne L1 R2 nid x nseg hx2]
      refine ⟨R2, { start := segm.start, stop := nseg.stop, free := false },
        hn1s, rfl, hidmR2, ?_, ?_, ?_, ?_, ?_, ?_, ?_, ?_,
        hn1t.trans hm18, hn1fr.trans hm19⟩
      · rw [keysS_append, keysS_cons]
        rw [keysS_append, keysS_cons, hkeysr2] at hnd6
        refine hnd6.sublist ?_
        refine List.Sublist.append_left ?_ _
        exact List.Sublist.cons₂ idm (List.sublist_cons_self nid _)
      · intro p hp
        rcases List.mem_append.1 hp with hp | hp
        · exact hfreshL1 p hp
        · rcases List.mem_cons.1 hp with rfl | hp
          · exact hfreshidm
          · exact hfreshr p (hr2sub p hp)
      · intro p hp
        rcases List.mem_append.1 hp with hp | hp
        · exact hinv.sizes p (hm8 p hp)
        · rcases List.mem_cons.1 hp with rfl | hp
          · show Q ≤ nseg.stop - segm.start
            have hs : Segment.size nseg = nseg.stop - nseg.start := rfl
            omega
          · exact hinv.sizes p (hrsub p (hr2sub p hp))
      · refine chain'_build_mid hm9 hordR2 (fun x hx => hm10 x hx)
          (fun y hy => ?_)
        show nseg.stop ≤ y.2.start
        exact hordnR2 y hy
      · refine chain'_build_mid hm11 hnofR2
          (fun x hx hf1 hf2 => hm12 x hx hf1) (fun y hy hf1 hf2 => ?_)
        show nseg.stop ≠ y.2.start
        exact hnofnR2 y hy hf2
      · refine FLOK_congr ⟨hflen, hflnd, hflmem⟩ ?_ ?_ ?_ ?_
        · rw [hn1f]
          exact (List.length_set _ _ _).trans hm13
        · intro idx
          rw [hn1f, getD_set_eval]
          by_cases hc : idx = usize_log2 (Segment.size nseg / Q) ∧
              usize_log2 (Segment.size nseg / Q) < ra1.freelists.length
          · rw [if_pos hc]
            exact (hm14 _).filter _
          · rw [if_neg hc]
            exact hm14 idx
        · intro idx x hx
          rw [hn1f, getD_set_eval] at hx
          by_cases hc : idx = usize_log2 (Segment.size nseg / Q) ∧
              usize_log2 (Segment.size nseg / Q) < ra1.freelists.length
          · rw [if_pos hc] at hx
            exact (hm15 idx x (hc.1 ▸ List.mem_of_mem_filter hx)).1
          · rw [if_neg hc] at hx
            exact (hm15 idx x hx).1
        · intro idx x hx
          rw [hn1f, getD_set_eval] at hx
          have hxmem : x ∈ ra1.freelists.getD idx [] ∧ ¬ x = nid := by
            by_cases hc : idx = usize_log2 (Segment.size nseg / Q) ∧
                usize_log2 (Segment.size nseg / Q) < ra1.freelists.length
            · rw [if_pos hc] at hx
              refine ⟨hc.1 ▸ List.mem_of_mem_filter hx, ?_⟩
              have := List.of_mem_filter hx
              simpa using this
            · rw [if_neg hc] at hx
              refine ⟨hx, ?_⟩
              intro heq
              obtain ⟨s, hs1, hs2, hs3, hs4, hs5⟩ :=
                hflmem idx x (hm15 idx x hx).1
              rw [heq, hlooknid0] at hs1
              rw [← Option.some.inj hs1] at hs5
              rw [show min (usize_log2 (Segment.size nseg / Q)) M =
                usize_log2 (Segment.size nseg / Q) from by omega] at hs5
              rw [hm13] at hc
              exact hc ⟨hs5.symm, by omega⟩
          have hxidm : ¬ x = idm := (hm15 idx x hxmem.1).2
          have hxid0 : ¬ x = id0 := hflnid0 idx x (hm15 idx x hxmem.1).1
          exact hstabN x hxidm hxmem.2 hxid0
      · intro idx hc
        rw [hn1f, getD_set_eval] at hc
        by_cases hcc : idx = usize_log2 (Segment.size nseg / Q) ∧
            usize_log2 (Segment.size nseg / Q) < ra1.freelists.length
        · rw [if_pos hcc] at hc
          exact (hm15 idx idm (hcc.1 ▸ List.mem_of_mem_filter hc)).2 rfl
        · rw [if_neg hcc] at hc
          exact (hm15 idx idm hc).2 rfl
      · intro p hp
        rw [hn1t.trans hm18] at hp
        obtain ⟨s, hs1, hs2⟩ := hinv.alloc_table p hp
        have hne1 : ¬ p.2 = idm := hm17 p hp
        have hne2 : ¬ p.2 = id0 := hnb p hp
        have hne3 : ¬ p.2 = nid := htabne p hp nid nseg hlooknid0 hnfree
        refine ⟨s, ?_, hs2⟩
        rw [hstabN p.2 hne1 hne3 hne2]
        exact hs1
  obtain ⟨RF, segm2, hf1, hf2, hf4, hf5, hf6, hf7, hf8, hf9, hf10, hf11,
    hf12, hf13, hf14⟩ := hfin
  have hf3 : idm ∉ keysS L1 := hm5
  have hres := INV_finish hQ hf1 hf3 hf4 h hf5
    (by
      intro p hp
      rw [hf14]
      exact hf6 p hp)
    hf7 hf8 hf9 hf10 hf11
    (by
      intro p hp
      exact hf12 p hp)
    (by
      rw [hf13]
      exact hinv.table_vals_nodup)
  exact ⟨hres.1, hres.2.1.trans hf13, hres.2.2.trans hf14⟩

/-- Indexing a replicated empty freelist array. -/
theorem getD_replicate_nil (M idx : Nat) :
    (List.replicate M ([] : List Nat)).getD idx [] = [] := by
  induction M generalizing idx with
  | zero => cases idx <;> rfl
  | succ M ih =>
    cases idx with
    | zero => rfl
    | succ idx => exact ih idx

/-- A hit in the left block survives an append on the right. -/
theorem lookupSeg_append_of_some {segs : List (Nat × Segment)} {id : Nat}
    {seg : Segment} (t : List (Nat × Segment))
    (h : lookupSeg segs id = some seg) :
    lookupSeg (segs ++ t) id = some seg := by
  induction segs with
  | nil => cases h
  | cons p rest ih =>
    by_cases hp : p.1 = id
    · rw [List.cons_append]
      unfold lookupSeg at h ⊢
      rw [List.find?_cons_of_pos _ (by simpa using hp)] at h ⊢
      exact h
    · rw [List.cons_append, lookupSeg_cons_ne p _ id hp]
      rw [lookupSeg_cons_ne p rest id hp] at h
      exact ih h

/-- `ResourceAllocator::new` satisfies the invariant. -/
theorem INV_new (Q M : Nat) : INV Q M (new M) := by
  refine ⟨?_, ?_, ?_, ?_, ?_, ⟨?_, ?_, ?_⟩, ?_, ?_⟩
  · exact List.nodup_nil
  · intro p hp; cases hp
  · intro p hp; cases hp
  · exact List.chain'_nil
  · exact List.chain'_nil
  · exact List.length_replicate _ _
  · intro idx
    rw [show (new M).freelists = List.replicate M [] from rfl,
      getD_replicate_nil]
    exact List.nodup_nil
  · intro idx id hid
    rw [show (new M).freelists = List.replicate M [] from rfl,
      getD_replicate_nil] at hid
    cases hid
  · intro p hp; cases hp
  · exact List.nodup_nil

/-- `release` preserves the invariant. -/
theorem INV_release {Q M : Nat} {s s' : ResourceAllocator} {rg : Nat × Nat}
    (hQ : 1 ≤ Q) (hinv : INV Q M s) (h : release Q M s rg = some s') :
    INV Q M s' := by
  unfold release at h
  cases hla : lookupAssoc s.allocated_segments rg.1 with
  | none => rw [hla] at h; cases h
  | some id0 =>
  simp only [hla] at h
  have hment : (rg.1, id0) ∈ s.allocated_segments := lookupAssoc_mem hla
  obtain ⟨seg0, hs1, hs2⟩ := hinv.alloc_table (rg.1, id0) hment
  have hinvM : INV Q M { s with allocated_segments := removeAssoc s.allocated_segments rg.1 } := by
    refine ⟨hinv.nodup, hinv.fresh_bound, hinv.sizes, hinv.ordered,
      hinv.no_adj_free, hinv.flok, ?_, ?_⟩
    · intro p hp
      exact hinv.alloc_table p (mem_removeAssoc hp).1
    · exact hinv.table_vals_nodup.sublist
        (List.Sublist.map _ (removeAssoc_sublist _ _))
  have hnbM : ∀ p ∈ ({ s with allocated_segments := removeAssoc s.allocated_segments rg.1 } : ResourceAllocator).allocated_segments, p.2 ≠ id0 := by
    intro p hp heq
    have hp1 := mem_removeAssoc hp
    have := List.inj_on_of_nodup_map hinv.table_vals_nodup hp1.1 hment heq
    exact hp1.2 (by rw [this])
  exact (INV_coalesce hQ hinvM hs1 hs2 hnbM h).1

/-- `add` preserves the invariant, under the source's documented
precondition that the added range starts past every present segment. -/
theorem INV_add {Q M : Nat} {s s' : ResourceAllocator} {a b : Nat}
    (hQ : 1 ≤ Q) (hinv : INV Q M s) (hle : a ≤ b)
    (hsep : ∀ p ∈ s.segments, p.2.stop < a)
    (h : add Q M s a b = some s') : INV Q M s' := by
  unfold add at h
  by_cases hsz : Q ≤ Segment.size ({ start := a, stop := b, free := false } : Segment)
  · rw [if_pos hsz] at h
    have hfkeys : ∀ x ∈ keysS s.segments, x < s.fresh := fun x hx =>
      fresh_of_mem hinv.fresh_bound hx
    have hfreshnotin : s.fresh ∉ keysS s.segments := fun hc => by
      have := hfkeys _ hc
      omega
    have hinvA : INV Q M { s with
        segments := s.segments ++ [(s.fresh, ({ start := a, stop := b, free := false } : Segment))]
        fresh := s.fresh + 1 } := by
      refine ⟨?_, ?_, ?_, ?_, ?_, ?_, ?_, ?_⟩
      · show (keysS (s.segments ++ _)).Nodup
        rw [keysS_append]
        refine List.nodup_append.2 ⟨hinv.nodup, List.nodup_singleton _, ?_⟩
        intro x hx hx2
        rw [show keysS [(s.fresh, ({ start := a, stop := b, free := false } : Segment))] = [s.fresh] from rfl] at hx2
        rw [List.mem_singleton] at hx2
        exact hfreshnotin (hx2 ▸ hx)
      · intro p hp
        show p.1 < s.fresh + 1
        rcases List.mem_append.1 hp with hp | hp
        · have := hinv.fresh_bound p hp
          omega
        · rw [List.mem_singleton] at hp
          rw [hp]
          omega
      · intro p hp
        rcases List.mem_append.1 hp with hp | hp
        · exact hinv.sizes p hp
        · rw [List.mem_singleton] at hp
          rw [hp]
          exact hsz
      · show List.Chain' _ (s.segments ++ _)
        rw [List.chain'_append]
        refine ⟨hinv.ordered, List.chain'_singleton _, ?_⟩
        intro x hx y hy
        have h1 := hsep x (List.mem_of_mem_getLast? hx)
        have h2 : y = (s.fresh, ({ start := a, stop := b, free := false } : Segment)) :=
          (Option.some.inj hy).symm
        rw [h2]
        show x.2.stop ≤ a
        omega
      · show List.Chain' _ (s.segments ++ _)
        rw [List.chain'_append]
        refine ⟨hinv.no_adj_free, List.chain'_singleton _, ?_⟩
        intro x hx y hy
        have h1 := hsep x (List.mem_of_mem_getLast? hx)
        have h2 : y = (s.fresh, ({ start := a, stop := b, free := false } : Segment)) :=
          (Option.some.inj hy).symm
        rw [h2]
        intro hf1 hf2
        show x.2.stop ≠ a
        omega
      · obtain ⟨hflen, hflnd, hflmem⟩ := hinv.flok
        refine ⟨hflen, hflnd, ?_⟩
        intro idx id hid
        obtain ⟨sx, hsx, hrest⟩ := hflmem idx id hid
        exact ⟨sx, lookupSeg_append_of_some _ hsx, hrest⟩
      · intro p hp
        obtain ⟨sx, hsx, hfx⟩ := hinv.alloc_table p hp
        exact ⟨sx, lookupSeg_append_of_some _ hsx, hfx⟩
      · exact hinv.table_vals_nodup
    have hgetA : getSeg { s with
        segments := s.segments ++ [(s.fresh, ({ start := a, stop := b, free := false } : Segment))]
        fresh := s.fresh + 1 } s.fresh =
        some ({ start := a, stop := b, free := false } : Segment) := by
      show lookupSeg (s.segments ++ _) s.fresh = _
      rw [lookupSeg_append_not_mem _ _ _ hfreshnotin, lookupSeg_cons_self]
    have hnbA : ∀ p ∈ s.allocated_segments, p.2 ≠ s.fresh := by
      intro p hp heq
      obtain ⟨sx, hsx, -⟩ := hinv.alloc_table p hp
      have := mem_keysS_of_lookupSeg (show lookupSeg s.segments p.2 = some sx from hsx)
      rw [heq] at this
      exact hfreshnotin this
    exact (INV_coalesce hQ hinvA hgetA rfl hnbA h).1
  · rw [if_neg hsz] at h
    exact (Option.some.inj h) ▸ hinv

/-- Characterize a successful `fast_find_segment`. -/
theorem fast_find_ok_char {Q M : Nat} {s : ResourceAllocator} {n id : Nat}
    {raF : ResourceAllocator}
    (hflok : FLOK Q M s.segments s.freelists)
    (h : fast_find_segment Q M s n = ARes.ok (id, raF)) :
    raF.segments = s.segments ∧
    raF.allocated_segments = s.allocated_segments ∧
    raF.fresh = s.fresh ∧
    raF.freelists.length = M ∧
    (∀ idx, (raF.freelists.getD idx []).Nodup) ∧
    (∀ idx x, x ∈ raF.freelists.getD idx [] →
      x ∈ s.freelists.getD idx [] ∧ x ≠ id) ∧
    ∃ seg, lookupSeg s.segments id = some seg ∧ seg.free = true ∧
      Q ≤ Segment.size seg ∧ usize_log2 (Segment.size seg / Q) < M := by
  obtain ⟨hflen, hflnd, hflmem⟩ := hflok
  unfold fast_find_segment at h
  cases hloop : fast_find_loop s.freelists
      (List.range' (ceil_log2 (max (div_ceil n Q) 1))
        (M - ceil_log2 (max (div_ceil n Q) 1))) with
  | some pr =>
    obtain ⟨id2, fls⟩ := pr
    simp only [hloop] at h
    have h3 := ARes.ok.inj h
    have heq1 : id2 = id := congrArg Prod.fst h3
    have heq2 : ({ s with freelists := fls } : ResourceAllocator) = raF :=
      congrArg Prod.snd h3
    rw [← heq1]
    obtain ⟨k, hkmem, rest, hkval, hfls⟩ := fast_find_loop_char hloop
    have hidk : id2 ∈ s.freelists.getD k [] := by rw [hkval]; simp
    obtain ⟨seg, hseg, hsf, hsq, hslog, hscls⟩ := hflmem k id2 hidk
    have hkM : k < M := by omega
    have hndk := hflnd k
    rw [hkval] at hndk
    have hidrest : id2 ∉ rest := (List.nodup_cons.1 hndk).1
    refine ⟨by rw [← heq2], by rw [← heq2], by rw [← heq2], ?_, ?_, ?_,
      seg, hseg, hsf, hsq, hslog⟩
    · rw [← heq2]
      show fls.length = M
      rw [hfls]
      exact (List.length_set _ _ _).trans hflen
    · intro idx
      rw [← heq2]
      show (fls.getD idx []).Nodup
      rw [hfls, getD_set_eval]
      by_cases hc : idx = k ∧ k < s.freelists.length
      · rw [if_pos hc]
        exact (List.nodup_cons.1 hndk).2
      · rw [if_neg hc]
        exact hflnd idx
    · intro idx x hx
      rw [← heq2] at hx
      replace hx : x ∈ fls.getD idx [] := hx
      rw [hfls, getD_set_eval] at hx
      by_cases hc : idx = k ∧ k < s.freelists.length
      · rw [if_pos hc] at hx
        refine ⟨by rw [hc.1, hkval]; simp [hx], ?_⟩
        intro heq
        exact hidrest (heq ▸ hx)
      · rw [if_neg hc] at hx
        refine ⟨hx, ?_⟩
        intro heq
        obtain ⟨s2, hs1, hs2, hs3, hs4, hs5⟩ := hflmem idx x hx
        rw [heq, hseg] at hs1
        rw [← Option.some.inj hs1] at hs5
        rw [hscls] at hs5
        rw [hflen] at hc
        exact hc ⟨hs5.symm, hkM⟩
  | none =>
    simp only [hloop] at h
    by_cases h1 : usize_log2 (max (div_ceil n Q) 1) <
        ceil_log2 (max (div_ceil n Q) 1)
    · rw [if_pos h1] at h
      by_cases h2 : usize_log2 (max (div_ceil n Q) 1) < M
      · rw [if_pos h2] at h
        cases hfind : (s.freelists.getD (usize_log2 (max (div_ceil n Q) 1))
            []).find? (fun id =>
              match getSeg s id with
              | some s => decide (n ≤ Segment.size s)
              | none => false) with
        | none => rw [hfind] at h; cases h
        | some id2 =>
          simp only [hfind] at h
          have h3 := ARes.ok.inj h
          have heq1 : id2 = id := congrArg Prod.fst h3
          have heq2 : ({ s with freelists := s.freelists.set (usize_log2 (max (div_ceil n Q) 1)) ((s.freelists.getD (usize_log2 (max (div_ceil n Q) 1)) []).filter (fun j => j != id2)) } : ResourceAllocator) = raF :=
            congrArg Prod.snd h3
          rw [← heq1]
          have hidk : id2 ∈ s.freelists.getD
              (usize_log2 (max (div_ceil n Q) 1)) [] :=
            List.mem_of_find?_eq_some hfind
          obtain ⟨seg, hseg, hsf, hsq, hslog, hscls⟩ := hflmem _ id2 hidk
          refine ⟨by rw [← heq2], by rw [← heq2], by rw [← heq2], ?_, ?_, ?_,
            seg, hseg, hsf, hsq, hslog⟩
          · rw [← heq2]
            show (s.freelists.set _ _).length = M
            exact (List.length_set _ _ _).trans hflen
          · intro idx
            rw [← heq2]
            show ((s.freelists.set (usize_log2 (max (div_ceil n Q) 1)) ((s.freelists.getD (usize_log2 (max (div_ceil n Q) 1)) []).filter (fun j => j != id2))).getD idx []).Nodup
            rw [getD_set_eval]
            by_cases hc : idx = usize_log2 (max (div_ceil n Q) 1) ∧
                usize_log2 (max (div_ceil n Q) 1) < s.freelists.length
            · rw [if_pos hc]
              exact (hflnd _).filter _
            · rw [if_neg hc]
              exact hflnd idx
          · intro idx x hx
            rw [← heq2] at hx
            replace hx : x ∈ (s.freelists.set (usize_log2 (max (div_ceil n Q) 1)) ((s.freelists.getD (usize_log2 (max (div_ceil n Q) 1)) []).filter (fun j => j != id2))).getD idx [] := hx
            rw [getD_set_eval] at hx
            by_cases hc : idx = usize_log2 (max (div_ceil n Q) 1) ∧
                usize_log2 (max (div_ceil n Q) 1) < s.freelists.length
            · rw [if_pos hc] at hx
              refine ⟨hc.1 ▸ List.mem_of_mem_filter hx, ?_⟩
              have := List.of_mem_filter hx
              simpa using this
            · rw [if_neg hc] at hx
              refine ⟨hx, ?_⟩
              intro heq
              obtain ⟨s2, hs1, hs2, hs3, hs4, hs5⟩ := hflmem idx x hx
              rw [heq, hseg] at hs1
              rw [← Option.some.inj hs1] at hs5
              have hkM : usize_log2 (Segment.size seg / Q) < M := hslog
              rw [hflen] at hc
              have hscls2 := hscls
              rw [show min (usize_log2 (Segment.size seg / Q)) M =
                usize_log2 (Segment.size seg / Q) from by omega] at hs5 hscls2
              exact hc ⟨by omega, by omega⟩
      · rw [if_neg h2] at h; cases h
    · rw [if_neg h1] at h; cases h

/-- Characterize a successful `try_split_segment` on a decomposed segment
list. -/
theorem try_split_char {Q M : Nat} {ra ra3 : ResourceAllocator}
    {id alloc_size : Nat} {segA : Segment} {L R : List (Nat × Segment)}
    (hdec : ra.segments = L ++ (id, segA) :: R)
    (hidL : id ∉ keysS L) (hidR : id ∉ keysS R)
    (hfresh : ∀ x ∈ keysS ra.segments, x < ra.fresh)
    (h : try_split_segment Q M ra id alloc_size = some ra3) :
    alloc_size ≤ Segment.size segA ∧
    ((Segment.size segA - alloc_size < Q ∧ ra3 = ra) ∨
     (Q ≤ Segment.size segA - alloc_size ∧
      usize_log2 ((Segment.size segA - alloc_size) / Q) < M ∧
      ra3.segments = L ++ (id, ({ start := segA.start, stop := segA.start + alloc_size, free := segA.free } : Segment)) :: (ra.fresh, ({ start := segA.start + alloc_size, stop := segA.stop, free := true } : Segment)) :: R ∧
      ra3.freelists = ra.freelists.set (usize_log2 ((Segment.size segA - alloc_size) / Q)) (ra.fresh :: ra.freelists.getD (usize_log2 ((Segment.size segA - alloc_size) / Q)) []) ∧
      ra3.allocated_segments = ra.allocated_segments ∧
      ra3.fresh = ra.fresh + 1)) := by
  have hget : getSeg ra id = some segA := by
    rw [getSeg_eq, hdec]
    exact lookupSeg_decomp_eq L R id segA hidL
  unfold try_split_segment at h
  simp only [hget] at h
  by_cases hlt : Segment.size segA < alloc_size
  · rw [if_pos hlt] at h; cases h
  · rw [if_neg hlt] at h
    refine ⟨by omega, ?_⟩
    by_cases hlo : Q ≤ Segment.size segA - alloc_size
    · rw [if_pos hlo] at h
      have hfreshid : ¬ ra.fresh = id := by
        intro hc
        have := hfresh ra.fresh (by
          rw [hdec, keysS_append, keysS_cons, hc]
          simp)
        omega
      have hfreshL : ra.fresh ∉ keysS L := by
        intro hc
        have := hfresh ra.fresh (by
          rw [hdec, keysS_append]
          exact List.mem_append.2 (Or.inl hc))
        omega
      have hfreshR : ra.fresh ∉ keysS R := by
        intro hc
        have := hfresh ra.fresh (by
          rw [hdec, keysS_append, keysS_cons]
          simp [hc])
        omega
      have hseg1 : insertAfterList (setSeg ra.segments id
          (fun s => { s with stop := segA.start + alloc_size })) id
          (ra.fresh, ({ start := segA.start + alloc_size, stop := segA.stop, free := false } : Segment)) =
          L ++ (id, ({ start := segA.start, stop := segA.start + alloc_size, free := segA.free } : Segment)) :: (ra.fresh, ({ start := segA.start + alloc_size, stop := segA.stop, free := false } : Segment)) :: R := by
        rw [hdec, setSeg_decomp L R id segA _ hidL hidR]
        exact insertAfterList_decomp L R id _ _ hidL
      rw [hseg1] at h
      obtain ⟨segN, hsegN, hq, hlog, hra3⟩ := freelist_insert_char h
      have hlookN : lookupSeg (L ++ (id, ({ start := segA.start, stop := segA.start + alloc_size, free := segA.free } : Segment)) :: (ra.fresh, ({ start := segA.start + alloc_size, stop := segA.stop, free := false } : Segment)) :: R) ra.fresh = some ({ start := segA.start + alloc_size, stop := segA.stop, free := false } : Segment) := by
        rw [lookupSeg_middle_ne L _ id ra.fresh _ hfreshid]
        exact lookupSeg_decomp_eq L R ra.fresh _ hfreshL
      rw [show getSeg { ra with segments := L ++ (id, ({ start := segA.start, stop := segA.start + alloc_size, free := segA.free } : Segment)) :: (ra.fresh, ({ start := segA.start + alloc_size, stop := segA.stop, free := false } : Segment)) :: R, fresh := ra.fresh + 1 } ra.fresh = lookupSeg (L ++ (id, ({ start := segA.start, stop := segA.start + alloc_size, free := segA.free } : Segment)) :: (ra.fresh, ({ start := segA.start + alloc_size, stop := segA.stop, free := false } : Segment)) :: R) ra.fresh from rfl, hlookN] at hsegN
      obtain rfl : ({ start := segA.start + alloc_size, stop := segA.stop, free := false } : Segment) = segN := Option.some.inj hsegN
      have hszN : Segment.size ({ start := segA.start + alloc_size, stop := segA.stop, free := false } : Segment) = Segment.size segA - alloc_size := by
        show segA.stop - (segA.start + alloc_size) = segA.stop - segA.start - alloc_size
        omega
      rw [hszN] at hlog
      refine Or.inr ⟨hlo, hlog, ?_, ?_, ?_, ?_⟩
      · have h3s : ra3.segments = setSeg (L ++ (id, ({ start := segA.start, stop := segA.start + alloc_size, free := segA.free } : Segment)) :: (ra.fresh, ({ start := segA.start + alloc_size, stop := segA.stop, free := false } : Segment)) :: R) ra.fresh (fun s => { start := s.start, stop := s.stop, free := true }) := by rw [hra3]
        rw [h3s]
        have hnm : ra.fresh ∉ keysS (L ++ [(id, ({ start := segA.start, stop := segA.start + alloc_size, free := segA.free } : Segment))]) := by
          rw [keysS_append]
          intro hc
          rcases List.mem_append.1 hc with hc | hc
          · exact hfreshL hc
          · simp only [keysS, List.map_cons, List.map_nil,
              List.mem_singleton] at hc
            exact hfreshid hc
        rw [show L ++ (id, ({ start := segA.start, stop := segA.start + alloc_size, free := segA.free } : Segment)) :: (ra.fresh, ({ start := segA.start + alloc_size, stop := segA.stop, free := false } : Segment)) :: R = (L ++ [(id, ({ start := segA.start, stop := segA.start + alloc_size, free := segA.free } : Segment))]) ++ (ra.fresh, ({ start := segA.start + alloc_size, stop := segA.stop, free := false } : Segment)) :: R from by simp]
        rw [setSeg_decomp _ R ra.fresh _ _ hnm hfreshR]
        simp
      · have h3f : ra3.freelists = ra.freelists.set (usize_log2 (Segment.size ({ start := segA.start + alloc_size, stop := segA.stop, free := false } : Segment) / Q)) (ra.fresh :: ra.freelists.getD (usize_log2 (Segment.size ({ start := segA.start + alloc_size, stop := segA.stop, free := false } : Segment) / Q)) []) := by rw [hra3]
        rw [h3f, hszN]
      · rw [hra3]
      · rw [hra3]
    · rw [if_neg hlo] at h
      exact Or.inl ⟨by omega, (Option.some.inj h).symm⟩

/-- Characterize a successful `fast_allocate` from an invariant state: the
chosen segment was free, and the final state either hands the whole segment
out, or splits it with a fresh free remainder segment. -/
theorem fast_allocate_ok_char {Q M : Nat} {s s' : ResourceAllocator}
    {n : Nat} {rg : Nat × Nat} (hQ : 1 ≤ Q) (hinv : INV Q M s)
    (h : fast_allocate Q M s n = ARes.ok (rg, s')) :
    ∃ L R id seg,
      s.segments = L ++ (id, seg) :: R ∧ id ∉ keysS L ∧ id ∉ keysS R ∧
      seg.free = true ∧ Q ≤ Segment.size seg ∧
      usize_log2 (Segment.size seg / Q) < M ∧
      rg.1 = seg.start ∧
      s'.allocated_segments = insertAssoc s.allocated_segments seg.start id ∧
      s'.freelists.length = M ∧
      (∀ idx, (s'.freelists.getD idx []).Nodup) ∧
      ((rg.2 = seg.stop ∧
        s'.segments = L ++ (id, ({ start := seg.start, stop := seg.stop, free := false } : Segment)) :: R ∧
        s'.fresh = s.fresh ∧
        (∀ idx x, x ∈ s'.freelists.getD idx [] →
          x ∈ s.freelists.getD idx [] ∧ x ≠ id)) ∨
       (seg.start < rg.2 ∧ Q ≤ rg.2 - seg.start ∧ Q ≤ seg.stop - rg.2 ∧
        usize_log2 ((seg.stop - rg.2) / Q) < M ∧
        s'.segments = L ++ (id, ({ start := seg.start, stop := rg.2, free := false } : Segment)) :: (s.fresh, ({ start := rg.2, stop := seg.stop, free := true } : Segment)) :: R ∧
        s'.fresh = s.fresh + 1 ∧
        (∀ idx x, x ∈ s'.freelists.getD idx [] →
          (x = s.fresh ∧ idx = usize_log2 ((seg.stop - rg.2) / Q)) ∨
          (x ∈ s.freelists.getD idx [] ∧ x ≠ id ∧ x ≠ s.fresh)))) := by
  unfold fast_allocate at h
  cases hffs : fast_find_segment Q M s n with
  | panic => rw [hffs] at h; cases h
  | exhausted => rw [hffs] at h; cases h
  | ok pr =>
  obtain ⟨id, raF⟩ := pr
  simp only [hffs] at h
  obtain ⟨hFs, hFt, hFf, hFlen, hFnd, hFmem, seg, hseg, hsegf, hsegq,
    hseglog⟩ := fast_find_ok_char hinv.flok hffs
  obtain ⟨L, R, hdecS, hL⟩ := lookupSeg_decomp hseg
  have hkeys : keysS s.segments = keysS L ++ id :: keysS R := by
    rw [hdecS, keysS_append, keysS_cons]
  have hnd0 : (keysS L ++ id :: keysS R).Nodup := hkeys ▸ hinv.nodup
  have hR : id ∉ keysS R :=
    (List.nodup_cons.1 (List.nodup_append.1 hnd0).2.1).1
  have hfkeys : ∀ x ∈ keysS s.segments, x < s.fresh := fun x hx =>
    fresh_of_mem hinv.fresh_bound hx
  have hflmemfresh : ∀ idx x, x ∈ s.freelists.getD idx [] → x < s.fresh := by
    intro idx x hx
    obtain ⟨sx, hsx, -⟩ := hinv.flok.2.2 idx x hx
    exact hfkeys x (mem_keysS_of_lookupSeg hsx)
  -- the marked state fed to try_split
  have hmark : (setSeg raF.segments id (fun sg => { sg with free := false })) =
      L ++ (id, ({ start := seg.start, stop := seg.stop, free := false } : Segment)) :: R := by
    rw [hFs, hdecS, setSeg_decomp L R id seg _ hL hR]
  cases hts : try_split_segment Q M { raF with segments := setSeg raF.segments id (fun sg => { sg with free := false }) } id (max (div_ceil n Q) 1 * Q) with
  | none => rw [hts] at h; cases h
  | some ra3 =>
  simp only [hts] at h
  have hchar := try_split_char
    (show ({ raF with segments := setSeg raF.segments id (fun sg => { sg with free := false }) } : ResourceAllocator).segments = L ++ (id, ({ start := seg.start, stop := seg.stop, free := false } : Segment)) :: R from hmark)
    hL hR
    (by
      intro x hx
      replace hx : x ∈ keysS (setSeg raF.segments id
        (fun sg => { sg with free := false })) := hx
      rw [keysS_setSeg, hFs] at hx
      show x < raF.fresh
      rw [hFf]
      exact hfkeys x hx)
    hts
  obtain ⟨halloc, hsplit⟩ := hchar
  have hsegsz : Segment.size ({ start := seg.start, stop := seg.stop, free := false } : Segment) = Segment.size seg := rfl
  rcases hsplit with ⟨hleft, rfl⟩ | ⟨hleft, hlog2, h3s, h3f, h3t, h3fr⟩
  · -- no split
    have hgs : getSeg { raF with segments := setSeg raF.segments id (fun sg => { sg with free := false }) } id = some ({ start := seg.start, stop := seg.stop, free := false } : Segment) := by
      show lookupSeg _ id = _
      rw [hmark]
      exact lookupSeg_decomp_eq L R id _ hL
    simp only [hgs] at h
    have h4 := ARes.ok.inj h
    have hrg : ((seg.start, seg.stop) : Nat × Nat) = rg := congrArg Prod.fst h4
    have hs' : ({ raF with segments := setSeg raF.segments id (fun sg => { sg with free := false }), allocated_segments := insertAssoc raF.allocated_segments seg.start id } : ResourceAllocator) = s' :=
      congrArg Prod.snd h4
    refine ⟨L, R, id, seg, hdecS, hL, hR, hsegf, hsegq, hseglog, ?_, ?_, ?_,
      ?_, Or.inl ⟨?_, ?_, ?_, ?_⟩⟩
    · rw [← hrg]
    · rw [← hs']
      show insertAssoc raF.allocated_segments seg.start id = _
      rw [hFt]
    · rw [← hs']
      exact hFlen
    · intro idx
      rw [← hs']
      exact hFnd idx
    · rw [← hrg]
    · rw [← hs']
      exact hmark
    · rw [← hs']
      exact hFf
    · intro idx x hx
      rw [← hs'] at hx
      exact hFmem idx x hx
  · -- split
    have hra3fr : ra3.fresh = s.fresh + 1 := by
      rw [h3fr]
      show raF.fresh + 1 = _
      rw [hFf]
    have hgs : getSeg ra3 id =
        some ({ start := seg.start, stop := seg.start + max (div_ceil n Q) 1 * Q, free := false } : Segment) := by
      rw [getSeg_eq, h3s]
      exact lookupSeg_decomp_eq L _ id _ hL
    simp only [hgs] at h
    have h4 := ARes.ok.inj h
    have hrg : ((seg.start, seg.start + max (div_ceil n Q) 1 * Q) : Nat × Nat) = rg :=
      congrArg Prod.fst h4
    have hs' : ({ ra3 with allocated_segments := insertAssoc ra3.allocated_segments seg.start id } : ResourceAllocator) = s' :=
      congrArg Prod.snd h4
    have h3f2 : ra3.freelists = raF.freelists.set (usize_log2 ((Segment.size ({ start := seg.start, stop := seg.stop, free := false } : Segment) - max (div_ceil n Q) 1 * Q) / Q)) (raF.fresh :: raF.freelists.getD (usize_log2 ((Segment.size ({ start := seg.start, stop := seg.stop, free := false } : Segment) - max (div_ceil n Q) 1 * Q) / Q)) []) := h3f
    have hrg2 : rg.2 = seg.start + max (div_ceil n Q) 1 * Q := by
      rw [← hrg]
    have hQalloc : Q ≤ max (div_ceil n Q) 1 * Q := by
      have h5 : 1 ≤ max (div_ceil n Q) 1 := le_max_right _ _
      calc Q = 1 * Q := (one_mul Q).symm
        _ ≤ max (div_ceil n Q) 1 * Q := Nat.mul_le_mul_right Q h5
    have hsz2 : Segment.size seg = seg.stop - seg.start := rfl
    have hleft2 : seg.stop - rg.2 = Segment.size ({ start := seg.start, stop := seg.stop, free := false } : Segment) - max (div_ceil n Q) 1 * Q := by
      rw [hsegsz, hrg2, hsz2]
      omega
    refine ⟨L, R, id, seg, hdecS, hL, hR, hsegf, hsegq, hseglog, ?_, ?_, ?_,
      ?_, Or.inr ⟨?_, ?_, ?_, ?_, ?_, ?_, ?_⟩⟩
    · rw [← hrg]
    · rw [← hs']
      show insertAssoc ra3.allocated_segments seg.start id = _
      rw [h3t]
      show insertAssoc raF.allocated_segments seg.start id = _
      rw [hFt]
    · rw [← hs']
      show ra3.freelists.length = M
      rw [h3f2, List.length_set]
      exact hFlen
    · intro idx
      rw [← hs']
      show (ra3.freelists.getD idx []).Nodup
      rw [h3f2, getD_set_eval]
      by_cases hc : idx = usize_log2 ((Segment.size ({ start := seg.start, stop := seg.stop, free := false } : Segment) - max (div_ceil n Q) 1 * Q) / Q) ∧
          usize_log2 ((Segment.size ({ start := seg.start, stop := seg.stop, free := false } : Segment) - max (div_ceil n Q) 1 * Q) / Q) < raF.freelists.length
      · rw [if_pos hc]
        refine List.nodup_cons.2 ⟨?_, hFnd _⟩
        intro hc2
        have h5 := hflmemfresh _ _ (hFmem _ _ hc2).1
        rw [show raF.fresh = s.fresh from hFf] at h5
        omega
      · rw [if_neg hc]
        exact hFnd idx
    · rw [hrg2]
      omega
    · rw [hrg2]
      omega
    · rw [hrg2, hsz2] at *
      omega
    · rw [hleft2]
      exact hlog2
    · rw [← hs']
      show ra3.segments = _
      rw [h3s, hrg2]
      rw [show ({ raF with segments := setSeg raF.segments id (fun sg => { sg with free := false }) } : ResourceAllocator).fresh = s.fresh from hFf]
    · rw [← hs']
      show ra3.fresh = _
      rw [hra3fr]
    · intro idx x hx
      rw [← hs'] at hx
      replace hx : x ∈ ra3.freelists.getD idx [] := hx
      rw [h3f2, getD_set_eval] at hx
      rw [hleft2]
      by_cases hc : idx = usize_log2 ((Segment.size ({ start := seg.start, stop := seg.stop, free := false } : Segment) - max (div_ceil n Q) 1 * Q) / Q) ∧
          usize_log2 ((Segment.size ({ start := seg.start, stop := seg.stop, free := false } : Segment) - max (div_ceil n Q) 1 * Q) / Q) < raF.freelists.length
      · rw [if_pos hc] at hx
        rcases List.mem_cons.1 hx with rfl | hx2
        · exact Or.inl ⟨by
            show raF.fresh = s.fresh
            exact hFf, hc.1⟩
        · have hx3 : x ∈ raF.freelists.getD idx [] := by rw [hc.1]; exact hx2
          obtain ⟨hm1, hm2⟩ := hFmem idx x hx3
          refine Or.inr ⟨hm1, hm2, ?_⟩
          intro heq
          have h5 := hflmemfresh idx x hm1
          omega
      · rw [if_neg hc] at hx
        obtain ⟨hm1, hm2⟩ := hFmem idx x hx
        refine Or.inr ⟨hm1, hm2, ?_⟩
        intro heq
        have h5 := hflmemfresh idx x hm1
        omega

/-- Entries of an `insertAssoc`. -/
theorem mem_insertAssoc {m : List (Nat × Nat)} {k v : Nat} {p : Nat × Nat}
    (h : p ∈ insertAssoc m k v) : p = (k, v) ∨ p ∈ m := by
  rcases List.mem_cons.1 h with h | h
  · exact Or.inl h
  · exact Or.inr (mem_removeAssoc h).1

/-- `fast_allocate` preserves the invariant. -/
theorem INV_alloc {Q M : Nat} {s s' : ResourceAllocator} {n : Nat}
    {rg : Nat × Nat} (hQ : 1 ≤ Q) (hinv : INV Q M s)
    (h : fast_allocate Q M s n = ARes.ok (rg, s')) : INV Q M s' := by
  obtain ⟨L, R, id, seg, hdec, hL, hR, hfree, hsq, hslog, hrg1, ht, hflen2,
    hfnd2, hcases⟩ := fast_allocate_ok_char hQ hinv h
  have hkeys : keysS s.segments = keysS L ++ id :: keysS R := by
    rw [hdec, keysS_append, keysS_cons]
  have hnd0 : (keysS L ++ id :: keysS R).Nodup := hkeys ▸ hinv.nodup
  obtain ⟨hordL, hordR, hordLm, hordmR⟩ :=
    chain'_decomp_mid (hdec ▸ hinv.ordered)
  obtain ⟨hnofL, hnofR, hnofLm, hnofmR⟩ :=
    chain'_decomp_mid (hdec ▸ hinv.no_adj_free)
  have hLsub : ∀ p ∈ L, p ∈ s.segments := by
    intro p hp
    rw [hdec]
    simp [hp]
  have hRsub : ∀ p ∈ R, p ∈ s.segments := by
    intro p hp
    rw [hdec]
    simp [hp]
  have hlook0 : lookupSeg s.segments id = some seg := by
    rw [hdec]
    exact lookupSeg_decomp_eq L R id seg hL
  have hfkeys : ∀ x ∈ keysS s.segments, x < s.fresh := fun x hx =>
    fresh_of_mem hinv.fresh_bound hx
  have hidfresh : id < s.fresh := hfkeys id (mem_keysS_of_lookupSeg hlook0)
  have hfreshL : s.fresh ∉ keysS L := by
    intro hc
    have := hfkeys s.fresh (by rw [hkeys]; exact List.mem_append.2 (Or.inl hc))
    omega
  have hfreshR : s.fresh ∉ keysS R := by
    intro hc
    have := hfkeys s.fresh (by rw [hkeys]; simp [hc])
    omega
  have hidnb : ∀ p ∈ s.allocated_segments, p.2 ≠ id := by
    intro p hp heq
    obtain ⟨sx, hsx, hfx⟩ := hinv.alloc_table p hp
    rw [heq, show getSeg s id = lookupSeg s.segments id from rfl, hlook0] at hsx
    rw [← Option.some.inj hsx, hfree] at hfx
    cases hfx
  have hfreshnb : ∀ p ∈ s.allocated_segments, p.2 ≠ s.fresh := by
    intro p hp heq
    obtain ⟨sx, hsx, -⟩ := hinv.alloc_table p hp
    have := hfkeys p.2 (mem_keysS_of_lookupSeg
      (show lookupSeg s.segments p.2 = some sx from hsx))
    omega
  have hvals : (s'.allocated_segments.map Prod.snd).Nodup := by
    rw [ht]
    show (id :: (removeAssoc s.allocated_segments seg.start).map
      Prod.snd).Nodup
    refine List.nodup_cons.2 ⟨?_, ?_⟩
    · intro hc
      obtain ⟨p, hp, hp2⟩ := List.mem_map.1 hc
      exact hidnb p (mem_removeAssoc hp).1 hp2
    · exact hinv.table_vals_nodup.sublist
        (List.Sublist.map _ (removeAssoc_sublist _ _))
  rcases hcases with ⟨hrg2, hsegs, hfresh2, hmem2⟩ |
      ⟨hlt1, hq1, hq2, hlog2, hsegs, hfresh2, hmem2⟩
  · -- whole-segment case
    refine ⟨?_, ?_, ?_, ?_, ?_, ⟨hflen2, hfnd2, ?_⟩, ?_, hvals⟩
    · rw [hsegs, keysS_append, keysS_cons]
      exact hnd0
    · intro p hp
      rw [hsegs] at hp
      rw [hfresh2]
      rcases List.mem_append.1 hp with hp | hp
      · exact hinv.fresh_bound p (hLsub p hp)
      · rcases List.mem_cons.1 hp with rfl | hp
        · exact hidfresh
        · exact hinv.fresh_bound p (hRsub p hp)
    · intro p hp
      rw [hsegs] at hp
      rcases List.mem_append.1 hp with hp | hp
      · exact hinv.sizes p (hLsub p hp)
      · rcases List.mem_cons.1 hp with rfl | hp
        · exact hsq
        · exact hinv.sizes p (hRsub p hp)
    · rw [hsegs]
      exact chain'_build_mid hordL hordR (fun x hx => hordLm x hx)
        (fun y hy => hordmR y hy)
    · rw [hsegs]
      refine chain'_build_mid hnofL hnofR (fun x hx hf1 hf2 => ?_)
        (fun y hy hf1 => ?_)
      · cases hf2
      · cases hf1
    · intro idx x hx
      have hx2 : x ∈ s'.freelists.getD idx [] := hx
      obtain ⟨hm1, hm2⟩ := hmem2 idx x hx2
      obtain ⟨sx, hs1, hrest⟩ := hinv.flok.2.2 idx x hm1
      refine ⟨sx, ?_, hrest⟩
      have hs1b : lookupSeg s.segments x = some sx := hs1
      rw [hsegs, lookupSeg_middle_ne L R id x _ hm2, ← hs1b, hdec,
        lookupSeg_middle_ne L R id x seg hm2]
    · intro p hp
      rw [ht] at hp
      rcases mem_insertAssoc hp with rfl | hp
      · refine ⟨({ start := seg.start, stop := seg.stop, free := false } : Segment), ?_, rfl⟩
        rw [getSeg_eq, hsegs]
        exact lookupSeg_decomp_eq L R id _ hL
      · obtain ⟨sx, hs1, hfx⟩ := hinv.alloc_table p hp
        have hne : ¬ p.2 = id := hidnb p hp
        refine ⟨sx, ?_, hfx⟩
        have hs1b : lookupSeg s.segments p.2 = some sx := hs1
        rw [getSeg_eq, hsegs, lookupSeg_middle_ne L R id p.2 _ hne, ← hs1b,
          hdec, lookupSeg_middle_ne L R id p.2 seg hne]
  · -- split case
    have hfrid : ¬ s.fresh = id := by omega
    have hlks : lookupSeg s'.segments s.fresh =
        some ({ start := rg.2, stop := seg.stop, free := true } : Segment) := by
      rw [hsegs, lookupSeg_middle_ne L _ id s.fresh _ hfrid]
      exact lookupSeg_decomp_eq L R s.fresh _ hfreshL
    have hstab : ∀ x : Nat, ¬ x = id → ¬ x = s.fresh →
        lookupSeg s'.segments x = lookupSeg s.segments x := by
      intro x hx1 hx2
      rw [hsegs, lookupSeg_middle_ne L _ id x _ hx1,
        lookupSeg_middle_ne L R s.fresh x _ hx2, hdec,
        lookupSeg_middle_ne L R id x seg hx1]
    refine ⟨?_, ?_, ?_, ?_, ?_, ⟨hflen2, hfnd2, ?_⟩, ?_, hvals⟩
    · rw [hsegs, keysS_append, keysS_cons, keysS_cons]
      refine List.nodup_append.2 ⟨(List.nodup_append.1 hnd0).1, ?_, ?_⟩
      · refine List.nodup_cons.2 ⟨?_, List.nodup_cons.2 ⟨hfreshR, ?_⟩⟩
        · intro hc
          rcases List.mem_cons.1 hc with hc | hc
          · omega
          · exact (List.nodup_cons.1 (List.nodup_append.1 hnd0).2.1).1 hc
        · exact (List.nodup_cons.1 (List.nodup_append.1 hnd0).2.1).2
      · intro x hxl hxr
        rcases List.mem_cons.1 hxr with rfl | hxr
        · exact (List.disjoint_of_nodup_append hnd0) hxl (by simp)
        · rcases List.mem_cons.1 hxr with rfl | hxr
          · exact hfreshL hxl
          · exact (List.disjoint_of_nodup_append hnd0) hxl (by simp [hxr])
    · intro p hp
      rw [hsegs] at hp
      rw [hfresh2]
      rcases List.mem_append.1 hp with hp | hp
      · have := hinv.fresh_bound p (hLsub p hp)
        omega
      · rcases List.mem_cons.1 hp with rfl | hp
        · omega
        · rcases List.mem_cons.1 hp with rfl | hp
          · omega
          · have := hinv.fresh_bound p (hRsub p hp)
            omega
    · intro p hp
      rw [hsegs] at hp
      rcases List.mem_append.1 hp with hp | hp
      · exact hinv.sizes p (hLsub p hp)
      · rcases List.mem_cons.1 hp with rfl | hp
        · show Q ≤ rg.2 - seg.start
          exact hq1
        · rcases List.mem_cons.1 hp with rfl | hp
          · show Q ≤ seg.stop - rg.2
            exact hq2
          · exact hinv.sizes p (hRsub p hp)
    · rw [hsegs]
      refine chain'_build_mid hordL ?_ (fun x hx => hordLm x hx)
        (fun y hy => ?_)
      · refine List.chain'_cons'.2 ⟨fun y hy => ?_, hordR⟩
        show seg.stop ≤ y.2.start
        exact hordmR y hy
      · obtain rfl : y = (s.fresh, ({ start := rg.2, stop := seg.stop, free := true } : Segment)) :=
          (Option.some.inj hy).symm
        show rg.2 ≤ rg.2
        exact le_refl _
    · rw [hsegs]
      refine chain'_build_mid hnofL ?_ (fun x hx hf1 hf2 => ?_)
        (fun y hy hf1 => ?_)
      · refine List.chain'_cons'.2 ⟨fun y hy hf1 hf2 => ?_, hnofR⟩
        show seg.stop ≠ y.2.start
        exact hnofmR y hy hfree hf2
      · cases hf2
      · cases hf1
    · intro idx x hx
      have hx2 : x ∈ s'.freelists.getD idx [] := hx
      rcases hmem2 idx x hx2 with ⟨rfl, hidx⟩ | ⟨hm1, hm2, hm3⟩
      · refine ⟨({ start := rg.2, stop := seg.stop, free := true } : Segment),
          hlks, rfl, ?_, ?_, ?_⟩
        · show Q ≤ seg.stop - rg.2
          exact hq2
        · exact hlog2
        · rw [hidx]
          show min (usize_log2 ((seg.stop - rg.2) / Q)) M = _
          omega
      · obtain ⟨sx, hs1, hrest⟩ := hinv.flok.2.2 idx x hm1
        exact ⟨sx, by rw [hstab x hm2 hm3]; exact hs1, hrest⟩
    · intro p hp
      rw [ht] at hp
      rcases mem_insertAssoc hp with rfl | hp
      · refine ⟨({ start := seg.start, stop := rg.2, free := false } : Segment), ?_, rfl⟩
        rw [getSeg_eq, hsegs]
        exact lookupSeg_decomp_eq L _ id _ hL
      · obtain ⟨sx, hs1, hfx⟩ := hinv.alloc_table p hp
        refine ⟨sx, ?_, hfx⟩
        rw [getSeg_eq, hstab p.2 (hidnb p hp) (hfreshnb p hp)]
        exact hs1

/-- Every reachable allocator state satisfies the invariant. -/
theorem INV_of_Reach {Q M : Nat} {s : ResourceAllocator} (hQ : 1 ≤ Q)
    (h : Reach Q M s) : INV Q M s := by
  induction h with
  | new => exact INV_new Q M
  | add hr hle hsep hadd ih => exact INV_add hQ ih hle hsep hadd
  | alloc hr hall ih => exact INV_alloc hQ ih hall
  | release hr hrel ih => exact INV_release hQ ih hrel

/-- Evaluate a `coalesce_prev` that performs no merge. -/
theorem coalesce_prev_eval_nomerge {Q M : Nat} {ra : ResourceAllocator}
    {id0 : Nat} {seg0 : Segment} {L R : List (Nat × Segment)}
    (hdec : ra.segments = L ++ (id0, seg0) :: R) (hidL : id0 ∉ keysS L)
    (hcond : ∀ pp : Nat × Segment, L.getLast? = some pp →
      (seg0.can_join pp.2 && !pp.2.is_allocated) = false) :
    coalesce_prev Q M ra id0 seg0 = some (ra, id0) := by
  unfold coalesce_prev
  have hpv : prevOf ra.segments id0 = L.getLast? := by
    rw [hdec]
    exact prevOf_decomp L R id0 seg0 hidL
  cases hlast : L.getLast? with
  | none =>
    rw [hpv, hlast]
  | some pp =>
    obtain ⟨pid, pseg⟩ := pp
    rw [hpv]
    simp only [hlast]
    rw [if_neg (by
      rw [hcond (pid, pseg) hlast]
      exact Bool.false_ne_true)]

/-- Evaluate a `coalesce_next` that performs no merge. -/
theorem coalesce_next_eval_nomerge {Q M : Nat} {ra : ResourceAllocator}
    {idm : Nat} {segm : Segment} {L R : List (Nat × Segment)}
    (hdec : ra.segments = L ++ (idm, segm) :: R) (hidL : idm ∉ keysS L)
    (hcond : ∀ np : Nat × Segment, R.head? = some np →
      (segm.can_join np.2 && !np.2.is_allocated) = false) :
    coalesce_next Q M ra idm segm = some ra := by
  unfold coalesce_next
  have hnx : nextOf ra.segments idm = R.head? := by
    rw [hdec]
    exact nextOf_decomp L R idm segm hidL
  cases hhd : R.head? with
  | none =>
    rw [hnx, hhd]
  | some np =>
    obtain ⟨nid, nseg⟩ := np
    rw [hnx]
    simp only [hhd]
    rw [if_neg (by
      rw [hcond (nid, nseg) hhd]
      exact Bool.false_ne_true)]

/-- Evaluate a `coalesce_next` that merges the next segment. -/
theorem coalesce_next_eval_merge {Q M : Nat} {ra : ResourceAllocator}
    {idm nid : Nat} {segm nseg : Segment} {L R2 : List (Nat × Segment)}
    (hQ : 1 ≤ Q)
    (hdec : ra.segments = L ++ (idm, segm) :: (nid, nseg) :: R2)
    (hidL : idm ∉ keysS L) (hnidL : nid ∉ keysS L) (hnididm : ¬ nid = idm)
    (hnidR2 : nid ∉ keysS R2)
    (hidmR : idm ∉ keysS ((nid, nseg) :: R2))
    (hcond : (segm.can_join nseg && !nseg.is_allocated) = true)
    (hnfree : nseg.free = true)
    (hnsz : Q ≤ Segment.size nseg)
    (hnlog : usize_log2 (Segment.size nseg / Q) < M) :
    coalesce_next Q M ra idm segm = some { ra with
      segments := L ++ (idm, ({ start := segm.start, stop := nseg.stop, free := segm.free } : Segment)) :: R2
      freelists := ra.freelists.set (usize_log2 (Segment.size nseg / Q))
        ((ra.freelists.getD (usize_log2 (Segment.size nseg / Q)) []).filter
          (fun j => j != nid)) } := by
  unfold coalesce_next
  have hnx : nextOf ra.segments idm = some (nid, nseg) := by
    rw [hdec, nextOf_decomp L _ idm segm hidL]
    rfl
  simp only [hnx]
  rw [if_pos hcond]
  rw [show setSeg ra.segments idm
      (fun s => { s with stop := nseg.stop }) =
      L ++ (idm, ({ start := segm.start, stop := nseg.stop, free := segm.free } : Segment)) :: (nid, nseg) :: R2 from by
    rw [hdec]
    exact setSeg_decomp L _ idm segm _ hidL hidmR]
  have hget : getSeg ({ ra with segments := L ++ (idm, ({ start := segm.start, stop := nseg.stop, free := segm.free } : Segment)) :: (nid, nseg) :: R2 } : ResourceAllocator) nid = some nseg := by
    show lookupSeg _ nid = _
    rw [lookupSeg_middle_ne L _ idm nid _ hnididm]
    exact lookupSeg_decomp_eq L R2 nid nseg hnidL
  rw [freelist_remove_eval_free _ hQ hget hnfree hnsz hnlog]
  show some _ = some _
  refine congrArg some ?_
  have hseg2 : removeSegList (setSeg
      (L ++ (idm, ({ start := segm.start, stop := nseg.stop, free := segm.free } : Segment)) :: (nid, nseg) :: R2) nid
      (fun s => { s with free := false })) nid =
      L ++ (idm, ({ start := segm.start, stop := nseg.stop, free := segm.free } : Segment)) :: R2 := by
    have hnm : nid ∉ keysS (L ++ [(idm, ({ start := segm.start, stop := nseg.stop, free := segm.free } : Segment))]) := by
      rw [keysS_append]
      intro hc
      rcases List.mem_append.1 hc with hc | hc
      · exact hnidL hc
      · simp only [keysS, List.map_cons, List.map_nil,
          List.mem_singleton] at hc
        exact hnididm hc
    rw [show L ++ (idm, ({ start := segm.start, stop := nseg.stop, free := segm.free } : Segment)) :: (nid, nseg) :: R2 = (L ++ [(idm, ({ start := segm.start, stop := nseg.stop, free := segm.free } : Segment))]) ++ (nid, nseg) :: R2 from by simp]
    rw [setSeg_decomp _ R2 nid nseg _ hnm hnidR2]
    rw [removeSegList_decomp _ R2 nid _ hnm hnidR2]
    simp
  rw [show (({ ra with segments := L ++ (idm, ({ start := segm.start, stop := nseg.stop, free := segm.free } : Segment)) :: (nid, nseg) :: R2 } : ResourceAllocator).freelists.set (usize_log2 (Segment.size nseg / Q)) ((({ ra with segments := L ++ (idm, ({ start := segm.start, stop := nseg.stop, free := segm.free } : Segment)) :: (nid, nseg) :: R2 } : ResourceAllocator).freelists.getD (usize_log2 (Segment.size nseg / Q)) []).filter (fun j => j != nid))) = (ra.freelists.set (usize_log2 (Segment.size nseg / Q)) ((ra.freelists.getD (usize_log2 (Segment.size nseg / Q)) []).filter (fun j => j != nid))) from rfl]
  rw [show setSeg (({ ra with segments := L ++ (idm, ({ start := segm.start, stop := nseg.stop, free := segm.free } : Segment)) :: (nid, nseg) :: R2 } : ResourceAllocator).segments) nid (fun s => { s with free := false }) = setSeg (L ++ (idm, ({ start := segm.start, stop := nseg.stop, free := segm.free } : Segment)) :: (nid, nseg) :: R2) nid (fun s => { s with free := false }) from rfl]
  rw [hseg2]

/-- Releasing a range immediately after successfully allocating it restores
the segment list exactly. -/
theorem release_inverse {Q M : Nat} {s s' : ResourceAllocator} {n : Nat}
    {rg : Nat × Nat} (hQ : 1 ≤ Q) (hinv : INV Q M s)
    (h : fast_allocate Q M s n = ARes.ok (rg, s')) :
    ∃ s'', release Q M s' rg = some s'' ∧ s''.segments = s.segments := by
  obtain ⟨L, R, id, seg, hdec, hL, hR, hfree, hsq, hslog, hrg1, ht, hflen2,
    hfnd2, hcases⟩ := fast_allocate_ok_char hQ hinv h
  have hkeys : keysS s.segments = keysS L ++ id :: keysS R := by
    rw [hdec, keysS_append, keysS_cons]
  have hnd0 : (keysS L ++ id :: keysS R).Nodup := hkeys ▸ hinv.nodup
  obtain ⟨hordL, hordR, hordLm, hordmR⟩ :=
    chain'_decomp_mid (hdec ▸ hinv.ordered)
  obtain ⟨hnofL, hnofR, hnofLm, hnofmR⟩ :=
    chain'_decomp_mid (hdec ▸ hinv.no_adj_free)
  have hLsub : ∀ p ∈ L, p ∈ s.segments := by
    intro p hp
    rw [hdec]
    simp [hp]
  have hRsub : ∀ p ∈ R, p ∈ s.segments := by
    intro p hp
    rw [hdec]
    simp [hp]
  have hsegpos : seg.start < seg.stop := by
    have hs : Segment.size seg = seg.stop - seg.start := rfl
    omega
  have hLlastb : ∀ pp : Nat × Segment, L.getLast? = some pp →
      pp.2.stop ≤ seg.start ∧ pp.2.start < pp.2.stop := by
    intro pp hpp
    have h1 := hordLm pp hpp
    have hsz := hinv.sizes pp (hLsub pp (List.mem_of_mem_getLast? hpp))
    have hs : Segment.size pp.2 = pp.2.stop - pp.2.start := rfl
    exact ⟨h1, by omega⟩
  have hRheadb : ∀ np : Nat × Segment, R.head? = some np →
      seg.stop ≤ np.2.start ∧ np.2.start < np.2.stop := by
    intro np hnp
    have h1 := hordmR np hnp
    have hsz := hinv.sizes np (hRsub np (List.mem_of_mem_head? hnp))
    have hs : Segment.size np.2 = np.2.stop - np.2.start := rfl
    exact ⟨h1, by omega⟩
  have hfkeys : ∀ x ∈ keysS s.segments, x < s.fresh := fun x hx =>
    fresh_of_mem hinv.fresh_bound hx
  have hidfresh : id < s.fresh := hfkeys id (by rw [hkeys]; simp)
  have hfreshL : s.fresh ∉ keysS L := by
    intro hc
    have := hfkeys s.fresh (by rw [hkeys]; exact List.mem_append.2 (Or.inl hc))
    omega
  have hfreshR : s.fresh ∉ keysS R := by
    intro hc
    have := hfkeys s.fresh (by rw [hkeys]; simp [hc])
    omega
  have hfrid : ¬ s.fresh = id := by omega
  have hseta : ({ start := seg.start, stop := seg.stop, free := true } : Segment) = seg := by
    obtain ⟨sa, sb, sf⟩ := seg
    have hsf : sf = true := hfree
    subst hsf
    rfl
  rcases hcases with ⟨hrg2, hsegs, hfresh2, hmem2⟩ |
      ⟨hlt1, hq1, hq2, hlog2, hsegs, hfresh2, hmem2⟩
  · -- whole-segment case: no merges fire on release
    have hla : lookupAssoc s'.allocated_segments rg.1 = some id := by
      rw [ht, hrg1]
      exact lookupAssoc_insertAssoc _ _ _
    have hdec4 : ({ s' with allocated_segments := removeAssoc s'.allocated_segments rg.1 } : ResourceAllocator).segments = L ++ (id, ({ start := seg.start, stop := seg.stop, free := false } : Segment)) :: R := hsegs
    have hget4 : getSeg ({ s' with allocated_segments := removeAssoc s'.allocated_segments rg.1 } : ResourceAllocator) id = some ({ start := seg.start, stop := seg.stop, free := false } : Segment) := by
      rw [getSeg_eq, hdec4]
      exact lookupSeg_decomp_eq L R id _ hL
    have hcondP : ∀ pp : Nat × Segment, L.getLast? = some pp →
        (Segment.can_join ({ start := seg.start, stop := seg.stop, free := false } : Segment) pp.2 && !Segment.is_allocated pp.2) = false := by
      intro pp hpp
      by_contra hcc
      have hct : (Segment.can_join ({ start := seg.start, stop := seg.stop, free := false } : Segment) pp.2 && !Segment.is_allocated pp.2) = true := by
        cases hval : (Segment.can_join ({ start := seg.start, stop := seg.stop, free := false } : Segment) pp.2 && !Segment.is_allocated pp.2) with
        | false => exact absurd hval hcc
        | true => rfl
      have h1 := (Bool.and_eq_true_iff.mp hct).1
      have h2 := (Bool.and_eq_true_iff.mp hct).2
      have hpf : pp.2.free = true := by
        simpa [Segment.is_allocated] using h2
      obtain ⟨hb1, hb2⟩ := hLlastb pp hpp
      have hb3 : pp.2.stop ≠ seg.start := hnofLm pp hpp hpf hfree
      simp only [Segment.can_join, Bool.or_eq_true, beq_iff_eq] at h1
      rcases h1 with h1 | h1 <;> omega
    have hcondN : ∀ np : Nat × Segment, R.head? = some np →
        (Segment.can_join ({ start := seg.start, stop := seg.stop, free := false } : Segment) np.2 && !Segment.is_allocated np.2) = false := by
      intro np hnp
      by_contra hcc
      have hct : (Segment.can_join ({ start := seg.start, stop := seg.stop, free := false } : Segment) np.2 && !Segment.is_allocated np.2) = true := by
        cases hval : (Segment.can_join ({ start := seg.start, stop := seg.stop, free := false } : Segment) np.2 && !Segment.is_allocated np.2) with
        | false => exact absurd hval hcc
        | true => rfl
      have h1 := (Bool.and_eq_true_iff.mp hct).1
      have h2 := (Bool.and_eq_true_iff.mp hct).2
      have hpf : np.2.free = true := by
        simpa [Segment.is_allocated] using h2
      obtain ⟨hb1, hb2⟩ := hRheadb np hnp
      have hb3 : seg.stop ≠ np.2.start := hnofmR np hnp hfree hpf
      simp only [Segment.can_join, Bool.or_eq_true, beq_iff_eq] at h1
      rcases h1 with h1 | h1 <;> omega
    have hcp := coalesce_prev_eval_nomerge (Q := Q) (M := M) hdec4 hL hcondP
    have hcn := coalesce_next_eval_nomerge (Q := Q) (M := M) hdec4 hL hcondN
    have hszB : Q ≤ Segment.size ({ start := seg.start, stop := seg.stop, free := false } : Segment) := hsq
    have hlogB : usize_log2 (Segment.size ({ start := seg.start, stop := seg.stop, free := false } : Segment) / Q) < M := hslog
    have hfi := freelist_insert_eval ({ s' with allocated_segments := removeAssoc s'.allocated_segments rg.1 } : ResourceAllocator) hQ hget4 hszB hlogB
    obtain ⟨X, hX⟩ : ∃ X, freelist_insert Q M ({ s' with allocated_segments := removeAssoc s'.allocated_segments rg.1 } : ResourceAllocator) id = some X := ⟨_, hfi⟩
    have hrel : release Q M s' rg = some X := by
      unfold release
      simp only [hla]
      unfold coalesce_and_freelist_insert
      simp only [hget4, hcp, hcn]
      exact hX
    refine ⟨X, hrel, ?_⟩
    have hXeq := Option.some.inj (hfi.symm.trans hX)
    rw [← hXeq]
    show setSeg s'.segments id (fun sg => { sg with free := true }) =
      s.segments
    rw [hsegs, setSeg_decomp L R id _ _ hL hR, hdec]
    exact congrArg (fun z => L ++ (id, z) :: R) (by rw [← hseta])
  · -- split case: the remainder segment is merged back on release
    have hla : lookupAssoc s'.allocated_segments rg.1 = some id := by
      rw [ht, hrg1]
      exact lookupAssoc_insertAssoc _ _ _
    have hdec4 : ({ s' with allocated_segments := removeAssoc s'.allocated_segments rg.1 } : ResourceAllocator).segments = L ++ (id, ({ start := seg.start, stop := rg.2, free := false } : Segment)) :: (s.fresh, ({ start := rg.2, stop := seg.stop, free := true } : Segment)) :: R := hsegs
    have hget4 : getSeg ({ s' with allocated_segments := removeAssoc s'.allocated_segments rg.1 } : ResourceAllocator) id = some ({ start := seg.start, stop := rg.2, free := false } : Segment) := by
      rw [getSeg_eq, hdec4]
      exact lookupSeg_decomp_eq L _ id _ hL
    have hcondP : ∀ pp : Nat × Segment, L.getLast? = some pp →
        (Segment.can_join ({ start := seg.start, stop := rg.2, free := false } : Segment) pp.2 && !Segment.is_allocated pp.2) = false := by
      intro pp hpp
      by_contra hcc
      have hct : (Segment.can_join ({ start := seg.start, stop := rg.2, free := false } : Segment) pp.2 && !Segment.is_allocated pp.2) = true := by
        cases hval : (Segment.can_join ({ start := seg.start, stop := rg.2, free := false } : Segment) pp.2 && !Segment.is_allocated pp.2) with
        | false => exact absurd hval hcc
        | true => rfl
      have h1 := (Bool.and_eq_true_iff.mp hct).1
      have h2 := (Bool.and_eq_true_iff.mp hct).2
      have hpf : pp.2.free = true := by
        simpa [Segment.is_allocated] using h2
      obtain ⟨hb1, hb2⟩ := hLlastb pp hpp
      have hb3 : pp.2.stop ≠ seg.start := hnofLm pp hpp hpf hfree
      simp only [Segment.can_join, Bool.or_eq_true, beq_iff_eq] at h1
      rcases h1 with h1 | h1 <;> omega
    have hcp := coalesce_prev_eval_nomerge (Q := Q) (M := M) hdec4 hL hcondP
    have hcondM : (Segment.can_join ({ start := seg.start, stop := rg.2, free := false } : Segment) ({ start := rg.2, stop := seg.stop, free := true } : Segment) && !Segment.is_allocated ({ start := rg.2, stop := seg.stop, free := true } : Segment)) = true := by
      simp [Segment.can_join, Segment.is_allocated]
    have hidmR2 : id ∉ keysS ((s.fresh, ({ start := rg.2, stop := seg.stop, free := true } : Segment)) :: R) := by
      rw [keysS_cons]
      intro hc
      rcases List.mem_cons.1 hc with hc | hc
      · exact hfrid hc.symm
      · exact hR hc
    have hnszN : Q ≤ Segment.size ({ start := rg.2, stop := seg.stop, free := true } : Segment) := hq2
    have hnlogN : usize_log2 (Segment.size ({ start := rg.2, stop := seg.stop, free := true } : Segment) / Q) < M := hlog2
    have hcn := coalesce_next_eval_merge (Q := Q) (M := M) hQ hdec4 hL
      hfreshL hfrid hfreshR hidmR2 hcondM rfl hnszN hnlogN
    have hdec5 : ({ ({ s' with allocated_segments := removeAssoc s'.allocated_segments rg.1 } : ResourceAllocator) with segments := L ++ (id, ({ start := Segment.start ({ start := seg.start, stop := rg.2, free := false } : Segment), stop := Segment.stop ({ start := rg.2, stop := seg.stop, free := true } : Segment), free := Segment.free ({ start := seg.start, stop := rg.2, free := false } : Segment) } : Segment)) :: R, freelists := ({ s' with allocated_segments := removeAssoc s'.allocated_segments rg.1 } : ResourceAllocator).freelists.set (usize_log2 (Segment.size ({ start := rg.2, stop := seg.stop, free := true } : Segment) / Q)) ((({ s' with allocated_segments := removeAssoc s'.allocated_segments rg.1 } : ResourceAllocator).freelists.getD (usize_log2 (Segment.size ({ start := rg.2, stop := seg.stop, free := true } : Segment) / Q)) []).filter (fun j => j != s.fresh)) } : ResourceAllocator).segments = L ++ (id, ({ start := seg.start, stop := seg.stop, free := false } : Segment)) :: R := rfl
    have hget5 : getSeg ({ ({ s' with allocated_segments := removeAssoc s'.allocated_segments rg.1 } : ResourceAllocator) with segments := L ++ (id, ({ start := Segment.start ({ start := seg.start, stop := rg.2, free := false } : Segment), stop := Segment.stop ({ start := rg.2, stop := seg.stop, free := true } : Segment), free := Segment.free ({ start := seg.start, stop := rg.2, free := false } : Segment) } : Segment)) :: R, freelists := ({ s' with allocated_segments := removeAssoc s'.allocated_segments rg.1 } : ResourceAllocator).freelists.set (usize_log2 (Segment.size ({ start := rg.2, stop := seg.stop, free := true } : Segment) / Q)) ((({ s' with allocated_segments := removeAssoc s'.allocated_segments rg.1 } : ResourceAllocator).freelists.getD (usize_log2 (Segment.size ({ start := rg.2, stop := seg.stop, free := true } : Segment) / Q)) []).filter (fun j => j != s.fresh)) } : ResourceAllocator) id = some ({ start := seg.start, stop := seg.stop, free := false } : Segment) := by
      rw [getSeg_eq, hdec5]
      exact lookupSeg_decomp_eq L R id _ hL
    have hszB : Q ≤ Segment.size ({ start := seg.start, stop := seg.stop, free := false } : Segment) := hsq
    have hlogB : usize_log2 (Segment.size ({ start := seg.start, stop := seg.stop, free := false } : Segment) / Q) < M := hslog
    have hfi := freelist_insert_eval _ hQ hget5 hszB hlogB
    obtain ⟨X, hX⟩ : ∃ X, freelist_insert Q M _ id = some X := ⟨_, hfi⟩
    have hrel : release Q M s' rg = some X := by
      unfold release
      simp only [hla]
      unfold coalesce_and_freelist_insert
      simp only [hget4, hcp, hcn]
      exact hX
    refine ⟨X, hrel, ?_⟩
    have hXeq := Option.some.inj (hfi.symm.trans hX)
    rw [← hXeq]
    show setSeg (L ++ (id, ({ start := seg.start, stop := seg.stop, free := false } : Segment)) :: R) id (fun sg => { sg with free := true }) = s.segments
    rw [setSeg_decomp L R id _ _ hL hR, hdec]
    exact congrArg (fun z => L ++ (id, z) :: R) (by rw [← hseta])

end ResourceAllocator

section C2

open ResourceAllocator

/-- C2 (confirmed, for a positive quantum `Q`): for every resource
allocator state reachable by `add` / `fast_allocate` / `release`
sequences, and every size `n` for which `fast_allocate` succeeds,
immediately releasing the returned range yields a state whose segment
list carries exactly the same sizes and free/allocated markings as before
the allocation (here proved in the stronger form that the `profile` — the
in-order list of segment sizes and free flags — is restored). -/
theorem c2_release_inverse {Q M : Nat} {s s' : ResourceAllocator}
    {n : Nat} {rg : Nat × Nat} (hQ : 1 ≤ Q) (hr : Reach Q M s)
    (hall : fast_allocate Q M s n = ARes.ok (rg, s')) :
    ∃ s'', release Q M s' rg = some s'' ∧ profile s'' = profile s := by
  obtain ⟨s'', h1, h2⟩ := release_inverse hQ (INV_of_Reach hQ hr) hall
  refine ⟨s'', h1, ?_⟩
  unfold profile
  rw [h2]

/-- Witness for C2: with `Q = 2`, `M = 4`, after `add(0..10)` the call
`allocate(4)` returns the range `[0, 4)`, and releasing that range
restores the original profile. -/
theorem c2_witness :
    (1 : Nat) ≤ 2 ∧
    fast_allocate 2 4 ({ segments := [(0, { start := 0, stop := 10, free := true })], freelists := [[], [], [0], []], allocated_segments := [], fresh := 1 } : ResourceAllocator) 4 =
      ARes.ok ((0, 4), ({ segments := [(0, { start := 0, stop := 4, free := false }), (1, { start := 4, stop := 10, free := true })], freelists := [[], [1], [], []], allocated_segments := [(0, 0)], fresh := 2 } : ResourceAllocator)) ∧
    ∃ s'', release 2 4 ({ segments := [(0, { start := 0, stop := 4, free := false }), (1, { start := 4, stop := 10, free := true })], freelists := [[], [1], [], []], allocated_segments := [(0, 0)], fresh := 2 } : ResourceAllocator) (0, 4) = some s'' ∧
      profile s'' = profile ({ segments := [(0, { start := 0, stop := 10, free := true })], freelists := [[], [], [0], []], allocated_segments := [], fresh := 1 } : ResourceAllocator) :=
  ⟨by decide, by decide,
    c2_release_inverse (n := 4) (by decide)
      (Reach.add (a := 0) (b := 10) Reach.new (by decide)
        (fun p hp => absurd hp (List.not_mem_nil p)) (by decide))
      (by decide)⟩

end C2


section C8

open DoublyLinkedList

/-- C8 (confirmed): after every sequence of `append`, `insert_front`,
`insert_after`, `pop_front` and `remove` operations that respect the
safety contracts (modelled by `ReachL`), the doubly linked list satisfies
the invariants: when a head exists its node has `prev = None`, when a tail
exists its node has `next = None`, the value sequence traced by following
`next` pointers from the head equals the reverse of the sequence traced by
following `prev` pointers from the tail, and the node arena is empty
exactly when both `head` and `tail` are absent. -/
theorem c8_linked_list_invariants {T : Type} {d : DoublyLinkedList T}
    (h : ReachL d) :
    (∀ hd, d.head = some hd → ∃ nd : LNode T,
      getNode d hd = some nd ∧ nd.prev = none) ∧
    (∀ tl, d.tail = some tl → ∃ nd : LNode T,
      getNode d tl = some nd ∧ nd.next = none) ∧
    traceNext d d.nodes.length d.head =
      (tracePrev d d.nodes.length d.tail).reverse ∧
    (d.nodes = [] ↔ d.head = none ∧ d.tail = none) := by
  obtain ⟨ids, hnodup, hperm, hhead, htail, hchain, hfresh⟩ := WF_of_ReachL h
  have hlen : ids.length = d.nodes.length := by
    have h1 := hperm.length_eq
    simpa [keys] using h1.symm
  have hbnd : bnd ids none = ids.head? := by cases ids <;> rfl
  have hlast : lastBnd ids none = ids.getLast? := by
    cases hg : ids.getLast? <;> simp [lastBnd, hg]
  refine ⟨?_, ?_, ?_, ?_⟩
  · intro hd hhd
    rw [hhead] at hhd
    cases ids with
    | nil => exact absurd hhd (by simp)
    | cons a rest =>
      obtain rfl : a = hd := by simpa using hhd
      obtain ⟨nd, ha, hprev, -, -⟩ := hchain
      exact ⟨nd, ha, hprev⟩
  · intro tl htl
    rw [htail] at htl
    obtain ⟨l', rfl⟩ := exists_concat_of_getLast? htl
    obtain ⟨-, nd, ht, -, hnext, -⟩ :=
      (linkedSeg_append l' [tl] none none).1 hchain
    refine ⟨nd, ht, ?_⟩
    rw [hnext]
    rfl
  · rw [hhead, htail, ← hbnd, ← hlast,
      traceNext_chain ids none d.nodes.length hchain (by omega),
      tracePrev_chain ids none d.nodes.length hchain (by omega),
      List.reverse_reverse]
  · constructor
    · intro hnil
      have hkeys : keys d = [] := by simp [keys, hnil]
      have hids : ids = [] := by
        rw [hkeys] at hperm
        exact hperm.symm.eq_nil
      subst hids
      exact ⟨by rw [hhead]; rfl, by rw [htail]; rfl⟩
    · rintro ⟨h1, h2⟩
      rw [hhead] at h1
      have hids : ids = [] := by
        cases ids with
        | nil => rfl
        | cons a r => simp at h1
      subst hids
      have hkeys : keys d = [] := hperm.eq_nil
      simpa [keys] using hkeys

/-- Witness for C8: the invariants hold of the one-element list built by a
single `append` on the empty list (the binder-free trace conjunct,
instantiated). -/
theorem c8_witness :
    traceNext (append (new : DoublyLinkedList Nat) 1).1
        (append (new : DoublyLinkedList Nat) 1).1.nodes.length
        (append (new : DoublyLinkedList Nat) 1).1.head =
      (tracePrev (append (new : DoublyLinkedList Nat) 1).1
        (append (new : DoublyLinkedList Nat) 1).1.nodes.length
        (append (new : DoublyLinkedList Nat) 1).1.tail).reverse :=
  (c8_linked_list_invariants (ReachL.append ReachL.new)).2.2.1

end C8

end Sos
